import Mathlib

/-!
# B+ tree (`b+tree.cpp`): a shallow embedding and its properties

The C++ class `BPlusTree<Key, Value, ORDER>` keeps its nodes on the free store
and links them with raw pointers (`children`, `parent`, `next`).  The embedding
keeps exactly that shape: the store is a list of node records, a pointer is an
index into that list (`none` is `nullptr`), `new` appends a record, and every
member function becomes a function on the store.

* A dereference of a null or dangling pointer, an out-of-range `operator[]`
  and an out-of-range iterator are undefined behaviour in C++; the embedding
  returns `none` there, so "`= some _`" always means that the C++ run is
  defined and returns.
* The `while` loop of `find_leaf` and the mutual recursion of
  `insert_in_parent` and `split_internal` take a fuel argument; the public
  entry points `find` and `insert` supply fuel computed from the store size,
  and the theorems show that it never runs out.
* `Key` is any linearly ordered type, `Value` any type, `ORDER` a natural
  number (the template parameter; the claims assume `3 ≤ ORDER`).
-/

namespace BTree

variable {K V : Type}

/-- One record for the three C++ structs `Node`, `LeafNode`, `InternalNode`:
`is_leaf`, `keys`, `parent` are the fields of `Node`; `values`, `next` those of
`LeafNode`; `children` that of `InternalNode`. A leaf has `children = []`, an
internal node has `values = []` and `next = none`. -/
structure Node (K V : Type) where
  is_leaf : Bool
  keys : List K
  parent : Option Nat
  values : List V
  next : Option Nat
  children : List Nat
deriving DecidableEq

/-- The class `BPlusTree`: the store of all nodes ever allocated plus the
member `root`. -/
structure BPlusTree (K V : Type) where
  heap : List (Node K V)
  root : Option Nat
deriving DecidableEq

/-- The constructor `BPlusTree() : root(nullptr)`. -/
def empty : BPlusTree K V := { heap := [], root := none }

/-- The value `std::lower_bound(keys.begin(), keys.end(), key) - keys.begin()`
on an ascending vector: the number of leading elements that are `< key`. Every
`keys` vector of a tree built by `insert` is ascending (part of `WF` below). -/
def lower_bound [LinearOrder K] (keys : List K) (key : K) : Nat :=
  (keys.takeWhile (fun x => decide (x < key))).length

/-- The vector after `xs.insert(xs.begin() + i, x)`. -/
def insertAt {α : Type} (xs : List α) (i : Nat) (x : α) : List α :=
  xs.take i ++ x :: xs.drop i

/-- The method `Node::is_full`: `keys.size() >= ORDER - 1`. For `1 ≤ ORDER` the
natural-number difference is the C++ value of `ORDER - 1`. -/
def Node.is_full (ORDER : Nat) (n : Node K V) : Bool :=
  decide (ORDER - 1 ≤ n.keys.length)

/-- The record built by `new LeafNode()`. -/
def new_leaf_node : Node K V :=
  { is_leaf := true, keys := [], parent := none, values := [], next := none, children := [] }

/-- The record built by `new InternalNode()`. -/
def new_internal_node : Node K V :=
  { is_leaf := false, keys := [], parent := none, values := [], next := none, children := [] }

/-- The loop `while (!current->is_leaf) { ... current = internal->children[index]; }`
of `find_leaf`, started at `current`. -/
def find_leaf_loop [LinearOrder K] (heap : List (Node K V)) (key : K) : Nat → Nat → Option Nat
  | 0, _ => none
  | fuel + 1, current =>
    match heap[current]? with
    | none => none
    | some n =>
      if n.is_leaf then some current
      else
        match n.children[lower_bound n.keys key]? with
        | none => none
        | some child => find_leaf_loop heap key fuel child

/-- The method `find_leaf`: `some none` is the returned `nullptr` of the empty
tree, `some (some l)` the returned leaf. -/
def find_leaf [LinearOrder K] (t : BPlusTree K V) (key : K) : Option (Option Nat) :=
  match t.root with
  | none => some none
  | some r => (find_leaf_loop t.heap key t.heap.length r).map some

/-- The loop `for (auto* child : new_node->children) child->parent = new_node;`. -/
def set_parents (heap : List (Node K V)) (p : Nat) : List Nat → Option (List (Node K V))
  | [] => some heap
  | c :: cs =>
    match heap[c]? with
    | none => none
    | some n => set_parents (heap.set c { n with parent := some p }) p cs

mutual

/-- The method `split_internal`. -/
def split_internal [LinearOrder K] (ORDER : Nat) :
    Nat → BPlusTree K V → Nat → Option (BPlusTree K V)
  | 0, _, _ => none
  | fuel + 1, t, node =>
    match t.heap[node]? with
    | none => none
    | some n =>
      let new_node := t.heap.length
      let mid := n.keys.length / 2
      match n.keys[mid]? with
      | none => none
      | some promotion_key =>
        if n.children.length < mid + 1 then none
        else
          let nn : Node K V :=
            { (new_internal_node : Node K V) with
              keys := n.keys.drop (mid + 1), children := n.children.drop (mid + 1) }
          let n1 : Node K V :=
            { n with keys := n.keys.take mid, children := n.children.take (mid + 1) }
          match set_parents (t.heap.set node n1 ++ [nn]) new_node nn.children with
          | none => none
          | some heap2 =>
            insert_in_parent ORDER fuel { t with heap := heap2 } node promotion_key new_node

/-- The method `insert_in_parent`. -/
def insert_in_parent [LinearOrder K] (ORDER : Nat) :
    Nat → BPlusTree K V → Nat → K → Nat → Option (BPlusTree K V)
  | 0, _, _, _, _ => none
  | fuel + 1, t, old_node, key, new_node =>
    if t.root = some old_node then
      let new_root := t.heap.length
      let nr : Node K V :=
        { (new_internal_node : Node K V) with keys := [key], children := [old_node, new_node] }
      match set_parents (t.heap ++ [nr]) new_root [old_node, new_node] with
      | none => none
      | some heap1 => some { heap := heap1, root := some new_root }
    else
      match t.heap[old_node]? with
      | none => none
      | some o =>
        match o.parent with
        | none => none
        | some parent =>
          match t.heap[parent]? with
          | none => none
          | some p =>
            if p.is_leaf then none
            else
              let index := lower_bound p.keys key
              if p.children.length < index + 1 then none
              else
                let p1 : Node K V :=
                  { p with keys := insertAt p.keys index key,
                           children := insertAt p.children (index + 1) new_node }
                match set_parents (t.heap.set parent p1) parent [new_node] with
                | none => none
                | some heap2 =>
                  if p1.is_full ORDER then split_internal ORDER fuel { t with heap := heap2 } parent
                  else some { t with heap := heap2 }

end

/-- The method `split_leaf`. -/
def split_leaf [LinearOrder K] (ORDER : Nat) (fuel : Nat) (t : BPlusTree K V) (leaf : Nat) :
    Option (BPlusTree K V) :=
  match t.heap[leaf]? with
  | none => none
  | some l =>
    let new_leaf := t.heap.length
    let mid := l.keys.length / 2
    if l.values.length < mid then none
    else
      let nl : Node K V :=
        { (new_leaf_node : Node K V) with
          keys := l.keys.drop mid, values := l.values.drop mid, next := l.next }
      let l1 : Node K V :=
        { l with keys := l.keys.take mid, values := l.values.take mid, next := some new_leaf }
      match nl.keys.head? with
      | none => none
      | some promotion_key =>
        insert_in_parent ORDER fuel { t with heap := t.heap.set leaf l1 ++ [nl] }
          leaf promotion_key new_leaf

/-- The method `insert`. The chain of `insert_in_parent` / `split_internal`
calls started by `split_leaf` is at most two calls per level of the tree, and
the tree has fewer levels than the store has nodes. -/
def insert [LinearOrder K] (ORDER : Nat) (t : BPlusTree K V) (key : K) (value : V) :
    Option (BPlusTree K V) :=
  match t.root with
  | none =>
    some { heap := t.heap ++
             [{ (new_leaf_node : Node K V) with keys := [key], values := [value] }],
           root := some t.heap.length }
  | some _ =>
    match find_leaf t key with
    | some (some leaf) =>
      match t.heap[leaf]? with
      | none => none
      | some l =>
        if l.is_leaf then
          let index := lower_bound l.keys key
          if l.values.length < index then none
          else
            let l1 : Node K V :=
              { l with keys := insertAt l.keys index key,
                       values := insertAt l.values index value }
            let t1 : BPlusTree K V := { t with heap := t.heap.set leaf l1 }
            if l1.is_full ORDER then split_leaf ORDER (2 * t.heap.length + 2) t1 leaf
            else some t1
        else none
    | _ => none

/-- The method `find`: `some (some v)` is "returns `true` with `result = v`",
`some none` is "returns `false`, `result` untouched". -/
def find [LinearOrder K] (t : BPlusTree K V) (key : K) : Option (Option V) :=
  match find_leaf t key with
  | none => none
  | some none => some none
  | some (some leaf) =>
    match t.heap[leaf]? with
    | none => none
    | some l =>
      let index := lower_bound l.keys key
      match l.keys[index]? with
      | none => some none
      | some k =>
        if k = key then
          match l.values[index]? with
          | none => none
          | some v => some (some v)
        else some none

/-- A run of `insert` calls, in list order, on a given tree. -/
def insert_list [LinearOrder K] (ORDER : Nat) :
    BPlusTree K V → List (K × V) → Option (BPlusTree K V)
  | t, [] => some t
  | t, (k, v) :: rest =>
    match insert ORDER t k v with
    | none => none
    | some t1 => insert_list ORDER t1 rest

/-- A run of `insert` calls on the empty tree. -/
def build [LinearOrder K] (ORDER : Nat) (xs : List (K × V)) : Option (BPlusTree K V) :=
  insert_list ORDER empty xs

/-! ## Observations on a tree -/

/-- The root node as the driver's `print` shows it at depth 0 and 1: its kind
and keys and, for each child pointer, the kind and keys of the child. -/
def root_view (t : BPlusTree K V) : Option (Bool × List K × List (Option (Bool × List K))) :=
  match t.root with
  | none => none
  | some r =>
    match t.heap[r]? with
    | none => none
    | some n =>
      some (n.is_leaf, n.keys,
        n.children.map (fun c => (t.heap[c]?).map (fun m => (m.is_leaf, m.keys))))

/-! ## The states of the driver `main` (`BPlusTree<int, string>`, `ORDER = 4`) -/

/-- A leaf record of the driver's tree. -/
def demo_leaf (ks : List Nat) (p : Option Nat) (vs : List String) (nx : Option Nat) :
    Node Nat String :=
  ⟨true, ks, p, vs, nx, []⟩

/-- An internal record of the driver's tree. -/
def demo_internal (ks : List Nat) (p : Option Nat) (cs : List Nat) : Node Nat String :=
  ⟨false, ks, p, [], none, cs⟩

/-- The store after `insert(5)`, `insert(3)`, `insert(7)`. -/
def demo3 : BPlusTree Nat String :=
  ⟨[demo_leaf [3] (some 2) ["perro3"] (some 1),
    demo_leaf [5, 7] (some 2) ["sapo5", "pato7"] none,
    demo_internal [5] none [0, 1]], some 2⟩

/-- The store after the further `insert(1)`. -/
def demo4 : BPlusTree Nat String :=
  ⟨[demo_leaf [1, 3] (some 2) ["gato1", "perro3"] (some 1),
    demo_leaf [5, 7] (some 2) ["sapo5", "pato7"] none,
    demo_internal [5] none [0, 1]], some 2⟩

/-- The store after the further `insert(9)`: the state `main` prints and searches. -/
def demo5 : BPlusTree Nat String :=
  ⟨[demo_leaf [1, 3] (some 2) ["gato1", "perro3"] (some 1),
    demo_leaf [5] (some 2) ["sapo5"] (some 3),
    demo_internal [5, 7] none [0, 1, 3],
    demo_leaf [7, 9] (some 2) ["pato7", "conejo9"] none], some 2⟩

/-! ## The tree a store represents -/

/-- The list of the values when every element is present. -/
def all_some {α : Type} : List (Option α) → Option (List α)
  | [] => some []
  | none :: _ => none
  | some x :: xs =>
    match all_some xs with
    | none => none
    | some ys => some (x :: ys)

/-- The leaves below `node` in the left-to-right order of the `children`
vectors, each with its depth below `node` (the number of child links on the way
down). `none` if a pointer dangles or the fuel runs out. -/
def leaves_below (heap : List (Node K V)) : Nat → Nat → Option (List (Nat × Nat))
  | 0, _ => none
  | fuel + 1, node =>
    match heap[node]? with
    | none => none
    | some n =>
      if n.is_leaf then some [(node, 0)]
      else
        match all_some (n.children.map (leaves_below heap fuel)) with
        | none => none
        | some ls => some (ls.flatten.map (fun x => (x.1, x.2 + 1)))

/-- The leaves of the tree from left to right, each with its depth below the
root; the empty tree has none. -/
def leaves (t : BPlusTree K V) : Option (List (Nat × Nat)) :=
  match t.root with
  | none => some []
  | some r => leaves_below t.heap t.heap.length r

/-- The key/value pairs of the leaf at address `leaf`: `keys[i]` with
`values[i]`; `none` unless the two vectors have the same size. -/
def leaf_entries (heap : List (Node K V)) (leaf : Nat) : Option (List (K × V)) :=
  match heap[leaf]? with
  | none => none
  | some n => if n.keys.length = n.values.length then some (n.keys.zip n.values) else none

/-- The key/value pairs stored in the leaves named by `ls`, in that order. -/
def entries_of (heap : List (Node K V)) (ls : List Nat) : Option (List (K × V)) :=
  match all_some (ls.map (leaf_entries heap)) with
  | none => none
  | some es => some es.flatten

/-- The key/value pairs stored in the tree, leaf by leaf from left to right. -/
def entries (t : BPlusTree K V) : Option (List (K × V)) :=
  match leaves t with
  | none => none
  | some ls => entries_of t.heap (ls.map (fun x => x.1))

/-- The leaves visited from `cur` along the `next` links. -/
def chain_from (heap : List (Node K V)) : Nat → Option Nat → Option (List Nat)
  | _, none => some []
  | 0, some _ => none
  | fuel + 1, some cur =>
    match heap[cur]? with
    | none => none
    | some n =>
      match chain_from heap fuel n.next with
      | none => none
      | some rest => some (cur :: rest)

/-- The leftmost leaf below `node`: follow `children[0]` down to a leaf. -/
def leftmost_below (heap : List (Node K V)) : Nat → Nat → Option Nat
  | 0, _ => none
  | fuel + 1, node =>
    match heap[node]? with
    | none => none
    | some n =>
      if n.is_leaf then some node
      else
        match n.children[0]? with
        | none => none
        | some c => leftmost_below heap fuel c

/-- The leaves of the tree in the order of the sibling chain, started at the
leftmost leaf; the empty tree has none. -/
def chain (t : BPlusTree K V) : Option (List Nat) :=
  match t.root with
  | none => some []
  | some r =>
    match leftmost_below t.heap t.heap.length r with
    | none => none
    | some l => chain_from t.heap t.heap.length (some l)

/-- The keys stored in the leaves below `node`, from left to right. -/
def keys_below (heap : List (Node K V)) (node : Nat) : Option (List K) :=
  match leaves_below heap heap.length node with
  | none => none
  | some ls =>
    match entries_of heap (ls.map (fun x => x.1)) with
    | none => none
    | some es => some (es.map (fun e => e.1))

/-- A leaf of the represented tree: the address of its record and the record's
`keys`, `values`, `next`. -/
structure LeafR (K V : Type) where
  id : Nat
  keys : List K
  values : List V
  next : Option Nat

/-- An internal node of the represented tree: the address of its record, the
record's `keys`, and the subtrees its `children` point to. -/
structure NodeR (K C : Type) where
  id : Nat
  keys : List K
  children : List C

/-- The trees of height `d`: every leaf lies `d` child links below the top. -/
def PT (K V : Type) : Nat → Type
  | 0 => LeafR K V
  | d + 1 => NodeR K (PT K V d)

/-- The address of the top node. -/
def PT.rid : (d : Nat) → PT K V d → Nat
  | 0, (l : LeafR K V) => l.id
  | _ + 1, (n : NodeR K _) => n.id

/-- The addresses of all nodes, top first. -/
def PT.ids : (d : Nat) → PT K V d → List Nat
  | 0, (l : LeafR K V) => [l.id]
  | d + 1, (n : NodeR K (PT K V d)) => n.id :: (n.children.map (PT.ids d)).flatten

/-- The leaves from left to right. -/
def PT.leaves : (d : Nat) → PT K V d → List (LeafR K V)
  | 0, (l : LeafR K V) => [l]
  | d + 1, (n : NodeR K (PT K V d)) => (n.children.map (PT.leaves d)).flatten

/-- The key/value pairs of a leaf, in order. -/
def LeafR.entries (l : LeafR K V) : List (K × V) := l.keys.zip l.values

/-- The key/value pairs of the leaves from left to right. -/
def PT.entries (d : Nat) (t : PT K V d) : List (K × V) :=
  ((PT.leaves d t).map LeafR.entries).flatten

/-- The record of a leaf whose `parent` field is `p`. -/
def leaf_rec (p : Option Nat) (l : LeafR K V) : Node K V :=
  ⟨true, l.keys, p, l.values, l.next, []⟩

/-- The record of an internal node whose `parent` field is `p`. -/
def node_rec (d : Nat) (p : Option Nat) (n : NodeR K (PT K V d)) : Node K V :=
  ⟨false, n.keys, p, [], none, n.children.map (PT.rid d)⟩

/-- The store `h` holds the tree `t` below a node whose `parent` field is `p`:
every node of `t` is the record at its address, and every child's `parent`
field is the address of the node above it. -/
def Rep (h : List (Node K V)) : (d : Nat) → Option Nat → PT K V d → Prop
  | 0, p, (l : LeafR K V) => h[l.id]? = some (leaf_rec p l)
  | d + 1, p, (n : NodeR K (PT K V d)) =>
      h[n.id]? = some (node_rec d p n) ∧ ∀ c ∈ n.children, Rep h d (some n.id) c

/-- What an insertion below a node hands to the level above: the subtree
changed in place, or the subtree split in two with a key to promote. -/
inductive Res (K V : Type) (d : Nat) where
  | done (t : PT K V d)
  | split (l : PT K V d) (pk : K) (r : PT K V d)

/-- The leaf after `insert` has placed `(k, v)` at the lower-bound position. -/
def leaf_ins [LinearOrder K] (k : K) (v : V) (l : LeafR K V) : LeafR K V :=
  ⟨l.id, insertAt l.keys (lower_bound l.keys k) k, insertAt l.values (lower_bound l.keys k) v,
    l.next⟩

/-- The two leaves and the promoted key `split_leaf` makes of the leaf `l`;
`fresh` is the address of the new leaf, `k` a default that is never used on a
leaf with a key. -/
def leaf_split (fresh : Nat) (k : K) (l : LeafR K V) : Res K V 0 :=
  .split (⟨l.id, l.keys.take (l.keys.length / 2), l.values.take (l.keys.length / 2),
            some fresh⟩ : LeafR K V)
    ((l.keys.drop (l.keys.length / 2)).headD k)
    (⟨fresh, l.keys.drop (l.keys.length / 2), l.values.drop (l.keys.length / 2),
            l.next⟩ : LeafR K V)

/-- The node after `insert_in_parent` has placed the promoted key `pk` and the
new sibling `r`, when the child at index `i` became `l`. -/
def node_ins [LinearOrder K] (d : Nat) (n : NodeR K (PT K V d)) (i : Nat)
    (l : PT K V d) (pk : K) (r : PT K V d) : NodeR K (PT K V d) :=
  ⟨n.id, insertAt n.keys (lower_bound n.keys pk) pk,
    insertAt (n.children.set i l) (lower_bound n.keys pk + 1) r⟩

/-- The two nodes and the promoted key `split_internal` makes of the node `n`;
`fresh` is the address of the new node, `k` a default that is never used on a
node with a key. -/
def node_split (fresh : Nat) (k : K) (d : Nat) (n : NodeR K (PT K V d)) : Res K V (d + 1) :=
  .split (⟨n.id, n.keys.take (n.keys.length / 2),
            n.children.take (n.keys.length / 2 + 1)⟩ : NodeR K (PT K V d))
    (n.keys.getD (n.keys.length / 2) k)
    (⟨fresh, n.keys.drop (n.keys.length / 2 + 1),
            n.children.drop (n.keys.length / 2 + 1)⟩ : NodeR K (PT K V d))

/-- What a node does with the result of the insertion into its child `i`. -/
def pins_node [LinearOrder K] (ORDER fresh : Nat) (k : K) (d : Nat) (n : NodeR K (PT K V d))
    (i : Nat) : Res K V d → Res K V (d + 1)
  | .done c1 => .done (⟨n.id, n.keys, n.children.set i c1⟩ : NodeR K (PT K V d))
  | .split l pk r =>
    if ORDER - 1 ≤ (node_ins d n i l pk r).keys.length then
      node_split (fresh + d + 1) k d (node_ins d n i l pk r)
    else .done (node_ins d n i l pk r)

/-- The effect of `insert(k, v)` on the subtree `t`, as a function on trees;
`fresh` is the address the next `new` returns. -/
def pins [LinearOrder K] (ORDER : Nat) (fresh : Nat) (k : K) (v : V) :
    (d : Nat) → PT K V d → Res K V d
  | 0, (l : LeafR K V) =>
    if ORDER - 1 ≤ (leaf_ins k v l).keys.length then leaf_split fresh k (leaf_ins k v l)
    else .done (leaf_ins k v l)
  | d + 1, (n : NodeR K (PT K V d)) =>
    match n.children[lower_bound n.keys k]? with
    | none => .done n
    | some c => pins_node ORDER fresh k d n (lower_bound n.keys k) (pins ORDER fresh k v d c)

/-- The leaf `find_leaf(k)` reaches in the subtree `t`. -/
def pleaf [LinearOrder K] (k : K) : (d : Nat) → PT K V d → LeafR K V
  | 0, (l : LeafR K V) => l
  | d + 1, (n : NodeR K (PT K V d)) =>
    match n.children[lower_bound n.keys k]? with
    | none => ⟨n.id, [], [], none⟩
    | some c => pleaf k d c

/-- The shape every tree built by `insert` has: co-indexed keys and values,
one more child than keys, ascending keys, and between two calls no node holds
`ORDER - 1` keys and no leaf is empty. -/
def WF [LinearOrder K] (ORDER : Nat) : (d : Nat) → PT K V d → Prop
  | 0, (l : LeafR K V) =>
      l.values.length = l.keys.length ∧ 1 ≤ l.keys.length ∧ l.keys.length < ORDER - 1 ∧
      l.keys.Sorted (· ≤ ·)
  | d + 1, (n : NodeR K (PT K V d)) =>
      n.children.length = n.keys.length + 1 ∧ n.keys.length < ORDER - 1 ∧
      n.keys.Sorted (· ≤ ·) ∧ ∀ c ∈ n.children, WF ORDER d c

/-- The body of `insert` once `find_leaf` has returned `leaf`. -/
def leaf_step [LinearOrder K] (ORDER : Nat) (fuel : Nat) (t : BPlusTree K V) (leaf : Nat)
    (key : K) (value : V) : Option (BPlusTree K V) :=
  match t.heap[leaf]? with
  | none => none
  | some l =>
    if l.is_leaf then
      let index := lower_bound l.keys key
      if l.values.length < index then none
      else
        let l1 : Node K V :=
          { l with keys := insertAt l.keys index key,
                   values := insertAt l.values index value }
        let t1 : BPlusTree K V := { t with heap := t.heap.set leaf l1 }
        if l1.is_full ORDER then split_leaf ORDER fuel t1 leaf
        else some t1
    else none

/-- One entry of the log of calls. The definitions below whose name ends in
`_log` are the methods once more, unchanged but for a log that is handed
through and returned. `leaf_split leaf size` and `internal_split node size`
are a call of a split method on a node that holds `size` keys;
`place old_node new_node index before after` is `insert_in_parent` on a node
with a parent, `index` the lower-bound position of the key among the parent's
keys, `before` and `after` the parent's `children` before and after the
insertion of `new_node`. -/
inductive Event where
  | leaf_split (leaf size : Nat)
  | internal_split (node size : Nat)
  | place (old_node new_node index : Nat) (before after : List Nat)
deriving DecidableEq

mutual

/-- The method `split_internal`, with the log. -/
def split_internal_log [LinearOrder K] (ORDER : Nat) :
    Nat → BPlusTree K V → Nat → List Event → Option (BPlusTree K V × List Event)
  | 0, _, _, _ => none
  | fuel + 1, t, node, log =>
    match t.heap[node]? with
    | none => none
    | some n =>
      let new_node := t.heap.length
      let mid := n.keys.length / 2
      match n.keys[mid]? with
      | none => none
      | some promotion_key =>
        if n.children.length < mid + 1 then none
        else
          let nn : Node K V :=
            { (new_internal_node : Node K V) with
              keys := n.keys.drop (mid + 1), children := n.children.drop (mid + 1) }
          let n1 : Node K V :=
            { n with keys := n.keys.take mid, children := n.children.take (mid + 1) }
          match set_parents (t.heap.set node n1 ++ [nn]) new_node nn.children with
          | none => none
          | some heap2 =>
            insert_in_parent_log ORDER fuel { t with heap := heap2 } node promotion_key new_node
              (log ++ [Event.internal_split node n.keys.length])

/-- The method `insert_in_parent`, with the log. -/
def insert_in_parent_log [LinearOrder K] (ORDER : Nat) :
    Nat → BPlusTree K V → Nat → K → Nat → List Event → Option (BPlusTree K V × List Event)
  | 0, _, _, _, _, _ => none
  | fuel + 1, t, old_node, key, new_node, log =>
    if t.root = some old_node then
      let new_root := t.heap.length
      let nr : Node K V :=
        { (new_internal_node : Node K V) with keys := [key], children := [old_node, new_node] }
      match set_parents (t.heap ++ [nr]) new_root [old_node, new_node] with
      | none => none
      | some heap1 => some ({ heap := heap1, root := some new_root }, log)
    else
      match t.heap[old_node]? with
      | none => none
      | some o =>
        match o.parent with
        | none => none
        | some parent =>
          match t.heap[parent]? with
          | none => none
          | some p =>
            if p.is_leaf then none
            else
              let index := lower_bound p.keys key
              if p.children.length < index + 1 then none
              else
                let p1 : Node K V :=
                  { p with keys := insertAt p.keys index key,
                           children := insertAt p.children (index + 1) new_node }
                match set_parents (t.heap.set parent p1) parent [new_node] with
                | none => none
                | some heap2 =>
                  if p1.is_full ORDER then
                    split_internal_log ORDER fuel { t with heap := heap2 } parent
                      (log ++ [Event.place old_node new_node index p.children p1.children])
                  else
                    some ({ t with heap := heap2 },
                      log ++ [Event.place old_node new_node index p.children p1.children])

end

/-- The method `split_leaf`, with the log. -/

def split_leaf_log [LinearOrder K] (ORDER : Nat) (fuel : Nat) (t : BPlusTree K V) (leaf : Nat)
    (log : List Event) : Option (BPlusTree K V × List Event) :=
  match t.heap[leaf]? with
  | none => none
  | some l =>
    let new_leaf := t.heap.length
    let mid := l.keys.length / 2
    if l.values.length < mid then none
    else
      let nl : Node K V :=
        { (new_leaf_node : Node K V) with
          keys := l.keys.drop mid, values := l.values.drop mid, next := l.next }
      let l1 : Node K V :=
        { l with keys := l.keys.take mid, values := l.values.take mid, next := some new_leaf }
      match nl.keys.head? with
      | none => none
      | some promotion_key =>
        insert_in_parent_log ORDER fuel { t with heap := t.heap.set leaf l1 ++ [nl] }
          leaf promotion_key new_leaf (log ++ [Event.leaf_split leaf l.keys.length])

/-- The body of `insert` once `find_leaf` has returned `leaf`, with the log. -/
def leaf_step_log [LinearOrder K] (ORDER : Nat) (fuel : Nat) (t : BPlusTree K V) (leaf : Nat)
    (key : K) (value : V) (log : List Event) : Option (BPlusTree K V × List Event) :=
  match t.heap[leaf]? with
  | none => none
  | some l =>
    if l.is_leaf then
      let index := lower_bound l.keys key
      if l.values.length < index then none
      else
        let l1 : Node K V :=
          { l with keys := insertAt l.keys index key,
                   values := insertAt l.values index value }
        let t1 : BPlusTree K V := { t with heap := t.heap.set leaf l1 }
        if l1.is_full ORDER then split_leaf_log ORDER fuel t1 leaf log
        else some (t1, log)
    else none

/-- The method `insert`, with the log. -/
def insert_log [LinearOrder K] (ORDER : Nat) (t : BPlusTree K V) (key : K) (value : V)
    (log : List Event) : Option (BPlusTree K V × List Event) :=
  match t.root with
  | none =>
    some ({ heap := t.heap ++
              [{ (new_leaf_node : Node K V) with keys := [key], values := [value] }],
            root := some t.heap.length }, log)
  | some _ =>
    match find_leaf t key with
    | some (some leaf) =>
      match t.heap[leaf]? with
      | none => none
      | some l =>
        if l.is_leaf then
          let index := lower_bound l.keys key
          if l.values.length < index then none
          else
            let l1 : Node K V :=
              { l with keys := insertAt l.keys index key,
                       values := insertAt l.values index value }
            let t1 : BPlusTree K V := { t with heap := t.heap.set leaf l1 }
            if l1.is_full ORDER then split_leaf_log ORDER (2 * t.heap.length + 2) t1 leaf log
            else some (t1, log)
        else none
    | _ => none

/-- A run of `insert` calls, in list order, on a given tree, with the log. -/
def insert_list_log [LinearOrder K] (ORDER : Nat) :
    BPlusTree K V → List (K × V) → List Event → Option (BPlusTree K V × List Event)
  | t, [], log => some (t, log)
  | t, (k, v) :: rest, log =>
    match insert_log ORDER t k v log with
    | none => none
    | some (t1, log1) => insert_list_log ORDER t1 rest log1

/-- A run of `insert` calls on the empty tree, with the log of all calls. -/
def build_log [LinearOrder K] (ORDER : Nat) (xs : List (K × V)) :
    Option (BPlusTree K V × List Event) :=
  insert_list_log ORDER empty xs []

/-- A split is made on a node that holds exactly `ORDER - 1` keys. -/
def Event.split_ok (ORDER : Nat) : Event → Prop
  | .leaf_split _ size => size = ORDER - 1
  | .internal_split _ size => size = ORDER - 1
  | .place _ _ _ _ _ => True

/-- The lower-bound position of the promoted key is the position of the old
node among the children of its parent, and the new node is put right behind
the old one. -/
def Event.place_ok : Event → Prop
  | .place old_node new_node index before after =>
      before[index]? = some old_node ∧ after = insertAt before (index + 1) new_node ∧
      after[index]? = some old_node ∧ after[index + 1]? = some new_node
  | _ => True

/-- The addresses of all nodes in a list of subtrees. -/
def idsL (d : Nat) (cs : List (PT K V d)) : List Nat := (cs.map (PT.ids d)).flatten

/-- The addresses of the outcome of an insertion, as one list. -/
def Res.ids (d : Nat) : Res K V d → List Nat
  | .done t => PT.ids d t
  | .split l _ r => PT.ids d l ++ PT.ids d r

/-- The address of the (left) top node of the outcome. -/
def Res.rid (d : Nat) : Res K V d → Nat
  | .done t => PT.rid d t
  | .split l _ _ => PT.rid d l

/-- The count of `a` in the one-element list `[x]`. -/
def count_one {α : Type} [DecidableEq α] (a x : α) : Nat := List.count a [x]

/-- The store holds the outcome of an insertion. -/
def Res.Holds (h : List (Node K V)) (d : Nat) (p : Option Nat) : Res K V d → Prop
  | .done t => Rep h d p t
  | .split l _ r => Rep h d p l ∧ Rep h d none r

/-- What is left to run after the outcome at a node `old`: nothing, or the
call `insert_in_parent(old, pk, new)`. -/
def up_call [LinearOrder K] (ORDER f r : Nat) (h : List (Node K V)) (old : Nat) (d : Nat) :
    Res K V d → Option (BPlusTree K V)
  | .done _ => some ⟨h, some r⟩
  | .split _ pk rt => insert_in_parent ORDER f ⟨h, some r⟩ old pk (PT.rid d rt)

/-- A represented tree of some height. -/
def AT (K V : Type) : Type := (d : Nat) × PT K V d

/-- The tree after `insert(k, v)`; `none` is the empty tree. The address the
next `new` returns is the number of nodes allocated so far. -/
def pinsert [LinearOrder K] (ORDER : Nat) (k : K) (v : V) : Option (AT K V) → AT K V
  | none => ⟨0, (⟨0, [k], [v], none⟩ : LeafR K V)⟩
  | some ⟨d, t⟩ =>
    match pins ORDER (PT.ids d t).length k v d t with
    | .done t1 => ⟨d, t1⟩
    | .split l pk r =>
      ⟨d + 1, (⟨(PT.ids d t).length + d + 1, [pk], [l, r]⟩ : NodeR K (PT K V d))⟩

/-- The tree after a run of `insert` calls on a tree. -/
def pinsert_list [LinearOrder K] (ORDER : Nat) : Option (AT K V) → List (K × V) → Option (AT K V)
  | s, [] => s
  | s, (k, v) :: rest => pinsert_list ORDER (some (pinsert ORDER k v s)) rest

/-- The tree after a run of `insert` calls on the empty tree. -/
def pbuild [LinearOrder K] (ORDER : Nat) (xs : List (K × V)) : Option (AT K V) :=
  pinsert_list ORDER none xs

/-- The store `T` holds the tree `s`, and nothing else. -/
def Abs (T : BPlusTree K V) : Option (AT K V) → Prop
  | none => T = empty
  | some ⟨d, t⟩ =>
    T.root = some (PT.rid d t) ∧ Rep T.heap d none t ∧
      (PT.ids d t).Perm (List.range T.heap.length)

/-- The shape invariant of a possibly empty tree. -/
def WFs [LinearOrder K] (ORDER : Nat) : Option (AT K V) → Prop
  | none => True
  | some ⟨d, t⟩ => WF ORDER d t

/-- The shape invariant of an outcome. -/
def Res.WF [LinearOrder K] (ORDER : Nat) (d : Nat) : Res K V d → Prop
  | .done t => BTree.WF ORDER d t
  | .split l _ r => BTree.WF ORDER d l ∧ BTree.WF ORDER d r

/-- The entries of a list of subtrees, left to right. -/
def entriesL (d : Nat) (cs : List (PT K V d)) : List (K × V) := (cs.map (PT.entries d)).flatten

/-- The entries of an outcome, left to right. -/
def Res.entries (d : Nat) : Res K V d → List (K × V)
  | .done t => PT.entries d t
  | .split l _ r => PT.entries d l ++ PT.entries d r

/-- The entries of a possibly empty tree. -/
def pentries : Option (AT K V) → List (K × V)
  | none => []
  | some ⟨d, t⟩ => PT.entries d t

/-- The result of the leaf search of `find` in the leaf `l`. -/
def pfind [LinearOrder K] (k : K) (l : LeafR K V) : Option V :=
  match l.keys[lower_bound l.keys k]? with
  | none => none
  | some k1 => if k1 = k then l.values[lower_bound l.keys k]? else none

/-- The leaves of a possibly empty tree, left to right. -/
def pleaves : Option (AT K V) → List (LeafR K V)
  | none => []
  | some ⟨d, t⟩ => PT.leaves d t

/-- The height of a possibly empty tree. -/
def pheight : Option (AT K V) → Nat
  | none => 0
  | some ⟨d, _⟩ => d

/-- The keys of a list of leaves, in order. -/
def keysL (ls : List (LeafR K V)) : List K := (ls.map (fun l => l.keys)).flatten

/-- The keys stored in the leaves of a tree, from left to right. -/
def PT.pkeys (d : Nat) (t : PT K V d) : List K := keysL (PT.leaves d t)

/-- Every separator is the smallest key of the subtree to its right:
`keys[i]` is the first key below `children[i+1]`. -/
def SepMin : (d : Nat) → PT K V d → Prop
  | 0, _ => True
  | d + 1, (n : NodeR K (PT K V d)) =>
      (∀ i s c, n.keys[i]? = some s → n.children[i + 1]? = some c →
        (PT.pkeys d c).head? = some s) ∧
      ∀ c ∈ n.children, SepMin d c

/-- The leaves of an outcome, left to right. -/
def Res.leaves (d : Nat) : Res K V d → List (LeafR K V)
  | .done t => PT.leaves d t
  | .split l _ r => PT.leaves d l ++ PT.leaves d r

/-- The separator invariant of an outcome: a promoted key is the smallest
key of the new right sibling. -/
def Res.SepMin (d : Nat) : Res K V d → Prop
  | .done t => BTree.SepMin d t
  | .split l pk r => BTree.SepMin d l ∧ BTree.SepMin d r ∧ (PT.pkeys d r).head? = some pk

/-- The leaves of a list of subtrees, left to right. -/
def leavesL (d : Nat) (cs : List (PT K V d)) : List (LeafR K V) :=
  (cs.map (PT.leaves d)).flatten

/-- The `next` links of a run of leaves: each leaf points to the leaf after
it, the last one to `e`. -/
def LinkedTo (e : Option Nat) : List (LeafR K V) → Prop
  | [] => True
  | [l] => l.next = e
  | l :: l1 :: rest => l.next = some l1.id ∧ LinkedTo e (l1 :: rest)

/-- The address a leaf in front of the run `rest` points to: the first leaf
of `rest`, or `e` when `rest` is empty. -/
def next_of (e : Option Nat) : List (LeafR K V) → Option Nat
  | [] => e
  | l1 :: _ => some l1.id

/-- The keys of a possibly empty tree in leaf order. -/
def ppkeys : Option (AT K V) → List K
  | none => []
  | some ⟨d, t⟩ => PT.pkeys d t

/-- The order invariant of a possibly empty tree: the keys in leaf order are
ascending without repetition, every separator is the smallest key to its
right, and the sibling chain runs through the leaves from left to right. -/
def Ordered [LinearOrder K] : Option (AT K V) → Prop
  | none => True
  | some ⟨d, t⟩ =>
    (PT.pkeys d t).Sorted (· < ·) ∧ SepMin d t ∧ LinkedTo none (PT.leaves d t)

/-- Every internal node of the tree holds a key. -/
def Keyed : (d : Nat) → PT K V d → Prop
  | 0, _ => True
  | d + 1, (n : NodeR K (PT K V d)) => 1 ≤ n.keys.length ∧ ∀ c ∈ n.children, Keyed d c

/-- Every internal node of an outcome holds a key. -/
def Res.Keyed (d : Nat) : Res K V d → Prop
  | .done t => BTree.Keyed d t
  | .split l _ r => BTree.Keyed d l ∧ BTree.Keyed d r

/-- Every internal node of a possibly empty tree holds a key. -/
def Keyeds : Option (AT K V) → Prop
  | none => True
  | some ⟨d, t⟩ => Keyed d t

/-- The store after `insert(1)`, `insert(2)` with `ORDER = 3`. -/
def order3_two : BPlusTree Nat String :=
  ⟨[demo_leaf [1] (some 2) ["a"] (some 1),
    demo_leaf [2] (some 2) ["b"] none,
    demo_internal [2] none [0, 1]], some 2⟩

/-- The store after the further `insert(3)` with `ORDER = 3`. -/
def order3_three : BPlusTree Nat String :=
  ⟨[demo_leaf [1] (some 2) ["a"] (some 1),
    demo_leaf [2] (some 2) ["b"] (some 3),
    demo_internal [2] (some 5) [0, 1],
    demo_leaf [3] (some 4) ["c"] none,
    demo_internal [] (some 5) [3],
    demo_internal [3] none [2, 4]], some 5⟩

/-- The keys of the internal nodes of a tree (the separators). -/
def PT.seps : (d : Nat) → PT K V d → List K
  | 0, _ => []
  | d + 1, (n : NodeR K (PT K V d)) => n.keys ++ (n.children.map (PT.seps d)).flatten

/-- What is left to run after the outcome at a node `old`, with the log:
nothing, or the call `insert_in_parent(old, pk, new)`. -/
def up_call_log [LinearOrder K] (ORDER f r : Nat) (h : List (Node K V)) (old : Nat) (d : Nat) :
    Res K V d → List Event → Option (BPlusTree K V × List Event)
  | .done _, log => some (⟨h, some r⟩, log)
  | .split _ pk rt, log => insert_in_parent_log ORDER f ⟨h, some r⟩ old pk (PT.rid d rt) log

/-- The address of the first leaf of a list of leaves. -/
def head_id (ls : List (LeafR K V)) : Option Nat := ls.head?.map (fun l => l.id)

/-- The sibling chain of a possibly empty tree is `cl`: `cl` holds the leaves
of the tree, each once, starts at the leftmost leaf, and every leaf of `cl`
points to the leaf after it, the last one to nothing. -/
def Chained : Option (AT K V) → List (LeafR K V) → Prop
  | none, cl => cl = []
  | some ⟨d, t⟩, cl =>
    cl.Perm (PT.leaves d t) ∧ LinkedTo none cl ∧ head_id cl = head_id (PT.leaves d t)

/-- The key/value pairs stored in the leaves, in the order of the sibling
chain: from the leftmost leaf along the `next` links. -/
def chain_entries (t : BPlusTree K V) : Option (List (K × V)) :=
  match chain t with
  | none => none
  | some ls => entries_of t.heap ls

/-- The entries of a row of leaves. -/
def entriesOf (ls : List (LeafR K V)) : List (K × V) := (ls.map LeafR.entries).flatten

/-! ## Runs of `insert` -/

theorem insert_list_append [LinearOrder K] (ORDER : Nat) (xs ys : List (K × V)) :
    ∀ t : BPlusTree K V, insert_list ORDER t (xs ++ ys) =
      (insert_list ORDER t xs).bind (fun t1 => insert_list ORDER t1 ys) := by
  induction xs with
  | nil => intro t; rfl
  | cons x xs ih =>
    intro t
    obtain ⟨k, v⟩ := x
    simp only [List.cons_append, insert_list]
    cases insert ORDER t k v with
    | none => rfl
    | some t1 => exact ih t1

theorem build_snoc [LinearOrder K] (ORDER : Nat) (xs : List (K × V)) (k : K) (v : V)
    (t : BPlusTree K V) (h : build ORDER xs = some t) :
    build ORDER (xs ++ [(k, v)]) = insert ORDER t k v := by
  unfold build at h ⊢
  rw [insert_list_append, h]
  simp only [Option.bind, insert_list]
  cases insert ORDER t k v <;> rfl

/-! ## The driver's scenario -/

theorem build_demo3 : build 4 [(5, "sapo5"), (3, "perro3"), (7, "pato7")] = some demo3 := by
  decide

theorem insert_demo4 : insert 4 demo3 1 "gato1" = some demo4 := by decide

theorem insert_demo5 : insert 4 demo4 9 "conejo9" = some demo5 := by decide

theorem build_demo4 :
    build 4 [(5, "sapo5"), (3, "perro3"), (7, "pato7"), (1, "gato1")] = some demo4 := by
  have h := build_snoc 4 _ 1 "gato1" demo3 build_demo3
  simp only [List.cons_append, List.nil_append] at h
  rw [h, insert_demo4]

theorem build_demo5 :
    build 4 [(5, "sapo5"), (3, "perro3"), (7, "pato7"), (1, "gato1"), (9, "conejo9")] =
      some demo5 := by
  have h := build_snoc 4 _ 9 "conejo9" demo4 build_demo4
  simp only [List.cons_append, List.nil_append] at h
  rw [h, insert_demo5]

/-- C1 (failing input): with `ORDER = 4`, after `insert(5)`, `insert(3)`,
`insert(7)` the call `find(5, result)` returns `false`, although 5 was
inserted: the round trip fails on a key that became a separator. -/
theorem find_inserted_key_misses :
    ∃ t, build 4 [(5, "sapo5"), (3, "perro3"), (7, "pato7")] = some t ∧
      find t 5 = some none := by
  refine ⟨demo3, build_demo3, ?_⟩
  decide

/-- C6: with `ORDER = 4`, after the five insertions of `main`, `find(1)` returns
`true` with the value `"gato1"` and `find(2)` returns `false`. -/
theorem demo_lookup :
    ∃ t, build 4 [(5, "sapo5"), (3, "perro3"), (7, "pato7"), (1, "gato1"), (9, "conejo9")]
        = some t ∧
      find t 1 = some (some "gato1") ∧ find t 2 = some none := by
  refine ⟨demo5, build_demo5, ?_, ?_⟩ <;> decide

/-- C7 (counterexample): with `ORDER = 4`, after inserting 5, 3, 7 the root is
not a leaf with keys `[3,5,7]`. -/
theorem demo_step1_not_single_leaf :
    ¬ ∃ t r n, build 4 [(5, "sapo5"), (3, "perro3"), (7, "pato7")] = some t ∧
      t.root = some r ∧ t.heap[r]? = some n ∧ n.is_leaf = true ∧ n.keys = [3, 5, 7] := by
  rintro ⟨t, r, n, hb, hr, hn, hl, -⟩
  rw [build_demo3] at hb
  cases hb
  have h2 : r = 2 := by
    have : some 2 = some r := hr
    exact (Option.some.inj this).symm
  subst h2
  have h3 : n = demo_internal [5] none [0, 1] := by
    have : some (demo_internal [5] none [0, 1]) = some n := hn
    exact (Option.some.inj this).symm
  subst h3
  exact absurd hl (by decide)

/-- C7 (amended): with `ORDER = 4`, after inserting 5, 3, 7 the third insertion
has filled the leaf to `ORDER - 1 = 3` keys and split it: the root is an
internal node with keys `[5]` whose two children are the leaves `[3]` and
`[5,7]`. -/
theorem demo_step1 :
    ∃ t, build 4 [(5, "sapo5"), (3, "perro3"), (7, "pato7")] = some t ∧
      root_view t = some (false, [5], [some (true, [3]), some (true, [5, 7])]) := by
  refine ⟨demo3, build_demo3, ?_⟩
  decide

/-- C8: with `ORDER = 4`, after inserting 5, 3, 7, 1 the root is an internal
node with keys `[5]` and exactly two children, the leaf `[1,3]` and the leaf
`[5,7]`, in that order. -/
theorem demo_step2 :
    ∃ t, build 4 [(5, "sapo5"), (3, "perro3"), (7, "pato7"), (1, "gato1")] = some t ∧
      root_view t = some (false, [5], [some (true, [1, 3]), some (true, [5, 7])]) := by
  refine ⟨demo4, build_demo4, ?_⟩
  decide

/-- C10 (failing input): with `ORDER = 4`, after inserting 5, 3, 7 the root has
the separator 5; `find_leaf(5)` descends into child 0, the leaf with keys `[3]`,
and not into child 1, the leaf `[5,7]` that holds 5 as its minimum. -/
theorem find_leaf_separator_goes_left :
    ∃ t, build 4 [(5, "sapo5"), (3, "perro3"), (7, "pato7")] = some t ∧
      root_view t = some (false, [5], [some (true, [3]), some (true, [5, 7])]) ∧
      find_leaf t 5 = some (some 0) ∧
      (t.heap[0]?).map (fun n => n.keys) = some [3] ∧
      (t.heap[1]?).map (fun n => n.keys) = some [5, 7] := by
  refine ⟨demo3, build_demo3, ?_, ?_, ?_, ?_⟩ <;> decide

/-! ## Basic facts about represented trees -/

theorem rid_mem_ids : ∀ (d : Nat) (t : PT K V d), PT.rid d t ∈ PT.ids d t
  | 0, _ => by simp [PT.rid, PT.ids]
  | _ + 1, _ => by simp [PT.rid, PT.ids]

theorem ids_child_subset (d : Nat) (n : NodeR K (PT K V d)) (c : PT K V d)
    (hc : c ∈ n.children) : ∀ i ∈ PT.ids d c, i ∈ (PT.ids (d + 1) (n : PT K V (d + 1))).tail := by
  intro i hi
  simp only [PT.ids, List.tail_cons, List.mem_flatten, List.mem_map]
  exact ⟨PT.ids d c, ⟨c, hc, rfl⟩, hi⟩

theorem Rep_ids_lt (h : List (Node K V)) :
    ∀ (d : Nat) (p : Option Nat) (t : PT K V d), Rep h d p t → ∀ i ∈ PT.ids d t, i < h.length
  | 0, p, l, hr, i, hi => by
    simp only [PT.ids, List.mem_singleton] at hi
    subst hi
    simp only [Rep] at hr
    by_contra hc
    rw [List.getElem?_eq_none (by omega)] at hr
    cases hr
  | d + 1, p, n, hr, i, hi => by
    obtain ⟨h1, h2⟩ := hr
    simp only [PT.ids, List.mem_cons, List.mem_flatten, List.mem_map] at hi
    rcases hi with hi | ⟨_, ⟨c, hc, rfl⟩, hi⟩
    · subst hi
      by_contra hc
      rw [List.getElem?_eq_none (by omega)] at h1
      cases h1
    · exact Rep_ids_lt h d _ c (h2 c hc) i hi

theorem Rep_frame (h h1 : List (Node K V)) :
    ∀ (d : Nat) (p : Option Nat) (t : PT K V d), Rep h d p t →
      (∀ i ∈ PT.ids d t, h1[i]? = h[i]?) → Rep h1 d p t
  | 0, p, l, hr, hf => by
    simp only [Rep] at hr ⊢
    rw [hf _ (by simp [PT.ids])]
    exact hr
  | d + 1, p, n, hr, hf => by
    obtain ⟨h2, h3⟩ := hr
    refine ⟨?_, ?_⟩
    · rw [hf _ (by simp [PT.ids])]
      exact h2
    · intro c hc
      refine Rep_frame h h1 d _ c (h3 c hc) ?_
      intro i hi
      exact hf i (List.mem_of_mem_tail (ids_child_subset d n c hc i hi))

theorem nodup_child (d : Nat) (n : NodeR K (PT K V d))
    (hn : (PT.ids (d + 1) (n : PT K V (d + 1))).Nodup) (c : PT K V d) (hc : c ∈ n.children) :
    (PT.ids d c).Nodup ∧ n.id ∉ PT.ids d c := by
  simp only [PT.ids, List.nodup_cons] at hn
  obtain ⟨h1, h2⟩ := hn
  refine ⟨?_, ?_⟩
  · rw [List.nodup_flatten] at h2
    exact h2.1 _ (List.mem_map.mpr ⟨c, hc, rfl⟩)
  · intro hi
    apply h1
    simp only [List.mem_flatten, List.mem_map]
    exact ⟨_, ⟨c, hc, rfl⟩, hi⟩

/-- Overwriting the `parent` field of the top node re-parents the tree. -/
theorem Rep_reparent (h : List (Node K V)) (q : Option Nat) :
    ∀ (d : Nat) (p : Option Nat) (t : PT K V d) (m : Node K V), Rep h d p t →
      (PT.ids d t).Nodup → h[PT.rid d t]? = some m →
      Rep (h.set (PT.rid d t) { m with parent := q }) d q t
  | 0, p, l, m, hr, _, hm => by
    simp only [Rep, PT.rid] at hr hm ⊢
    have hlt : (l : LeafR K V).id < h.length := by
      by_contra hc
      rw [List.getElem?_eq_none (by omega)] at hr
      cases hr
    rw [List.getElem?_set_self hlt]
    rw [hr] at hm
    cases hm
    rfl
  | d + 1, p, n, m, hr, hn, hm => by
    obtain ⟨h2, h3⟩ := hr
    simp only [PT.rid] at hm ⊢
    have hlt : (n : NodeR K (PT K V d)).id < h.length := by
      by_contra hc
      rw [List.getElem?_eq_none (by omega)] at h2
      cases h2
    refine ⟨?_, ?_⟩
    · rw [List.getElem?_set_self hlt]
      rw [h2] at hm
      cases hm
      rfl
    · intro c hc
      refine Rep_frame h _ d _ c (h3 c hc) ?_
      intro i hi
      have hne : (n : NodeR K (PT K V d)).id ≠ i := by
        intro e
        exact (nodup_child d n hn c hc).2 (e ▸ hi)
      rw [List.getElem?_set_ne hne]

theorem Rep_rid (h : List (Node K V)) :
    ∀ (d : Nat) (p : Option Nat) (t : PT K V d), Rep h d p t →
      ∃ m, h[PT.rid d t]? = some m ∧ m.parent = p ∧ m.is_leaf = decide (d = 0)
  | 0, p, l, hr => ⟨_, hr, rfl, rfl⟩
  | d + 1, p, n, hr => ⟨_, hr.1, rfl, by simp [node_rec]⟩

theorem set_parents_length (P : Nat) :
    ∀ (cs : List Nat) (h h1 : List (Node K V)), set_parents h P cs = some h1 →
      h1.length = h.length
  | [], h, h1, e => by
    simp only [set_parents, Option.some.injEq] at e
    rw [← e]
  | c :: cs, h, h1, e => by
    simp only [set_parents] at e
    cases hc : h[c]? with
    | none => rw [hc] at e; cases e
    | some n =>
      rw [hc] at e
      have := set_parents_length P cs _ h1 e
      rw [this, List.length_set]

/-- The loop over the children moved to a new node re-parents each of them and
touches nothing else. -/
theorem set_parents_spec (P : Nat) (d : Nat) :
    ∀ (cs : List (PT K V d)) (h : List (Node K V)),
      (∀ c ∈ cs, ∃ q, Rep h d q c) → ((cs.map (PT.ids d)).flatten).Nodup →
      ∃ h1, set_parents h P (cs.map (PT.rid d)) = some h1 ∧ h1.length = h.length ∧
        (∀ c ∈ cs, Rep h1 d (some P) c) ∧
        (∀ i, i ∉ cs.map (PT.rid d) → h1[i]? = h[i]?)
  | [], h, _, _ => ⟨h, rfl, rfl, by simp, fun _ _ => rfl⟩
  | c :: cs, h, hr, hn => by
    simp only [List.map_cons, List.flatten_cons, List.nodup_append] at hn
    obtain ⟨hn1, hn2, hdis⟩ := hn
    obtain ⟨q, hq⟩ := hr c (List.mem_cons_self _ _)
    obtain ⟨m, hm, -, -⟩ := Rep_rid h d q c hq
    have hcr : Rep (h.set (PT.rid d c) { m with parent := some P }) d (some P) c :=
      Rep_reparent h (some P) d q c m hq hn1 hm
    have hrest : ∀ c1 ∈ cs, ∃ q1,
        Rep (h.set (PT.rid d c) { m with parent := some P }) d q1 c1 := by
      intro c1 hc1
      obtain ⟨q1, hq1⟩ := hr c1 (List.mem_cons_of_mem _ hc1)
      refine ⟨q1, Rep_frame h _ d q1 c1 hq1 ?_⟩
      intro i hi
      have hne : PT.rid d c ≠ i := by
        intro e
        refine hdis (rid_mem_ids d c) ?_
        rw [e]
        simp only [List.mem_flatten, List.mem_map]
        exact ⟨_, ⟨c1, hc1, rfl⟩, hi⟩
      rw [List.getElem?_set_ne hne]
    obtain ⟨h1, e1, e2, e3, e4⟩ := set_parents_spec P d cs _ hrest hn2
    refine ⟨h1, ?_, ?_, ?_, ?_⟩
    · simp only [List.map_cons, set_parents, hm]
      exact e1
    · rw [e2, List.length_set]
    · intro c1 hc1
      rcases List.mem_cons.mp hc1 with rfl | hc1
      · refine Rep_frame _ h1 d _ c1 hcr ?_
        intro i hi
        refine e4 i ?_
        intro hmem
        obtain ⟨c2, hc2, rfl⟩ := List.mem_map.mp hmem
        refine hdis hi ?_
        simp only [List.mem_flatten, List.mem_map]
        exact ⟨_, ⟨c2, hc2, rfl⟩, rid_mem_ids d c2⟩
      · exact e3 c1 hc1
    · intro i hi
      simp only [List.map_cons, List.mem_cons, not_or] at hi
      rw [e4 i hi.2, List.getElem?_set_ne (Ne.symm hi.1)]

/-! ## Vector operations -/

theorem length_insertAt {α : Type} (xs : List α) (i : Nat) (x : α) :
    (insertAt xs i x).length = xs.length + 1 := by
  simp only [insertAt, List.length_append, List.length_cons, List.length_take, List.length_drop]
  omega

theorem mem_insertAt {α : Type} (xs : List α) (i : Nat) (x y : α) :
    y ∈ insertAt xs i x ↔ y = x ∨ y ∈ xs := by
  simp only [insertAt, List.mem_append, List.mem_cons]
  constructor
  · rintro (h | h | h)
    · exact Or.inr (List.mem_of_mem_take h)
    · exact Or.inl h
    · exact Or.inr (List.mem_of_mem_drop h)
  · rintro (h | h)
    · exact Or.inr (Or.inl h)
    · rw [← List.take_append_drop i xs] at h
      rcases List.mem_append.mp h with h | h
      · exact Or.inl h
      · exact Or.inr (Or.inr h)

theorem map_insertAt {α β : Type} (f : α → β) (xs : List α) (i : Nat) (x : α) :
    (insertAt xs i x).map f = insertAt (xs.map f) i (f x) := by
  simp only [insertAt, List.map_append, List.map_cons, List.map_take, List.map_drop]

theorem insertAt_perm {α : Type} (xs : List α) (i : Nat) (x : α) :
    (insertAt xs i x).Perm (x :: xs) := by
  unfold insertAt
  have h1 : (List.take i xs ++ x :: List.drop i xs).Perm (x :: (List.take i xs ++ List.drop i xs)) :=
    List.perm_middle
  rw [List.take_append_drop] at h1
  exact h1

theorem lower_bound_le [LinearOrder K] (ks : List K) (k : K) : lower_bound ks k ≤ ks.length := by
  unfold lower_bound
  exact (List.takeWhile_sublist _).length_le

/-- Splitting a list at an index that holds an element. -/
theorem split_at_index {α : Type} (xs : List α) (i : Nat) (x : α) (h : xs[i]? = some x) :
    ∃ A B, xs = A ++ x :: B ∧ A.length = i := by
  obtain ⟨hlt, hx⟩ := List.getElem?_eq_some.mp h
  refine ⟨xs.take i, xs.drop (i + 1), ?_, ?_⟩
  · rw [← hx]
    have := List.take_append_drop i xs
    conv_lhs => rw [← this]
    rw [List.drop_eq_getElem_cons hlt]
  · rw [List.length_take]
    omega

theorem set_at_index {α : Type} (A B : List α) (x y : α) :
    (A ++ x :: B).set A.length y = A ++ y :: B := by
  rw [List.set_append_right _ _ (Nat.le_refl _)]
  simp

theorem getElem?_append_at {α : Type} (xs : List α) (a : α) (n : Nat) (hn : xs.length = n) :
    (xs ++ [a])[n]? = some a := by
  subst hn
  exact List.getElem?_concat_length _ _

/-! ## Addresses of a list of subtrees -/

theorem ids_succ (d : Nat) (n : NodeR K (PT K V d)) :
    PT.ids (d + 1) (n : PT K V (d + 1)) = n.id :: idsL d n.children := rfl

theorem idsL_append (d : Nat) (A B : List (PT K V d)) :
    idsL d (A ++ B) = idsL d A ++ idsL d B := by
  simp [idsL]

theorem idsL_cons (d : Nat) (c : PT K V d) (B : List (PT K V d)) :
    idsL d (c :: B) = PT.ids d c ++ idsL d B := by
  simp [idsL]

theorem idsL_insertAt (d : Nat) (cs : List (PT K V d)) (i : Nat) (x : PT K V d) :
    (idsL d (insertAt cs i x)).Perm (PT.ids d x ++ idsL d cs) := by
  unfold insertAt
  rw [idsL_append, idsL_cons]
  have h1 : (idsL d (List.take i cs) ++ (PT.ids d x ++ idsL d (List.drop i cs))).Perm
      (PT.ids d x ++ (idsL d (List.take i cs) ++ idsL d (List.drop i cs))) := by
    rw [← List.append_assoc, ← List.append_assoc]
    exact List.Perm.append_right _ List.perm_append_comm
  rw [← idsL_append, List.take_append_drop] at h1
  exact h1

theorem idsL_take_drop (d : Nat) (cs : List (PT K V d)) (m : Nat) :
    idsL d (cs.take m) ++ idsL d (cs.drop m) = idsL d cs := by
  rw [← idsL_append, List.take_append_drop]

theorem mem_idsL (d : Nat) (cs : List (PT K V d)) (i : Nat) :
    i ∈ idsL d cs ↔ ∃ c ∈ cs, i ∈ PT.ids d c := by
  simp only [idsL, List.mem_flatten, List.mem_map]
  constructor
  · rintro ⟨_, ⟨c, hc, rfl⟩, hi⟩
    exact ⟨c, hc, hi⟩
  · rintro ⟨c, hc, hi⟩
    exact ⟨_, ⟨c, hc, rfl⟩, hi⟩

/-! ## Addresses after an insertion -/

theorem pins_zero [LinearOrder K] (ORDER fresh : Nat) (k : K) (v : V) (l : LeafR K V) :
    pins ORDER fresh k v 0 (l : PT K V 0) =
      if ORDER - 1 ≤ (leaf_ins k v l).keys.length then leaf_split fresh k (leaf_ins k v l)
      else .done (leaf_ins k v l) := rfl

theorem pins_succ [LinearOrder K] (ORDER fresh : Nat) (k : K) (v : V) (d : Nat)
    (n : NodeR K (PT K V d)) (c : PT K V d) (hc : n.children[lower_bound n.keys k]? = some c) :
    pins ORDER fresh k v (d + 1) (n : PT K V (d + 1)) =
      pins_node ORDER fresh k d n (lower_bound n.keys k) (pins ORDER fresh k v d c) := by
  rw [pins]
  simp only [hc]

theorem pins_succ_none [LinearOrder K] (ORDER fresh : Nat) (k : K) (v : V) (d : Nat)
    (n : NodeR K (PT K V d)) (hc : n.children[lower_bound n.keys k]? = none) :
    pins ORDER fresh k v (d + 1) (n : PT K V (d + 1)) = .done n := by
  rw [pins]
  simp only [hc]

theorem count_cons_add {α : Type} [DecidableEq α] (a x : α) (l : List α) :
    List.count a (x :: l) = count_one a x + List.count a l := by
  rw [← List.singleton_append, List.count_append]
  rfl

theorem range_succ_perm (s n : Nat) :
    List.range' s (n + 1) = List.range' s n ++ [s + n] := by
  have h := @List.range'_concat 1 s n
  simp only [one_mul] at h
  exact h

theorem node_ins_ids [LinearOrder K] (d : Nat) (A B : List (PT K V d)) (c l r : PT K V d)
    (id : Nat) (ks : List K) (pk : K) :
    (PT.ids (d + 1) (node_ins d ⟨id, ks, A ++ c :: B⟩ A.length l pk r : PT K V (d + 1))).Perm
      (id :: (idsL d A ++ (PT.ids d l ++ PT.ids d r) ++ idsL d B)) := by
  rw [ids_succ]
  simp only [node_ins, set_at_index]
  rw [List.perm_iff_count]
  intro a
  have e1 := (idsL_insertAt d (A ++ l :: B) (lower_bound ks pk + 1) r).count_eq a
  simp only [idsL_append, idsL_cons, List.count_append, count_cons_add] at e1 ⊢
  omega

theorem node_split_ids (fresh : Nat) (k : K) (d : Nat) (n : NodeR K (PT K V d)) :
    Res.ids (d + 1) (node_split fresh k d n : Res K V (d + 1)) =
      n.id :: idsL d (n.children.take (n.keys.length / 2 + 1)) ++
        fresh :: idsL d (n.children.drop (n.keys.length / 2 + 1)) := rfl

theorem node_split_ids_perm (fresh : Nat) (k : K) (d : Nat) (n : NodeR K (PT K V d)) :
    (Res.ids (d + 1) (node_split fresh k d n : Res K V (d + 1))).Perm
      (PT.ids (d + 1) (n : PT K V (d + 1)) ++ [fresh]) := by
  rw [node_split_ids, ids_succ]
  rw [List.perm_iff_count]
  intro a
  have e1 := congrArg (List.count a) (idsL_take_drop d n.children (n.keys.length / 2 + 1))
  simp only [List.count_append, count_cons_add, List.count_nil] at e1 ⊢
  omega

/-- The addresses after an insertion below `t`: those of `t` and a block of
fresh ones; a split outcome has gained exactly one node per level. -/
theorem pins_ids [LinearOrder K] (ORDER fresh : Nat) (k : K) (v : V) :
    ∀ (d : Nat) (t : PT K V d),
      Res.rid d (pins ORDER fresh k v d t) = PT.rid d t ∧
      (∃ m, m ≤ d + 1 ∧
        (Res.ids d (pins ORDER fresh k v d t)).Perm (PT.ids d t ++ List.range' fresh m)) ∧
      (∀ l pk r, pins ORDER fresh k v d t = .split l pk r →
        PT.rid d r = fresh + d ∧
        (PT.ids d l ++ PT.ids d r).Perm (PT.ids d t ++ List.range' fresh (d + 1)))
  | 0, l => by
    rw [pins_zero]
    by_cases hf : ORDER - 1 ≤ (leaf_ins k v l).keys.length
    · simp only [hf, if_true]
      refine ⟨rfl, ⟨1, le_refl _, ?_⟩, ?_⟩
      · exact List.Perm.refl _
      · intro l1 pk r e
        simp only [leaf_split, Res.split.injEq] at e
        obtain ⟨rfl, -, rfl⟩ := e
        exact ⟨rfl, List.Perm.refl _⟩
    · simp only [hf, if_false]
      refine ⟨rfl, ⟨0, Nat.zero_le _, ?_⟩, ?_⟩
      · simp [Res.ids, PT.ids, leaf_ins]
      · intro l1 pk r e
        cases e
  | d + 1, n => by
    cases hc : (n : NodeR K (PT K V d)).children[lower_bound (n : NodeR K (PT K V d)).keys k]? with
    | none =>
      rw [pins_succ_none _ _ _ _ _ _ hc]
      refine ⟨rfl, ⟨0, Nat.zero_le _, by simp [Res.ids]⟩, ?_⟩
      intro l1 pk r e
      cases e
    | some c =>
      rw [pins_succ _ _ _ _ _ _ c hc]
      obtain ⟨ih1, ⟨m, hm, ih2⟩, ih3⟩ := pins_ids ORDER fresh k v d c
      obtain ⟨A, B, hAB, hlen⟩ := split_at_index _ _ _ hc
      obtain ⟨id, ks, cs⟩ := n
      simp only at hAB hlen hc
      subst hAB
      rw [← hlen]
      cases hp : pins ORDER fresh k v d c with
      | done c1 =>
        rw [hp] at ih1 ih2
        simp only [Res.rid, Res.ids] at ih1 ih2
        simp only [pins_node, set_at_index]
        refine ⟨rfl, ⟨m, by omega, ?_⟩, ?_⟩
        · simp only [Res.ids]
          rw [ids_succ, ids_succ]
          rw [List.perm_iff_count]
          intro a
          have e1 := ih2.count_eq a
          simp only [idsL_append, idsL_cons, List.count_append, count_cons_add] at e1 ⊢
          omega
        · intro l1 pk r e
          cases e
      | split l pk r =>
        rw [hp] at ih1 ih2
        simp only [Res.rid, Res.ids] at ih1 ih2
        obtain ⟨ih4, ih5⟩ := ih3 l pk r hp
        have hbase : (PT.ids (d + 1)
            (node_ins d ⟨id, ks, A ++ c :: B⟩ A.length l pk r : PT K V (d + 1))).Perm
            (PT.ids (d + 1) (⟨id, ks, A ++ c :: B⟩ : NodeR K (PT K V d)) ++
              List.range' fresh (d + 1)) := by
          refine (node_ins_ids d A B c l r id ks pk).trans ?_
          rw [ids_succ]
          rw [List.perm_iff_count]
          intro a
          have e1 := ih5.count_eq a
          simp only [idsL_append, idsL_cons, List.count_append, count_cons_add] at e1 ⊢
          omega
        simp only [pins_node]
        by_cases hf : ORDER - 1 ≤ (node_ins d ⟨id, ks, A ++ c :: B⟩ A.length l pk r).keys.length
        · simp only [hf, if_true]
          have hsp : (Res.ids (d + 1) (node_split (fresh + d + 1) k d
              (node_ins d ⟨id, ks, A ++ c :: B⟩ A.length l pk r) : Res K V (d + 1))).Perm
              (PT.ids (d + 1) (⟨id, ks, A ++ c :: B⟩ : NodeR K (PT K V d)) ++
                List.range' fresh (d + 1 + 1)) := by
            refine (node_split_ids_perm _ _ _ _).trans ?_
            refine (List.Perm.append_right _ hbase).trans ?_
            rw [range_succ_perm fresh (d + 1), List.append_assoc, Nat.add_assoc]
          refine ⟨rfl, ⟨d + 1 + 1, le_refl _, hsp⟩, ?_⟩
          intro l1 pk1 r1 e
          simp only [node_split, Res.split.injEq] at e
          obtain ⟨rfl, -, rfl⟩ := e
          exact ⟨rfl, hsp⟩
        · simp only [hf, if_false]
          refine ⟨rfl, ⟨d + 1, by omega, hbase⟩, ?_⟩
          intro l1 pk1 r1 e
          cases e

/-! ## The steps of `insert` on a store that holds a tree -/

theorem Rep_zero_iff (h : List (Node K V)) (p : Option Nat) (l : LeafR K V) :
    Rep h 0 p (l : PT K V 0) ↔ h[l.id]? = some (leaf_rec p l) := Iff.rfl

theorem Rep_succ_iff (h : List (Node K V)) (d : Nat) (p : Option Nat) (n : NodeR K (PT K V d)) :
    Rep h (d + 1) p (n : PT K V (d + 1)) ↔
      h[n.id]? = some (node_rec d p n) ∧ ∀ c ∈ n.children, Rep h d (some n.id) c := Iff.rfl

theorem leaf_ins_keys_length [LinearOrder K] (k : K) (v : V) (l : LeafR K V) :
    (leaf_ins k v l).keys.length = l.keys.length + 1 := by
  simp only [leaf_ins, length_insertAt]

theorem leaf_ins_values_length [LinearOrder K] (k : K) (v : V) (l : LeafR K V) :
    (leaf_ins k v l).values.length = l.values.length + 1 := by
  simp only [leaf_ins, length_insertAt]

/-- `insert` on a leaf that does not become full. -/
theorem leaf_step_done [LinearOrder K] (ORDER F r : Nat) (k : K) (v : V) (h : List (Node K V))
    (p : Option Nat) (l : LeafR K V) (hr : h[l.id]? = some (leaf_rec p l))
    (hv : l.values.length = l.keys.length)
    (hf : ¬ ORDER - 1 ≤ (leaf_ins k v l).keys.length) :
    leaf_step ORDER F ⟨h, some r⟩ l.id k v =
      some ⟨h.set l.id (leaf_rec p (leaf_ins k v l)), some r⟩ := by
  have hlb := lower_bound_le l.keys k
  have hg : ¬ l.values.length < lower_bound l.keys k := by omega
  have hf1 : ¬ ORDER - 1 ≤ (insertAt l.keys (lower_bound l.keys k) k).length := hf
  simp only [leaf_step, hr, leaf_rec, if_true, hg, if_false, Node.is_full, hf1, decide_False,
    Bool.false_eq_true, leaf_ins]

/-- `insert` on a leaf that becomes full: `split_leaf` leaves the two halves in
the store and calls `insert_in_parent`. -/
theorem leaf_step_split [LinearOrder K] (ORDER F r : Nat) (k : K) (v : V) (h : List (Node K V))
    (p : Option Nat) (l : LeafR K V) (hr : h[l.id]? = some (leaf_rec p l))
    (hv : l.values.length = l.keys.length)
    (hf : ORDER - 1 ≤ (leaf_ins k v l).keys.length)
    (L : LeafR K V) (pk : K) (R : LeafR K V)
    (e : leaf_split h.length k (leaf_ins k v l) = .split (L : PT K V 0) pk (R : PT K V 0)) :
    leaf_step ORDER F ⟨h, some r⟩ l.id k v =
      insert_in_parent ORDER F ⟨h.set l.id (leaf_rec p L) ++ [leaf_rec none R], some r⟩
        l.id pk h.length := by
  have hlb := lower_bound_le l.keys k
  have hg : ¬ l.values.length < lower_bound l.keys k := by omega
  have hf1 : ORDER - 1 ≤ (insertAt l.keys (lower_bound l.keys k) k).length := hf
  have hlt : l.id < h.length := by
    by_contra hc
    rw [List.getElem?_eq_none (by omega)] at hr
    cases hr
  have hlen1 := length_insertAt l.keys (lower_bound l.keys k) k
  have hlen2 := length_insertAt l.values (lower_bound l.keys k) v
  have hg2 : ¬ (insertAt l.values (lower_bound l.keys k) v).length <
      (insertAt l.keys (lower_bound l.keys k) k).length / 2 := by omega
  simp only [leaf_split, Res.split.injEq] at e
  obtain ⟨e1, e2, e3⟩ := e
  have e1 : (_ : LeafR K V) = L := e1
  have e3 : (_ : LeafR K V) = R := e3
  subst e1 e2 e3
  have hne : (insertAt l.keys (lower_bound l.keys k) k).drop
      ((insertAt l.keys (lower_bound l.keys k) k).length / 2) ≠ [] := by
    intro hnil
    have := congrArg List.length hnil
    simp only [List.length_drop, List.length_nil] at this
    omega
  obtain ⟨x, xs, hx⟩ := List.exists_cons_of_ne_nil hne
  simp only [leaf_step, hr, leaf_rec, if_true, hg, if_false, Node.is_full, hf1, decide_True,
    split_leaf, List.getElem?_set_self hlt, hg2, new_leaf_node, List.length_set,
    List.set_set, leaf_ins, hx, List.head?_cons, List.headD_cons]

theorem Rep_append (h : List (Node K V)) (x : List (Node K V)) (d : Nat) (p : Option Nat)
    (t : PT K V d) (hr : Rep h d p t) : Rep (h ++ x) d p t := by
  refine Rep_frame h _ d p t hr ?_
  intro i hi
  rw [List.getElem?_append_left (Rep_ids_lt h d p t hr i hi)]

/-- `insert_in_parent` on the root: a new root with the two halves below it. -/
theorem iip_root [LinearOrder K] (ORDER f r : Nat) (pk : K) (h : List (Node K V)) (d : Nat)
    (p : Option Nat) (l rt : PT K V d) (hl : Rep h d p l) (hrt : Rep h d none rt)
    (hrid : PT.rid d l = r) (hn : (PT.ids d l ++ PT.ids d rt).Nodup) :
    ∃ h2, insert_in_parent ORDER (f + 1) ⟨h, some r⟩ r pk (PT.rid d rt) =
        some ⟨h2, some h.length⟩ ∧
      Rep h2 (d + 1) none ((⟨h.length, [pk], [l, rt]⟩ : NodeR K (PT K V d)) : PT K V (d + 1)) ∧
      h2.length = h.length + 1 := by
  subst hrid
  have hpre : ∀ c ∈ [l, rt], ∃ q, Rep (h ++ [({ (new_internal_node : Node K V) with
      keys := [pk], children := [PT.rid d l, PT.rid d rt] } : Node K V)]) d q c := by
    intro c hc
    simp only [List.mem_cons, List.mem_singleton, List.not_mem_nil, or_false] at hc
    rcases hc with rfl | rfl
    · exact ⟨p, Rep_append h _ d p _ hl⟩
    · exact ⟨none, Rep_append h _ d none _ hrt⟩
  have hnd : (([l, rt].map (PT.ids d)).flatten).Nodup := by
    simpa using hn
  obtain ⟨h2, e1, e2, e3, e4⟩ := set_parents_spec h.length d [l, rt] _ hpre hnd
  refine ⟨h2, ?_, ?_, ?_⟩
  · rw [insert_in_parent]
    simp only [if_true]
    simp only [List.map_cons, List.map_nil] at e1
    rw [e1]
  · rw [Rep_succ_iff]
    refine ⟨?_, e3⟩
    have hnot : h.length ∉ [l, rt].map (PT.rid d) := by
      intro hm
      simp only [List.map_cons, List.map_nil, List.mem_cons, List.mem_singleton,
        List.not_mem_nil, or_false] at hm
      rcases hm with hm | hm
      · have := Rep_ids_lt h d p l hl _ (rid_mem_ids d l)
        omega
      · have := Rep_ids_lt h d none rt hrt _ (rid_mem_ids d rt)
        omega
    rw [e4 _ hnot, List.getElem?_concat_length]
    rfl
  · rw [e2]
    simp

theorem rid_mem_idsL (d : Nat) (cs : List (PT K V d)) (i : Nat)
    (hi : i ∈ cs.map (PT.rid d)) : i ∈ idsL d cs := by
  obtain ⟨c, hc, rfl⟩ := List.mem_map.mp hi
  exact (mem_idsL d cs _).mpr ⟨c, hc, rid_mem_ids d c⟩

/-- `split_internal` on a node the store holds: the two halves are in the
store afterwards, the moved children point to the new node, and
`insert_in_parent` is called with the middle key. -/
theorem split_internal_spec [LinearOrder K] (ORDER f : Nat) (ro : Option Nat) (k : K)
    (h : List (Node K V)) (d : Nat) (p : Option Nat) (n : NodeR K (PT K V d))
    (hr : Rep h (d + 1) p (n : PT K V (d + 1)))
    (hn : (PT.ids (d + 1) (n : PT K V (d + 1))).Nodup)
    (hc : n.children.length = n.keys.length + 1) (hk : 1 ≤ n.keys.length)
    (N : NodeR K (PT K V d)) (pk : K) (M : NodeR K (PT K V d))
    (e : node_split h.length k d n = .split (N : PT K V (d + 1)) pk (M : PT K V (d + 1))) :
    ∃ h4, split_internal ORDER (f + 1) ⟨h, ro⟩ n.id =
        insert_in_parent ORDER f ⟨h4, ro⟩ n.id pk h.length ∧
      Rep h4 (d + 1) p (N : PT K V (d + 1)) ∧ Rep h4 (d + 1) none (M : PT K V (d + 1)) ∧
      h4.length = h.length + 1 ∧
      (∀ i, i < h.length → i ∉ PT.ids (d + 1) (n : PT K V (d + 1)) → h4[i]? = h[i]?) := by
  obtain ⟨hrec, hch⟩ := (Rep_succ_iff h d p n).mp hr
  simp only [node_split, Res.split.injEq] at e
  obtain ⟨e1, e2, e3⟩ := e
  have e1 : (_ : NodeR K (PT K V d)) = N := e1
  have e3 : (_ : NodeR K (PT K V d)) = M := e3
  subst e1 e2 e3
  rw [ids_succ, List.nodup_cons] at hn
  obtain ⟨hn1, hn2⟩ := hn
  have hlt : n.id < h.length := by
    by_contra hcon
    rw [List.getElem?_eq_none (by omega)] at hrec
    cases hrec
  have hmid : n.keys.length / 2 < n.keys.length := by omega
  have htd := idsL_take_drop d n.children (n.keys.length / 2 + 1)
  rw [← htd, List.nodup_append] at hn2
  obtain ⟨hn3, hn4, hdis⟩ := hn2
  -- the store before the loop over the moved children
  have hall : ∀ c ∈ n.children,
      Rep (h.set n.id ({ node_rec d p n with
              keys := n.keys.take (n.keys.length / 2),
              children := (n.children.map (PT.rid d)).take (n.keys.length / 2 + 1) }) ++
            [({ (new_internal_node : Node K V) with
              keys := n.keys.drop (n.keys.length / 2 + 1),
              children := (n.children.map (PT.rid d)).drop (n.keys.length / 2 + 1) })])
        d (some n.id) c := by
    intro c hcm1
    refine Rep_append _ _ d _ c ?_
    refine Rep_frame h _ d _ c (hch c hcm1) ?_
    intro i hi
    have hne : n.id ≠ i := by
      intro e
      exact hn1 ((mem_idsL d _ _).mpr ⟨c, hcm1, e ▸ hi⟩)
    rw [List.getElem?_set_ne hne]
  have hpre : ∀ c ∈ n.children.drop (n.keys.length / 2 + 1), ∃ q,
      Rep (h.set n.id ({ node_rec d p n with
              keys := n.keys.take (n.keys.length / 2),
              children := (n.children.map (PT.rid d)).take (n.keys.length / 2 + 1) }) ++
            [({ (new_internal_node : Node K V) with
              keys := n.keys.drop (n.keys.length / 2 + 1),
              children := (n.children.map (PT.rid d)).drop (n.keys.length / 2 + 1) })])
        d q c := fun c hcm => ⟨some n.id, hall c (List.mem_of_mem_drop hcm)⟩
  obtain ⟨h4, s1, s2, s3, s4⟩ := set_parents_spec h.length d _ _ hpre hn4
  refine ⟨h4, ?_, ?_, ?_, ?_, ?_⟩
  · rw [split_internal]
    have hkm : n.keys[n.keys.length / 2]? = some (n.keys.getD (n.keys.length / 2) k) := by
      rw [List.getD_eq_getElem?_getD, List.getElem?_eq_getElem hmid]
      rfl
    have hg : ¬ (n.children.map (PT.rid d)).length < n.keys.length / 2 + 1 := by
      rw [List.length_map]
      omega
    simp only [hrec, node_rec, hkm, hg, if_false]
    rw [List.map_drop] at s1
    simp only [node_rec] at s1
    rw [s1]
  · rw [Rep_succ_iff]
    refine ⟨?_, ?_⟩
    · have hnot : n.id ∉ (n.children.drop (n.keys.length / 2 + 1)).map (PT.rid d) := by
        intro hm
        apply hn1
        rw [← htd]
        exact List.mem_append_right _ (rid_mem_idsL d _ _ hm)
      rw [s4 _ hnot, List.getElem?_append_left (by rw [List.length_set]; exact hlt),
        List.getElem?_set_self hlt]
      simp only [node_rec, List.map_take]
    · intro c hcm
      have hcm1 : c ∈ n.children := List.mem_of_mem_take hcm
      refine Rep_frame _ h4 d _ c (hall c hcm1) ?_
      intro i hi
      refine s4 i ?_
      intro hm
      exact hdis ((mem_idsL d _ _).mpr ⟨c, hcm, hi⟩) (rid_mem_idsL d _ _ hm)
  · rw [Rep_succ_iff]
    refine ⟨?_, s3⟩
    have hnot : h.length ∉ (n.children.drop (n.keys.length / 2 + 1)).map (PT.rid d) := by
      intro hm
      obtain ⟨c, hcm, hce⟩ := List.mem_map.mp hm
      have := Rep_ids_lt h d _ c (hch c (List.mem_of_mem_drop hcm)) _ (rid_mem_ids d c)
      omega
    rw [s4 _ hnot]
    rw [getElem?_append_at _ _ _ (List.length_set _ _ _)]
    simp only [node_rec, new_internal_node, List.map_drop]
  · rw [s2]
    simp
  · intro i hi hnot
    rw [ids_succ, List.mem_cons, not_or] at hnot
    have hnm : i ∉ (n.children.drop (n.keys.length / 2 + 1)).map (PT.rid d) := by
      intro hm
      apply hnot.2
      rw [← htd]
      exact List.mem_append_right _ (rid_mem_idsL d _ _ hm)
    rw [s4 i hnm, List.getElem?_append_left (by rw [List.length_set]; exact hi),
      List.getElem?_set_ne (Ne.symm hnot.1)]

/-- `insert_in_parent` below the root: the parent gains the key and the new
child; when that fills it, `split_internal` is called on it. -/
theorem iip_inner [LinearOrder K] (ORDER f r : Nat) (pk : K) (h1 : List (Node K V)) (d : Nat)
    (p : Option Nat) (id : Nat) (ks : List K) (A B : List (PT K V d)) (c l rt : PT K V d)
    (hrec : h1[id]? = some (node_rec d p ⟨id, ks, A ++ c :: B⟩))
    (hA : ∀ c1 ∈ A, Rep h1 d (some id) c1) (hB : ∀ c1 ∈ B, Rep h1 d (some id) c1)
    (hl : Rep h1 d (some id) l) (hrid : PT.rid d l = PT.rid d c)
    (hrt : Rep h1 d none rt)
    (hnd : (id :: (idsL d A ++ (PT.ids d l ++ PT.ids d rt) ++ idsL d B)).Nodup)
    (hlen : (A ++ c :: B).length = ks.length + 1)
    (hroot : r ≠ PT.rid d l) :
    ∃ h2, insert_in_parent ORDER (f + 1) ⟨h1, some r⟩ (PT.rid d l) pk (PT.rid d rt) =
        (if ORDER - 1 ≤ (node_ins d ⟨id, ks, A ++ c :: B⟩ A.length l pk rt).keys.length then
          split_internal ORDER f ⟨h2, some r⟩ id
         else some ⟨h2, some r⟩) ∧
      Rep h2 (d + 1) p (node_ins d ⟨id, ks, A ++ c :: B⟩ A.length l pk rt : PT K V (d + 1)) ∧
      h2.length = h1.length ∧
      (∀ i, i ≠ id → i ≠ PT.rid d rt → h2[i]? = h1[i]?) := by
  rw [List.nodup_cons] at hnd
  obtain ⟨hid, hnd1⟩ := hnd
  have hid_rt : id ∉ PT.ids d rt := fun hm =>
    hid (List.mem_append_left _ (List.mem_append_right _ (List.mem_append_right _ hm)))
  have hid_l : id ∉ PT.ids d l := fun hm =>
    hid (List.mem_append_left _ (List.mem_append_right _ (List.mem_append_left _ hm)))
  have hid_A : id ∉ idsL d A := fun hm =>
    hid (List.mem_append_left _ (List.mem_append_left _ hm))
  have hid_B : id ∉ idsL d B := fun hm => hid (List.mem_append_right _ hm)
  rw [List.nodup_append] at hnd1
  obtain ⟨hnd2, -, hdisB⟩ := hnd1
  rw [List.nodup_append] at hnd2
  obtain ⟨-, hnd3, hdisA⟩ := hnd2
  rw [List.nodup_append] at hnd3
  obtain ⟨-, hnrt, hdislr⟩ := hnd3
  have hlt : id < h1.length := by
    by_contra hcon
    rw [List.getElem?_eq_none (by omega)] at hrec
    cases hrec
  obtain ⟨m, hm, hmp, -⟩ := Rep_rid h1 d (some id) l hl
  have hlb := lower_bound_le ks pk
  -- the new sibling gets its parent pointer
  have hpre : ∀ c1 ∈ [rt], ∃ q,
      Rep (h1.set id ({ node_rec d p ⟨id, ks, A ++ c :: B⟩ with
          keys := insertAt ks (lower_bound ks pk) pk,
          children := insertAt ((A ++ c :: B).map (PT.rid d)) (lower_bound ks pk + 1)
            (PT.rid d rt) })) d q c1 := by
    intro c1 hc1
    rw [List.mem_singleton] at hc1
    subst hc1
    refine ⟨none, Rep_frame h1 _ d none c1 hrt ?_⟩
    intro i hi
    have hne : id ≠ i := fun e => hid_rt (e ▸ hi)
    rw [List.getElem?_set_ne hne]
  have hndrt : (([rt].map (PT.ids d)).flatten).Nodup := by simpa using hnrt
  obtain ⟨h2, s1, s2, s3, s4⟩ := set_parents_spec id d [rt] _ hpre hndrt
  have hframe : ∀ i, i ≠ id → i ≠ PT.rid d rt → h2[i]? = h1[i]? := by
    intro i hi1 hi2
    have hnm : i ∉ [rt].map (PT.rid d) := by simpa using hi2
    rw [s4 i hnm, List.getElem?_set_ne (Ne.symm hi1)]
  refine ⟨h2, ?_, ?_, ?_, hframe⟩
  · rw [insert_in_parent]
    have hne : ¬ (some r = some (PT.rid d l)) := by
      intro e
      exact hroot (Option.some.inj e)
    have hg : ¬ ((A ++ c :: B).map (PT.rid d)).length < lower_bound ks pk + 1 := by
      rw [List.length_map, hlen]
      omega
    simp only [hne, if_false, hm, hmp, hrec]
    simp only [node_rec, Bool.false_eq_true, if_false, hg]
    simp only [List.map_cons, List.map_nil, node_rec] at s1
    rw [s1]
    simp only [Node.is_full, node_ins, decide_eq_true_eq]
  · rw [Rep_succ_iff]
    refine ⟨?_, ?_⟩
    · have hnm : id ∉ [rt].map (PT.rid d) := by
        intro hmem
        simp only [List.map_cons, List.map_nil, List.mem_singleton] at hmem
        exact hid_rt (hmem ▸ rid_mem_ids d rt)
      have hid2 : (node_ins d ⟨id, ks, A ++ c :: B⟩ A.length l pk rt).id = id := rfl
      rw [hid2, s4 id hnm, List.getElem?_set_self hlt]
      simp only [node_rec, node_ins, set_at_index, map_insertAt, List.map_append, List.map_cons,
        hrid]
    · intro c1 hc1
      have hid2 : (node_ins d ⟨id, ks, A ++ c :: B⟩ A.length l pk rt).id = id := rfl
      rw [hid2]
      simp only [node_ins, set_at_index] at hc1
      rw [mem_insertAt] at hc1
      rcases hc1 with rfl | hc1
      · exact s3 c1 (List.mem_singleton_self _)
      · have key : Rep h1 d (some id) c1 ∧ id ∉ PT.ids d c1 ∧ PT.rid d rt ∉ PT.ids d c1 := by
          rcases List.mem_append.mp hc1 with hc2 | hc2
          · refine ⟨hA c1 hc2, fun hm => hid_A ((mem_idsL d _ _).mpr ⟨c1, hc2, hm⟩), ?_⟩
            intro hm
            exact hdisA ((mem_idsL d _ _).mpr ⟨c1, hc2, hm⟩)
              (List.mem_append_right _ (rid_mem_ids d rt))
          · rcases List.mem_cons.mp hc2 with rfl | hc3
            · exact ⟨hl, hid_l, fun hm => hdislr hm (rid_mem_ids d rt)⟩
            · refine ⟨hB c1 hc3, fun hm => hid_B ((mem_idsL d _ _).mpr ⟨c1, hc3, hm⟩), ?_⟩
              intro hm
              refine hdisB ?_ ((mem_idsL d _ _).mpr ⟨c1, hc3, hm⟩)
              exact List.mem_append_right _ (List.mem_append_right _ (rid_mem_ids d rt))
        obtain ⟨k1, k2, k3⟩ := key
        refine Rep_frame h1 h2 d _ c1 k1 ?_
        intro i hi
        exact hframe i (fun e => k2 (e ▸ hi)) (fun e => k3 (e ▸ hi))
  · rw [s2, List.length_set]

theorem WF_zero_iff [LinearOrder K] (ORDER : Nat) (l : LeafR K V) :
    WF ORDER 0 (l : PT K V 0) ↔
      l.values.length = l.keys.length ∧ 1 ≤ l.keys.length ∧ l.keys.length < ORDER - 1 ∧
      l.keys.Sorted (· ≤ ·) := Iff.rfl

theorem WF_succ_iff [LinearOrder K] (ORDER : Nat) (d : Nat) (n : NodeR K (PT K V d)) :
    WF ORDER (d + 1) (n : PT K V (d + 1)) ↔
      n.children.length = n.keys.length + 1 ∧ n.keys.length < ORDER - 1 ∧
      n.keys.Sorted (· ≤ ·) ∧ ∀ c ∈ n.children, WF ORDER d c := Iff.rfl

theorem up_step_leaf [LinearOrder K] (ORDER : Nat) (r : Nat) (k : K) (v : V)
    (l : LeafR K V) (h : List (Node K V)) (p : Option Nat) (f : Nat)
    (hr : Rep h 0 p (l : PT K V 0)) (hv : l.values.length = l.keys.length) :
    ∃ h1, leaf_step ORDER f ⟨h, some r⟩ l.id k v =
        up_call ORDER f r h1 l.id 0 (pins ORDER h.length k v 0 (l : PT K V 0)) ∧
      Res.Holds h1 0 p (pins ORDER h.length k v 0 (l : PT K V 0)) ∧
      h1.length + 1 = h.length + (Res.ids 0 (pins ORDER h.length k v 0 (l : PT K V 0))).length ∧
      (∀ i, i < h.length → i ≠ l.id → h1[i]? = h[i]?) := by
  have hrec : h[l.id]? = some (leaf_rec p l) := hr
  have hlt : l.id < h.length := by
    by_contra hcon
    rw [List.getElem?_eq_none (by omega)] at hrec
    cases hrec
  rw [pins_zero]
  by_cases hf : ORDER - 1 ≤ (leaf_ins k v l).keys.length
  · simp only [hf, if_true]
    refine ⟨h.set l.id (leaf_rec p
        (⟨l.id, (leaf_ins k v l).keys.take ((leaf_ins k v l).keys.length / 2),
          (leaf_ins k v l).values.take ((leaf_ins k v l).keys.length / 2), some h.length⟩ :
          LeafR K V)) ++
      [leaf_rec none (⟨h.length, (leaf_ins k v l).keys.drop ((leaf_ins k v l).keys.length / 2),
          (leaf_ins k v l).values.drop ((leaf_ins k v l).keys.length / 2), l.next⟩ :
          LeafR K V)], ?_, ?_, ?_, ?_⟩
    · exact leaf_step_split ORDER f r k v h p l hrec hv hf _ _ _ rfl
    · simp only [leaf_split, Res.Holds]
      refine ⟨?_, ?_⟩
      · rw [Rep_zero_iff]
        rw [List.getElem?_append_left (by rw [List.length_set]; exact hlt)]
        exact List.getElem?_set_self hlt
      · rw [Rep_zero_iff]
        exact getElem?_append_at _ _ _ (List.length_set _ _ _)
    · simp [leaf_split, Res.ids, PT.ids]
    · intro i hi hne
      rw [List.getElem?_append_left (by rw [List.length_set]; exact hi),
        List.getElem?_set_ne (Ne.symm hne)]
  · simp only [hf, if_false]
    refine ⟨h.set l.id (leaf_rec p (leaf_ins k v l)), ?_, ?_, ?_, ?_⟩
    · exact leaf_step_done ORDER f r k v h p l hrec hv hf
    · show Rep _ 0 p _
      rw [Rep_zero_iff]
      exact List.getElem?_set_self hlt
    · simp [Res.ids, PT.ids]
    · intro i _ hne
      rw [List.getElem?_set_ne (Ne.symm hne)]

theorem pleaf_succ [LinearOrder K] (k : K) (d : Nat) (n : NodeR K (PT K V d)) (c : PT K V d)
    (hc : n.children[lower_bound n.keys k]? = some c) :
    pleaf k (d + 1) (n : PT K V (d + 1)) = pleaf k d c := by
  rw [pleaf]
  simp only [hc]

theorem ids_length_succ (d : Nat) (id : Nat) (ks : List K) (A B : List (PT K V d))
    (c : PT K V d) :
    (PT.ids (d + 1) ((⟨id, ks, A ++ c :: B⟩ : NodeR K (PT K V d)) : PT K V (d + 1))).length =
      1 + (idsL d A).length + (PT.ids d c).length + (idsL d B).length := by
  rw [ids_succ]
  simp only [idsL_append, idsL_cons, List.length_cons, List.length_append]
  omega

theorem nodup_append_range (xs : List Nat) (s m : Nat) (hx : xs.Nodup) (hlt : ∀ i ∈ xs, i < s) :
    (xs ++ List.range' s m).Nodup := by
  rw [List.nodup_append]
  refine ⟨hx, List.nodup_range' s m, ?_⟩
  intro i hi hr
  have := hlt i hi
  rw [List.mem_range'_1] at hr
  omega

/-- The run of `insert` from the located leaf up to the top of a subtree `t`
does on the store what `pins` does on `t`, and leaves the call to make on the
node above, if any. -/
theorem up_step [LinearOrder K] (ORDER : Nat) (r : Nat) (k : K) (v : V) :
    ∀ (d : Nat) (t : PT K V d) (h : List (Node K V)) (p : Option Nat) (f : Nat),
      Rep h d p t → (PT.ids d t).Nodup → WF ORDER d t → r ∉ (PT.ids d t).tail →
      ∃ h1, leaf_step ORDER (f + 2 * d) ⟨h, some r⟩ (pleaf k d t).id k v =
          up_call ORDER f r h1 (PT.rid d t) d (pins ORDER h.length k v d t) ∧
        Res.Holds h1 d p (pins ORDER h.length k v d t) ∧
        h1.length + (PT.ids d t).length =
          h.length + (Res.ids d (pins ORDER h.length k v d t)).length ∧
        (∀ i, i < h.length → i ∉ PT.ids d t → h1[i]? = h[i]?)
  | 0, l, h, p, f, hr, _, hwf, _ => by
    obtain ⟨h1, e1, e2, e3, e4⟩ :=
      up_step_leaf ORDER r k v l h p f hr ((WF_zero_iff ORDER l).mp hwf).1
    refine ⟨h1, e1, e2, e3, ?_⟩
    intro i hi hni
    refine e4 i hi ?_
    intro e
    exact hni (by simp [PT.ids, e])
  | d + 1, n, h, p, f, hr, hnd, hwf, hroot => by
    obtain ⟨id, ks, cs⟩ := n
    obtain ⟨hrec, hch⟩ := (Rep_succ_iff h d p _).mp hr
    obtain ⟨hlen, hsz, hsorted, hwfc⟩ := (WF_succ_iff ORDER d _).mp hwf
    simp only at hrec hch hlen hsz hsorted hwfc
    have hlb := lower_bound_le ks k
    have hi : lower_bound ks k < cs.length := by omega
    have hc : cs[lower_bound ks k]? = some cs[lower_bound ks k] := List.getElem?_eq_getElem hi
    generalize cs[lower_bound ks k] = c at hc
    obtain ⟨A, B, hAB, hAlen⟩ := split_at_index _ _ _ hc
    subst hAB
    have hcmem : c ∈ A ++ c :: B := List.mem_append_right _ (List.mem_cons_self _ _)
    obtain ⟨hndc, hidc⟩ := nodup_child d ⟨id, ks, A ++ c :: B⟩ hnd c hcmem
    simp only at hidc
    have hlt_all : ∀ i ∈ PT.ids (d + 1) ((⟨id, ks, A ++ c :: B⟩ : NodeR K (PT K V d)) :
        PT K V (d + 1)), i < h.length := Rep_ids_lt h (d + 1) p _ hr
    have hidlt : id < h.length := hlt_all id (by rw [ids_succ]; exact List.mem_cons_self _ _)
    -- the unfolded node
    have hnd0 := hnd
    rw [ids_succ, List.nodup_cons] at hnd
    obtain ⟨hid, hndL⟩ := hnd
    simp only [idsL_append, idsL_cons] at hid hndL
    have hrootc : r ∉ PT.ids d c := by
      intro hm
      apply hroot
      rw [ids_succ, List.tail_cons]
      exact (mem_idsL d _ _).mpr ⟨c, hcmem, hm⟩
    -- induction hypothesis on the child
    obtain ⟨h1, e1, e2, e3, e4⟩ := up_step ORDER r k v d c h (some id) (f + 2)
      (hch c hcmem) hndc (hwfc c hcmem) (fun hm => hrootc (List.mem_of_mem_tail hm))
    obtain ⟨p1, ⟨m, hm, p2⟩, p3⟩ := pins_ids ORDER h.length k v d c
    have hfuel : f + 2 * (d + 1) = f + 2 + 2 * d := by omega
    rw [pleaf_succ k d _ c hc, pins_succ ORDER h.length k v d _ c hc, hfuel, e1]
    simp only
    rw [← hAlen]
    -- siblings are untouched by the run below `c`
    have hsibA : ∀ c1 ∈ A, Rep h1 d (some id) c1 := by
      intro c1 hc1
      refine Rep_frame h h1 d _ c1 (hch c1 (List.mem_append_left _ hc1)) ?_
      intro i hi1
      have hiA : i ∈ idsL d A := (mem_idsL d _ _).mpr ⟨c1, hc1, hi1⟩
      refine e4 i (hlt_all i ?_) ?_
      · rw [ids_succ]
        simp only [idsL_append, idsL_cons]
        exact List.mem_cons_of_mem _ (List.mem_append_left _ hiA)
      · intro hic
        rw [List.nodup_append] at hndL
        exact hndL.2.2 hiA (List.mem_append_left _ hic)
    have hsibB : ∀ c1 ∈ B, Rep h1 d (some id) c1 := by
      intro c1 hc1
      refine Rep_frame h h1 d _ c1
        (hch c1 (List.mem_append_right _ (List.mem_cons_of_mem _ hc1))) ?_
      intro i hi1
      have hiB : i ∈ idsL d B := (mem_idsL d _ _).mpr ⟨c1, hc1, hi1⟩
      refine e4 i (hlt_all i ?_) ?_
      · rw [ids_succ]
        simp only [idsL_append, idsL_cons]
        exact List.mem_cons_of_mem _ (List.mem_append_right _ (List.mem_append_right _ hiB))
      · intro hic
        rw [List.nodup_append] at hndL
        have h3 := hndL.2.1
        rw [List.nodup_append] at h3
        exact h3.2.2 hic hiB
    have hrec1 : h1[id]? = some (node_rec d p ⟨id, ks, A ++ c :: B⟩) := by
      rw [e4 id hidlt hidc]
      exact hrec
    cases hp : pins ORDER h.length k v d c with
    | done c1 =>
      rw [hp] at e2 e3 p1 p2
      simp only [Res.Holds, Res.rid, Res.ids] at e2 e3 p1 p2
      simp only [pins_node, set_at_index, up_call]
      refine ⟨h1, rfl, ?_, ?_, ?_⟩
      · show Rep h1 (d + 1) p _
        rw [Rep_succ_iff]
        refine ⟨?_, ?_⟩
        · rw [hrec1]
          simp only [node_rec, List.map_append, List.map_cons, p1]
        · intro c2 hc2
          rcases List.mem_append.mp hc2 with hc3 | hc3
          · exact hsibA c2 hc3
          · rcases List.mem_cons.mp hc3 with rfl | hc4
            · exact e2
            · exact hsibB c2 hc4
      · simp only [Res.ids]
        rw [ids_length_succ, ids_length_succ]
        omega
      · intro i hi1 hi2
        refine e4 i hi1 ?_
        intro hic
        apply hi2
        rw [ids_succ]
        exact List.mem_cons_of_mem _ ((mem_idsL d _ _).mpr ⟨c, hcmem, hic⟩)
    | split l pk rt =>
      rw [hp] at e2 e3 p1
      simp only [Res.Holds, Res.rid, Res.ids] at e2 e3 p1
      obtain ⟨hl, hrt⟩ := e2
      obtain ⟨hridrt, hperm⟩ := p3 l pk rt hp
      have hplen := hperm.length_eq
      simp only [List.length_append, List.length_range'] at hplen e3
      have hh1 : h1.length = h.length + d + 1 := by omega
      -- all addresses of the enlarged node
      have hbig : (id :: (idsL d A ++ (PT.ids d l ++ PT.ids d rt) ++ idsL d B)).Perm
          (PT.ids (d + 1) ((⟨id, ks, A ++ c :: B⟩ : NodeR K (PT K V d)) : PT K V (d + 1)) ++
            List.range' h.length (d + 1)) := by
        rw [ids_succ, List.perm_iff_count]
        intro a
        have q1 := hperm.count_eq a
        simp only [idsL_append, idsL_cons, List.count_append, count_cons_add] at q1 ⊢
        omega
      have hbignd : (id :: (idsL d A ++ (PT.ids d l ++ PT.ids d rt) ++ idsL d B)).Nodup :=
        (List.Perm.nodup_iff hbig).mpr (nodup_append_range _ _ _ hnd0 hlt_all)
      have hrootl : r ≠ PT.rid d l := by
        rw [p1]
        intro e
        exact hrootc (e ▸ rid_mem_ids d c)
      obtain ⟨h2, s1, s2, s3, s4⟩ := iip_inner ORDER (f + 1) r pk h1 d p id ks A B c l rt
        hrec1 hsibA hsibB hl p1 hrt hbignd hlen hrootl
      have hframe2 : ∀ i, i < h.length →
          i ∉ PT.ids (d + 1) ((⟨id, ks, A ++ c :: B⟩ : NodeR K (PT K V d)) : PT K V (d + 1)) →
          h2[i]? = h[i]? := by
        intro i hi1 hi2
        have hne1 : i ≠ id := by
          intro e
          apply hi2
          rw [ids_succ, e]
          exact List.mem_cons_self _ _
        have hne2 : i ≠ PT.rid d rt := by
          rw [hridrt]
          omega
        rw [s4 i hne1 hne2]
        refine e4 i hi1 ?_
        intro hic
        apply hi2
        rw [ids_succ]
        exact List.mem_cons_of_mem _ ((mem_idsL d _ _).mpr ⟨c, hcmem, hic⟩)
      have hnilen := (node_ins_ids d A B c l rt id ks pk).length_eq
      simp only [List.length_cons, List.length_append] at hnilen
      simp only [up_call]
      rw [← p1, show f + 2 = f + 1 + 1 from rfl, s1]
      simp only [pins_node]
      by_cases hf : ORDER - 1 ≤ (node_ins d ⟨id, ks, A ++ c :: B⟩ A.length l pk rt).keys.length
      · simp only [hf, if_true]
        have hndni : (PT.ids (d + 1) (node_ins d ⟨id, ks, A ++ c :: B⟩ A.length l pk rt :
            PT K V (d + 1))).Nodup :=
          (List.Perm.nodup_iff (node_ins_ids d A B c l rt id ks pk)).mpr hbignd
        have hclen : (node_ins d ⟨id, ks, A ++ c :: B⟩ A.length l pk rt).children.length =
            (node_ins d ⟨id, ks, A ++ c :: B⟩ A.length l pk rt).keys.length + 1 := by
          simp only [node_ins, length_insertAt, List.length_set]
          omega
        have hklen : 1 ≤ (node_ins d ⟨id, ks, A ++ c :: B⟩ A.length l pk rt).keys.length := by
          simp only [node_ins, length_insertAt]
          omega
        have hh2 : h.length + d + 1 = h2.length := by omega
        rw [hh2]
        obtain ⟨h4, u1, u2, u3, u4, u5⟩ := split_internal_spec ORDER f (some r) k h2 d p
          (node_ins d ⟨id, ks, A ++ c :: B⟩ A.length l pk rt) s2 hndni hclen hklen _ _ _ rfl
        refine ⟨h4, ?_, ?_, ?_, ?_⟩
        · exact u1
        · exact ⟨u2, u3⟩
        · have hsl := (@node_split_ids_perm K V h2.length k d
            (node_ins d ⟨id, ks, A ++ c :: B⟩ A.length l pk rt)).length_eq
          simp only [List.length_append, List.length_singleton] at hsl
          rw [hsl, hnilen, ids_length_succ]
          omega
        · intro i hi1 hi2
          rw [u5 i (by omega) ?_, hframe2 i hi1 hi2]
          intro hmem
          have hmem2 := (node_ins_ids d A B c l rt id ks pk).mem_iff.mp hmem
          have hmem3 := hbig.mem_iff.mp hmem2
          rcases List.mem_append.mp hmem3 with hm1 | hm1
          · exact hi2 hm1
          · rw [List.mem_range'_1] at hm1
            omega
      · simp only [hf, if_false, up_call]
        refine ⟨h2, rfl, s2, ?_, hframe2⟩
        simp only [Res.ids]
        rw [hnilen, ids_length_succ]
        omega

/-- The loop of `find_leaf` walks down to the leaf `pleaf` names. -/
theorem find_leaf_loop_spec [LinearOrder K] (ORDER : Nat) (k : K) (h : List (Node K V)) :
    ∀ (d : Nat) (t : PT K V d) (p : Option Nat) (fuel : Nat),
      Rep h d p t → WF ORDER d t → d < fuel →
      find_leaf_loop h k fuel (PT.rid d t) = some (pleaf k d t).id
  | 0, l, p, fuel, hr, _, hf => by
    obtain ⟨f, rfl⟩ : ∃ f, fuel = f + 1 := ⟨fuel - 1, by omega⟩
    have hrec : h[(l : LeafR K V).id]? = some (leaf_rec p l) := hr
    simp only [find_leaf_loop, PT.rid, hrec, leaf_rec, if_true, pleaf]
  | d + 1, n, p, fuel, hr, hwf, hf => by
    obtain ⟨f, rfl⟩ : ∃ f, fuel = f + 1 := ⟨fuel - 1, by omega⟩
    obtain ⟨id, ks, cs⟩ := n
    obtain ⟨hrec, hch⟩ := (Rep_succ_iff h d p _).mp hr
    obtain ⟨hlen, -, -, hwfc⟩ := (WF_succ_iff ORDER d _).mp hwf
    simp only at hrec hch hlen hwfc
    have hlb := lower_bound_le ks k
    have hi : lower_bound ks k < cs.length := by omega
    have hc : cs[lower_bound ks k]? = some cs[lower_bound ks k] := List.getElem?_eq_getElem hi
    have hcm : cs[lower_bound ks k] ∈ cs := List.getElem_mem _
    rw [pleaf_succ k d _ _ hc]
    rw [← find_leaf_loop_spec ORDER k h d _ (some id) f (hch _ hcm) (hwfc _ hcm) (by omega)]
    simp only [find_leaf_loop, PT.rid, hrec, node_rec, Bool.false_eq_true, if_false,
      List.getElem?_map, hc, Option.map_some']

theorem insert_eq_leaf_step [LinearOrder K] (ORDER : Nat) (h : List (Node K V)) (r leaf : Nat)
    (k : K) (v : V) (hf : find_leaf_loop h k h.length r = some leaf) :
    insert ORDER ⟨h, some r⟩ k v = leaf_step ORDER (2 * h.length + 2) ⟨h, some r⟩ leaf k v := by
  simp only [insert, find_leaf, hf, Option.map_some', leaf_step]

/-- A tree has more nodes than levels. -/
theorem height_lt_ids [LinearOrder K] (ORDER : Nat) :
    ∀ (d : Nat) (t : PT K V d), WF ORDER d t → d < (PT.ids d t).length
  | 0, _, _ => by simp [PT.ids]
  | d + 1, n, hwf => by
    obtain ⟨id, ks, cs⟩ := n
    obtain ⟨hlen, -, -, hwfc⟩ := (WF_succ_iff ORDER d _).mp hwf
    simp only at hlen hwfc
    cases cs with
    | nil => simp at hlen
    | cons c cs =>
      have := height_lt_ids ORDER d c (hwfc c (List.mem_cons_self _ _))
      rw [ids_succ]
      simp only [idsL_cons, List.length_cons, List.length_append]
      omega

theorem range_append_range' (n m : Nat) :
    List.range n ++ List.range' n m = List.range (n + m) := by
  have h := List.range'_append_1 0 n m
  simp only [Nat.zero_add] at h
  rw [List.range_eq_range', List.range_eq_range', h, Nat.add_comm]

/-- One `insert` on a store that holds a tree does what `pinsert` does. -/
theorem insert_refines [LinearOrder K] (ORDER : Nat) (k : K) (v : V) (T : BPlusTree K V)
    (s : Option (AT K V)) (ha : Abs T s) (hwf : WFs ORDER s) :
    ∃ T1, insert ORDER T k v = some T1 ∧ Abs T1 (some (pinsert ORDER k v s)) := by
  cases s with
  | none =>
    have hT : T = empty := ha
    subst hT
    refine ⟨_, rfl, ?_⟩
    refine ⟨rfl, ?_, ?_⟩
    · show Rep _ 0 none _
      rfl
    · exact List.Perm.refl _
  | some s =>
    obtain ⟨d, t⟩ := s
    obtain ⟨hroot, hrep, hperm⟩ := ha
    obtain ⟨h, ro⟩ := T
    simp only at hroot hrep hperm
    subst hroot
    have hwf1 : WF ORDER d t := hwf
    have hnd : (PT.ids d t).Nodup := (List.Perm.nodup_iff hperm).mpr (List.nodup_range _)
    have hlen : (PT.ids d t).length = h.length := by
      rw [hperm.length_eq, List.length_range]
    have hd := height_lt_ids ORDER d t hwf1
    have hfl := find_leaf_loop_spec ORDER k h d t none h.length hrep hwf1 (by omega)
    rw [insert_eq_leaf_step ORDER h _ _ k v hfl]
    have hroot : PT.rid d t ∉ (PT.ids d t).tail := by
      intro hm
      cases d with
      | zero => simp [PT.ids] at hm
      | succ d =>
        obtain ⟨id, ks, cs⟩ := t
        rw [ids_succ, List.nodup_cons] at hnd
        rw [ids_succ, List.tail_cons] at hm
        exact hnd.1 hm
    obtain ⟨f, hf⟩ : ∃ f, 2 * h.length + 2 = f + 1 + 2 * d := ⟨2 * h.length + 1 - 2 * d, by omega⟩
    rw [hf]
    obtain ⟨h1, e1, e2, e3, e4⟩ :=
      up_step ORDER (PT.rid d t) k v d t h none (f + 1) hrep hnd hwf1 hroot
    obtain ⟨p1, ⟨m, hm, p2⟩, p3⟩ := pins_ids ORDER h.length k v d t
    rw [e1]
    simp only [pinsert, hlen]
    cases hp : pins ORDER h.length k v d t with
    | done t1 =>
      rw [hp] at e2 e3 p1 p2
      simp only [Res.Holds, Res.rid, Res.ids] at e2 e3 p1 p2
      have hl2 := p2.length_eq
      simp only [List.length_append, List.length_range'] at hl2
      refine ⟨⟨h1, some (PT.rid d t)⟩, rfl, ?_⟩
      refine ⟨by rw [p1], e2, ?_⟩
      simp only
      have hh1 : h1.length = h.length + m := by omega
      rw [hh1, ← range_append_range']
      exact p2.trans (List.Perm.append_right _ hperm)
    | split l pk rt =>
      rw [hp] at e2 e3 p1
      simp only [Res.Holds, Res.rid, Res.ids] at e2 e3 p1
      obtain ⟨hl, hrt⟩ := e2
      obtain ⟨hridrt, hperm2⟩ := p3 l pk rt hp
      have hl2 := hperm2.length_eq
      simp only [List.length_append, List.length_range'] at hl2 e3
      have hh1 : h1.length = h.length + d + 1 := by omega
      have hnd2 : (PT.ids d l ++ PT.ids d rt).Nodup :=
        (List.Perm.nodup_iff hperm2).mpr
          (nodup_append_range _ _ _ hnd (Rep_ids_lt h d none t hrep))
      obtain ⟨h2, u1, u2, u3⟩ := iip_root ORDER f (PT.rid d t) pk h1 d none l rt hl hrt p1 hnd2
      refine ⟨⟨h2, some h1.length⟩, u1, ?_⟩
      rw [← hh1]
      refine ⟨rfl, u2, ?_⟩
      simp only
      rw [ids_succ, u3, hh1]
      have hnil : idsL d ([] : List (PT K V d)) = [] := rfl
      simp only [idsL_cons, hnil, List.append_nil]
      rw [show h.length + d + 1 + 1 = h.length + (d + 1) + 1 by omega, List.range_succ,
        ← range_append_range']
      refine (List.perm_append_singleton _ _).symm.trans ?_
      exact List.Perm.append_right _ (hperm2.trans (List.Perm.append_right _ hperm))

/-! ## Lower bound and sorted insertion -/

theorem lower_bound_nil [LinearOrder K] (k : K) : lower_bound ([] : List K) k = 0 := rfl

theorem lower_bound_cons_lt [LinearOrder K] (x k : K) (xs : List K) (h : x < k) :
    lower_bound (x :: xs) k = lower_bound xs k + 1 := by
  simp [lower_bound, List.takeWhile_cons, h]

theorem lower_bound_cons_ge [LinearOrder K] (x k : K) (xs : List K) (h : ¬ x < k) :
    lower_bound (x :: xs) k = 0 := by
  simp [lower_bound, List.takeWhile_cons, h]

theorem insertAt_zero {α : Type} (xs : List α) (x : α) : insertAt xs 0 x = x :: xs := rfl

theorem insertAt_succ_cons {α : Type} (y : α) (xs : List α) (i : Nat) (x : α) :
    insertAt (y :: xs) (i + 1) x = y :: insertAt xs i x := rfl

/-- Everything before the lower bound is smaller than the key. -/
theorem lt_of_mem_take_lower_bound [LinearOrder K] (k : K) :
    ∀ (ks : List K), ∀ x ∈ ks.take (lower_bound ks k), x < k
  | [], x, hx => by simp at hx
  | y :: ys, x, hx => by
    by_cases h : y < k
    · rw [lower_bound_cons_lt y k ys h, List.take_succ_cons] at hx
      rcases List.mem_cons.mp hx with rfl | hx
      · exact h
      · exact lt_of_mem_take_lower_bound k ys x hx
    · rw [lower_bound_cons_ge y k ys h] at hx
      simp at hx

/-- On an ascending vector nothing from the lower bound on is smaller than the key. -/
theorem le_of_mem_drop_lower_bound [LinearOrder K] (k : K) :
    ∀ (ks : List K), ks.Sorted (· ≤ ·) → ∀ x ∈ ks.drop (lower_bound ks k), k ≤ x
  | [], _, x, hx => by simp at hx
  | y :: ys, hs, x, hx => by
    by_cases h : y < k
    · rw [lower_bound_cons_lt y k ys h, List.drop_succ_cons] at hx
      exact le_of_mem_drop_lower_bound k ys (List.Sorted.of_cons hs) x hx
    · rw [lower_bound_cons_ge y k ys h, List.drop_zero] at hx
      have hky : k ≤ y := not_lt.mp h
      rcases List.mem_cons.mp hx with rfl | hx
      · exact hky
      · exact le_trans hky (List.rel_of_sorted_cons hs x hx)

theorem sorted_insertAt_lower_bound [LinearOrder K] (k : K) (ks : List K)
    (hs : ks.Sorted (· ≤ ·)) : (insertAt ks (lower_bound ks k) k).Sorted (· ≤ ·) := by
  unfold insertAt
  have h1 := lt_of_mem_take_lower_bound k ks
  have h2 := le_of_mem_drop_lower_bound k ks hs
  have hsub1 : (ks.take (lower_bound ks k)).Sorted (· ≤ ·) :=
    List.Pairwise.sublist (List.take_sublist _ _) hs
  have hsub2 : (ks.drop (lower_bound ks k)).Sorted (· ≤ ·) :=
    List.Pairwise.sublist (List.drop_sublist _ _) hs
  unfold List.Sorted at *
  rw [List.pairwise_append]
  refine ⟨hsub1, List.pairwise_cons.mpr ⟨h2, hsub2⟩, ?_⟩
  intro a ha b hb
  rcases List.mem_cons.mp hb with rfl | hb
  · exact le_of_lt (h1 a ha)
  · exact le_trans (le_of_lt (h1 a ha)) (h2 b hb)

/-! ## The shape invariant is kept -/

theorem leaf_WF [LinearOrder K] (ORDER : Nat) (fresh : Nat) (k : K) (v : V)
    (l : LeafR K V) (hwf : WF ORDER 0 (l : PT K V 0)) :
    Res.WF ORDER 0 (pins ORDER fresh k v 0 (l : PT K V 0)) := by
  obtain ⟨h1, h2, h3, h4⟩ := (WF_zero_iff ORDER l).mp hwf
  have hk := leaf_ins_keys_length k v l
  have hv := leaf_ins_values_length k v l
  have hs : (leaf_ins k v l).keys.Sorted (· ≤ ·) := sorted_insertAt_lower_bound k l.keys h4
  rw [pins_zero]
  by_cases hf : ORDER - 1 ≤ (leaf_ins k v l).keys.length
  · simp only [hf, if_true, leaf_split, Res.WF]
    refine ⟨?_, ?_⟩
    · rw [WF_zero_iff]
      simp only [List.length_take]
      refine ⟨by omega, by omega, by omega, List.Pairwise.sublist (List.take_sublist _ _) hs⟩
    · rw [WF_zero_iff]
      simp only [List.length_drop]
      refine ⟨by omega, by omega, by omega, List.Pairwise.sublist (List.drop_sublist _ _) hs⟩
  · simp only [hf, if_false, Res.WF]
    rw [WF_zero_iff]
    exact ⟨by omega, by omega, by omega, hs⟩

theorem node_WF [LinearOrder K] (ORDER : Nat) (fresh : Nat) (k : K) (d : Nat)
    (n : NodeR K (PT K V d)) (i : Nat)
    (hwf : WF ORDER (d + 1) (n : PT K V (d + 1))) (res : Res K V d)
    (hres : Res.WF ORDER d res) :
    Res.WF ORDER (d + 1) (pins_node ORDER fresh k d n i res) := by
  obtain ⟨h1, h2, h3, h4⟩ := (WF_succ_iff ORDER d n).mp hwf
  cases res with
  | done c1 =>
    simp only [pins_node, Res.WF] at hres ⊢
    rw [WF_succ_iff]
    refine ⟨by simp only [List.length_set]; exact h1, h2, h3, ?_⟩
    intro c hc
    rcases List.mem_or_eq_of_mem_set hc with hc | rfl
    · exact h4 c hc
    · exact hres
  | split l pk r =>
    simp only [Res.WF] at hres
    have hkl : (node_ins d n i l pk r).keys.length = n.keys.length + 1 := by
      simp only [node_ins, length_insertAt]
    have hcl : (node_ins d n i l pk r).children.length = n.children.length + 1 := by
      simp only [node_ins, length_insertAt, List.length_set]
    have hs : (node_ins d n i l pk r).keys.Sorted (· ≤ ·) :=
      sorted_insertAt_lower_bound pk n.keys h3
    have hch : ∀ c ∈ (node_ins d n i l pk r).children, WF ORDER d c := by
      intro c hc
      simp only [node_ins] at hc
      rw [mem_insertAt] at hc
      rcases hc with rfl | hc
      · exact hres.2
      · rcases List.mem_or_eq_of_mem_set hc with hc | rfl
        · exact h4 c hc
        · exact hres.1
    simp only [pins_node]
    by_cases hf : ORDER - 1 ≤ (node_ins d n i l pk r).keys.length
    · simp only [hf, if_true, node_split, Res.WF]
      refine ⟨?_, ?_⟩
      · rw [WF_succ_iff]
        simp only [List.length_take]
        refine ⟨by omega, by omega, List.Pairwise.sublist (List.take_sublist _ _) hs, ?_⟩
        intro c hc
        exact hch c (List.mem_of_mem_take hc)
      · rw [WF_succ_iff]
        simp only [List.length_drop]
        refine ⟨by omega, by omega, List.Pairwise.sublist (List.drop_sublist _ _) hs, ?_⟩
        intro c hc
        exact hch c (List.mem_of_mem_drop hc)
    · simp only [hf, if_false, Res.WF]
      rw [WF_succ_iff]
      exact ⟨by omega, by omega, hs, hch⟩

theorem pins_WF [LinearOrder K] (ORDER : Nat) (fresh : Nat) (k : K) (v : V) :
    ∀ (d : Nat) (t : PT K V d), WF ORDER d t → Res.WF ORDER d (pins ORDER fresh k v d t)
  | 0, l, hwf => leaf_WF ORDER fresh k v l hwf
  | d + 1, n, hwf => by
    obtain ⟨h1, -, -, h4⟩ := (WF_succ_iff ORDER d n).mp hwf
    have hlb := lower_bound_le (n : NodeR K (PT K V d)).keys k
    have hi : lower_bound (n : NodeR K (PT K V d)).keys k <
        (n : NodeR K (PT K V d)).children.length := by omega
    have hc := List.getElem?_eq_getElem hi
    rw [pins_succ ORDER fresh k v d n _ hc]
    exact node_WF ORDER fresh k d n _ hwf _
      (pins_WF ORDER fresh k v d _ (h4 _ (List.getElem_mem _)))

theorem pinsert_WF [LinearOrder K] (ORDER : Nat) (hO : 3 ≤ ORDER) (k : K) (v : V)
    (s : Option (AT K V)) (hwf : WFs ORDER s) : WFs ORDER (some (pinsert ORDER k v s)) := by
  cases s with
  | none =>
    show WF ORDER 0 _
    rw [WF_zero_iff]
    refine ⟨rfl, by simp, by simp; omega, by simp⟩
  | some s =>
    obtain ⟨d, t⟩ := s
    have h := pins_WF ORDER (PT.ids d t).length k v d t hwf
    simp only [pinsert]
    cases hp : pins ORDER (PT.ids d t).length k v d t with
    | done t1 =>
      rw [hp] at h
      exact h
    | split l pk r =>
      rw [hp] at h
      show WF ORDER (d + 1) _
      rw [WF_succ_iff]
      refine ⟨rfl, by simp; omega, by simp, ?_⟩
      intro c hc
      simp only [List.mem_cons, List.mem_singleton, List.not_mem_nil, or_false] at hc
      rcases hc with rfl | rfl
      · exact h.1
      · exact h.2

theorem pinsert_list_WF [LinearOrder K] (ORDER : Nat) (hO : 3 ≤ ORDER) :
    ∀ (xs : List (K × V)) (s : Option (AT K V)), WFs ORDER s →
      WFs ORDER (pinsert_list ORDER s xs)
  | [], _, h => h
  | (k, v) :: rest, s, h =>
    pinsert_list_WF ORDER hO rest _ (pinsert_WF ORDER hO k v s h)

/-- A run of `insert` calls on a store that holds a tree does what
`pinsert_list` does: every call returns. -/
theorem insert_list_refines [LinearOrder K] (ORDER : Nat) (hO : 3 ≤ ORDER) :
    ∀ (xs : List (K × V)) (T : BPlusTree K V) (s : Option (AT K V)),
      Abs T s → WFs ORDER s →
      ∃ T1, insert_list ORDER T xs = some T1 ∧ Abs T1 (pinsert_list ORDER s xs)
  | [], T, s, ha, _ => ⟨T, rfl, ha⟩
  | (k, v) :: rest, T, s, ha, hwf => by
    obtain ⟨T1, e1, a1⟩ := insert_refines ORDER k v T s ha hwf
    obtain ⟨T2, e2, a2⟩ := insert_list_refines ORDER hO rest T1 _ a1
      (pinsert_WF ORDER hO k v s hwf)
    refine ⟨T2, ?_, a2⟩
    simp only [insert_list, e1]
    exact e2

theorem build_refines [LinearOrder K] (ORDER : Nat) (hO : 3 ≤ ORDER) (xs : List (K × V)) :
    ∃ T, build ORDER xs = some T ∧ Abs T (pbuild ORDER xs) ∧ WFs ORDER (pbuild ORDER xs) := by
  obtain ⟨T, e, a⟩ := insert_list_refines ORDER hO xs (empty : BPlusTree K V) none rfl trivial
  exact ⟨T, e, a, pinsert_list_WF ORDER hO xs none trivial⟩

/-! ## Observations on a store that holds a tree -/

theorem all_some_map {α β : Type} (f : α → Option β) (g : α → β) :
    ∀ (xs : List α), (∀ x ∈ xs, f x = some (g x)) → all_some (xs.map f) = some (xs.map g)
  | [], _ => rfl
  | x :: xs, h => by
    have h1 := h x (List.mem_cons_self _ _)
    have h2 := all_some_map f g xs (fun y hy => h y (List.mem_cons_of_mem _ hy))
    simp only [List.map_cons, h1, all_some, h2]

theorem leaves_succ (d : Nat) (n : NodeR K (PT K V d)) :
    PT.leaves (d + 1) (n : PT K V (d + 1)) = (n.children.map (PT.leaves d)).flatten := rfl

theorem leaves_below_spec [LinearOrder K] (ORDER : Nat) (h : List (Node K V)) :
    ∀ (d : Nat) (t : PT K V d) (p : Option Nat) (fuel : Nat),
      Rep h d p t → WF ORDER d t → d < fuel →
      leaves_below h fuel (PT.rid d t) = some ((PT.leaves d t).map (fun l => (l.id, d)))
  | 0, l, p, fuel, hr, _, hf => by
    obtain ⟨f, rfl⟩ : ∃ f, fuel = f + 1 := ⟨fuel - 1, by omega⟩
    have hrec : h[(l : LeafR K V).id]? = some (leaf_rec p l) := hr
    simp only [leaves_below, PT.rid, hrec, leaf_rec, if_true, PT.leaves, List.map_cons,
      List.map_nil]
  | d + 1, n, p, fuel, hr, hwf, hf => by
    obtain ⟨f, rfl⟩ : ∃ f, fuel = f + 1 := ⟨fuel - 1, by omega⟩
    obtain ⟨id, ks, cs⟩ := n
    obtain ⟨hrec, hch⟩ := (Rep_succ_iff h d p _).mp hr
    obtain ⟨-, -, -, hwfc⟩ := (WF_succ_iff ORDER d _).mp hwf
    simp only at hrec hch hwfc
    have hall : all_some ((cs.map (PT.rid d)).map (leaves_below h f)) =
        some (cs.map (fun c => (PT.leaves d c).map (fun l => (l.id, d)))) := by
      rw [List.map_map]
      refine all_some_map _ _ cs ?_
      intro c hc
      exact leaves_below_spec ORDER h d c (some id) f (hch c hc) (hwfc c hc) (by omega)
    simp only [leaves_below, PT.rid, hrec, node_rec, Bool.false_eq_true, if_false, hall]
    rw [leaves_succ]
    simp only [List.map_flatten, List.map_map]
    congr 2
    refine List.map_congr_left ?_
    intro c _
    simp only [Function.comp, List.map_map]
    rfl

theorem Rep_leaves (h : List (Node K V)) :
    ∀ (d : Nat) (t : PT K V d) (p : Option Nat), Rep h d p t →
      ∀ l ∈ PT.leaves d t, ∃ q, h[l.id]? = some (leaf_rec q l)
  | 0, t, p, hr, l, hl => by
    simp only [PT.leaves, List.mem_singleton] at hl
    subst hl
    exact ⟨p, hr⟩
  | d + 1, n, p, hr, l, hl => by
    obtain ⟨-, hch⟩ := (Rep_succ_iff h d p n).mp hr
    rw [leaves_succ] at hl
    simp only [List.mem_flatten, List.mem_map] at hl
    obtain ⟨_, ⟨c, hc, rfl⟩, hl⟩ := hl
    exact Rep_leaves h d c _ (hch c hc) l hl

theorem WF_leaves [LinearOrder K] (ORDER : Nat) :
    ∀ (d : Nat) (t : PT K V d), WF ORDER d t →
      ∀ l ∈ PT.leaves d t, WF ORDER 0 (l : PT K V 0)
  | 0, t, hwf, l, hl => by
    simp only [PT.leaves, List.mem_singleton] at hl
    subst hl
    exact hwf
  | d + 1, n, hwf, l, hl => by
    obtain ⟨-, -, -, hwfc⟩ := (WF_succ_iff ORDER d n).mp hwf
    rw [leaves_succ] at hl
    simp only [List.mem_flatten, List.mem_map] at hl
    obtain ⟨_, ⟨c, hc, rfl⟩, hl⟩ := hl
    exact WF_leaves ORDER d c (hwfc c hc) l hl

theorem entries_of_spec (h : List (Node K V)) (ls : List (LeafR K V))
    (hl : ∀ l ∈ ls, (∃ q, h[l.id]? = some (leaf_rec q l)) ∧ l.values.length = l.keys.length) :
    entries_of h (ls.map (fun l => l.id)) = some ((ls.map LeafR.entries).flatten) := by
  have hall : all_some ((ls.map (fun l => l.id)).map (leaf_entries h)) =
      some (ls.map LeafR.entries) := by
    rw [List.map_map]
    refine all_some_map _ _ ls ?_
    intro l hm
    obtain ⟨⟨q, hq⟩, hv⟩ := hl l hm
    simp only [Function.comp, leaf_entries, hq, leaf_rec, hv, if_true, LeafR.entries]
  simp only [entries_of, hall]

/-- On a store that holds a tree, `leaves` and `entries` return the leaves and
the entries of that tree. -/
theorem observe_tree [LinearOrder K] (ORDER : Nat) (T : BPlusTree K V) (d : Nat) (t : PT K V d)
    (ha : Abs T (some ⟨d, t⟩)) (hwf : WF ORDER d t) :
    leaves T = some ((PT.leaves d t).map (fun l => (l.id, d))) ∧
    entries T = some (PT.entries d t) := by
  obtain ⟨hroot, hrep, hperm⟩ := ha
  have hlen : (PT.ids d t).length = T.heap.length := by
    rw [hperm.length_eq, List.length_range]
  have hd := height_lt_ids ORDER d t hwf
  have hlv : leaves T = some ((PT.leaves d t).map (fun l => (l.id, d))) := by
    simp only [leaves, hroot]
    exact leaves_below_spec ORDER T.heap d t none _ hrep hwf (by omega)
  refine ⟨hlv, ?_⟩
  simp only [entries, hlv, List.map_map]
  have he := entries_of_spec T.heap (PT.leaves d t) (fun l hl =>
    ⟨Rep_leaves T.heap d t none hrep l hl, ((WF_zero_iff ORDER l).mp (WF_leaves ORDER d t hwf l hl)).1⟩)
  exact he

/-! ## The stored entries after an insertion -/

theorem entries_zero (l : LeafR K V) : PT.entries 0 (l : PT K V 0) = l.keys.zip l.values := by
  simp [PT.entries, PT.leaves, LeafR.entries]

theorem entries_succ (d : Nat) (n : NodeR K (PT K V d)) :
    PT.entries (d + 1) (n : PT K V (d + 1)) = entriesL d n.children := by
  simp only [PT.entries, leaves_succ, entriesL, List.map_flatten, List.flatten_flatten,
    List.map_map]
  rfl

theorem entriesL_append (d : Nat) (A B : List (PT K V d)) :
    entriesL d (A ++ B) = entriesL d A ++ entriesL d B := by
  simp [entriesL]

theorem entriesL_cons (d : Nat) (c : PT K V d) (B : List (PT K V d)) :
    entriesL d (c :: B) = PT.entries d c ++ entriesL d B := by
  simp [entriesL]

theorem entriesL_nil (d : Nat) : entriesL d ([] : List (PT K V d)) = [] := rfl

theorem entriesL_insertAt (d : Nat) (cs : List (PT K V d)) (i : Nat) (x : PT K V d) :
    (entriesL d (insertAt cs i x)).Perm (PT.entries d x ++ entriesL d cs) := by
  unfold insertAt
  rw [entriesL_append, entriesL_cons]
  have h1 : (entriesL d (List.take i cs) ++ (PT.entries d x ++ entriesL d (List.drop i cs))).Perm
      (PT.entries d x ++ (entriesL d (List.take i cs) ++ entriesL d (List.drop i cs))) := by
    rw [← List.append_assoc, ← List.append_assoc]
    exact List.Perm.append_right _ List.perm_append_comm
  rw [← entriesL_append, List.take_append_drop] at h1
  exact h1

theorem entriesL_take_drop (d : Nat) (cs : List (PT K V d)) (m : Nat) :
    entriesL d (cs.take m) ++ entriesL d (cs.drop m) = entriesL d cs := by
  rw [← entriesL_append, List.take_append_drop]

theorem zip_take_drop {α β : Type} (xs : List α) (ys : List β) (m : Nat) :
    (xs.take m).zip (ys.take m) ++ (xs.drop m).zip (ys.drop m) = xs.zip ys := by
  have h1 : (xs.take m).zip (ys.take m) = (xs.zip ys).take m := List.take_zipWith.symm
  have h2 : (xs.drop m).zip (ys.drop m) = (xs.zip ys).drop m := List.drop_zipWith.symm
  rw [h1, h2, List.take_append_drop]

theorem zip_insertAt {α β : Type} (xs : List α) (ys : List β) (i : Nat) (x : α) (y : β)
    (hl : ys.length = xs.length) :
    (insertAt xs i x).zip (insertAt ys i y) = insertAt (xs.zip ys) i (x, y) := by
  unfold insertAt
  have hlen : (xs.take i).length = (ys.take i).length := by
    simp only [List.length_take, hl]
  rw [List.zip_append hlen]
  have h1 : (xs.take i).zip (ys.take i) = (xs.zip ys).take i := List.take_zipWith.symm
  have h2 : (xs.drop i).zip (ys.drop i) = (xs.zip ys).drop i := List.drop_zipWith.symm
  rw [List.zip_cons_cons, h1, h2]

/-- An insertion adds exactly the pair `(k, v)` to the stored entries. -/
theorem pins_entries [LinearOrder K] (ORDER fresh : Nat) (k : K) (v : V) :
    ∀ (d : Nat) (t : PT K V d), WF ORDER d t →
      (Res.entries d (pins ORDER fresh k v d t)).Perm ((k, v) :: PT.entries d t)
  | 0, l, hwf => by
    obtain ⟨h1, -, -, -⟩ := (WF_zero_iff ORDER l).mp hwf
    have hins : (leaf_ins k v l).keys.zip (leaf_ins k v l).values =
        insertAt (l.keys.zip l.values) (lower_bound l.keys k) (k, v) :=
      zip_insertAt l.keys l.values _ k v h1
    rw [pins_zero, entries_zero]
    by_cases hf : ORDER - 1 ≤ (leaf_ins k v l).keys.length
    · simp only [hf, if_true, leaf_split, Res.entries]
      rw [entries_zero, entries_zero]
      simp only
      rw [zip_take_drop, hins]
      exact insertAt_perm _ _ _
    · simp only [hf, if_false, Res.entries]
      rw [entries_zero, hins]
      exact insertAt_perm _ _ _
  | d + 1, n, hwf => by
    classical
    obtain ⟨id, ks, cs⟩ := n
    obtain ⟨hlen, -, -, hwfc⟩ := (WF_succ_iff ORDER d _).mp hwf
    simp only at hlen hwfc
    have hlb := lower_bound_le ks k
    have hi : lower_bound ks k < cs.length := by omega
    have hc : cs[lower_bound ks k]? = some cs[lower_bound ks k] := List.getElem?_eq_getElem hi
    generalize cs[lower_bound ks k] = c at hc
    obtain ⟨A, B, hAB, hAlen⟩ := split_at_index _ _ _ hc
    subst hAB
    have hcmem : c ∈ A ++ c :: B := List.mem_append_right _ (List.mem_cons_self _ _)
    have ih := pins_entries ORDER fresh k v d c (hwfc c hcmem)
    rw [pins_succ ORDER fresh k v d _ c hc]
    simp only
    rw [← hAlen, entries_succ]
    cases hp : pins ORDER fresh k v d c with
    | done c1 =>
      rw [hp] at ih
      simp only [Res.entries] at ih
      simp only [pins_node, set_at_index, Res.entries]
      rw [entries_succ, List.perm_iff_count]
      intro a
      have q1 := ih.count_eq a
      simp only [entriesL_append, entriesL_cons, List.count_append, count_cons_add] at q1 ⊢
      omega
    | split l pk r =>
      rw [hp] at ih
      simp only [Res.entries] at ih
      have hbase : (PT.entries (d + 1)
          (node_ins d ⟨id, ks, A ++ c :: B⟩ A.length l pk r : PT K V (d + 1))).Perm
          ((k, v) :: entriesL d (A ++ c :: B)) := by
        rw [entries_succ]
        simp only [node_ins, set_at_index]
        rw [List.perm_iff_count]
        intro a
        have q1 := ih.count_eq a
        have q2 := (entriesL_insertAt d (A ++ l :: B) (lower_bound ks pk + 1) r).count_eq a
        simp only [entriesL_append, entriesL_cons, List.count_append, count_cons_add] at q1 q2 ⊢
        omega
      simp only [pins_node]
      by_cases hf : ORDER - 1 ≤ (node_ins d ⟨id, ks, A ++ c :: B⟩ A.length l pk r).keys.length
      · simp only [hf, if_true, node_split, Res.entries]
        rw [entries_succ, entries_succ]
        simp only
        rw [entriesL_take_drop, ← entries_succ]
        exact hbase
      · simp only [hf, if_false, Res.entries]
        exact hbase

theorem pinsert_entries [LinearOrder K] (ORDER : Nat) (k : K) (v : V) (s : Option (AT K V))
    (hwf : WFs ORDER s) :
    (pentries (some (pinsert ORDER k v s))).Perm ((k, v) :: pentries s) := by
  cases s with
  | none =>
    show (PT.entries 0 _).Perm _
    rw [entries_zero]
    exact List.Perm.refl _
  | some s =>
    obtain ⟨d, t⟩ := s
    have h := pins_entries ORDER (PT.ids d t).length k v d t hwf
    simp only [pinsert]
    cases hp : pins ORDER (PT.ids d t).length k v d t with
    | done t1 =>
      rw [hp] at h
      exact h
    | split l pk r =>
      rw [hp] at h
      show (PT.entries (d + 1) _).Perm _
      rw [entries_succ]
      simp only [entriesL_cons, entriesL_nil, List.append_nil]
      exact h

theorem pinsert_list_entries [LinearOrder K] (ORDER : Nat) (hO : 3 ≤ ORDER) :
    ∀ (xs : List (K × V)) (s : Option (AT K V)), WFs ORDER s →
      (pentries (pinsert_list ORDER s xs)).Perm (pentries s ++ xs)
  | [], s, _ => by simp [pinsert_list]
  | (k, v) :: rest, s, hwf => by
    have h1 := pinsert_list_entries ORDER hO rest _ (pinsert_WF ORDER hO k v s hwf)
    have h2 := pinsert_entries ORDER k v s hwf
    simp only [pinsert_list]
    refine h1.trans ?_
    refine (List.Perm.append_right _ h2).trans ?_
    simp only [List.cons_append]
    exact List.perm_middle.symm

/-! ## Lookup on a store that holds a tree -/

theorem pleaf_mem [LinearOrder K] (ORDER : Nat) (k : K) :
    ∀ (d : Nat) (t : PT K V d), WF ORDER d t → pleaf k d t ∈ PT.leaves d t
  | 0, l, _ => by simp [pleaf, PT.leaves]
  | d + 1, n, hwf => by
    obtain ⟨h1, -, -, h4⟩ := (WF_succ_iff ORDER d n).mp hwf
    have hlb := lower_bound_le (n : NodeR K (PT K V d)).keys k
    have hi : lower_bound (n : NodeR K (PT K V d)).keys k <
        (n : NodeR K (PT K V d)).children.length := by omega
    have hc := List.getElem?_eq_getElem hi
    have hm : (n : NodeR K (PT K V d)).children[lower_bound (n : NodeR K (PT K V d)).keys k] ∈
        (n : NodeR K (PT K V d)).children := List.getElem_mem _
    rw [pleaf_succ k d n _ hc, leaves_succ]
    simp only [List.mem_flatten, List.mem_map]
    exact ⟨_, ⟨_, hm, rfl⟩, pleaf_mem ORDER k d _ (h4 _ hm)⟩

/-- On a store that holds a tree, `find` returns what the leaf search finds in
the leaf `find_leaf` reaches. -/
theorem find_spec [LinearOrder K] (ORDER : Nat) (k : K) (T : BPlusTree K V) (d : Nat)
    (t : PT K V d) (ha : Abs T (some ⟨d, t⟩)) (hwf : WF ORDER d t) :
    find_leaf T k = some (some (pleaf k d t).id) ∧ find T k = some (pfind k (pleaf k d t)) := by
  obtain ⟨hroot, hrep, hperm⟩ := ha
  have hlen : (PT.ids d t).length = T.heap.length := by
    rw [hperm.length_eq, List.length_range]
  have hd := height_lt_ids ORDER d t hwf
  have hfl := find_leaf_loop_spec ORDER k T.heap d t none T.heap.length hrep hwf (by omega)
  have hm := pleaf_mem ORDER k d t hwf
  obtain ⟨q, hq⟩ := Rep_leaves T.heap d t none hrep _ hm
  obtain ⟨hv, -, -, -⟩ := (WF_zero_iff ORDER _).mp (WF_leaves ORDER d t hwf _ hm)
  have hfl2 : find_leaf T k = some (some (pleaf k d t).id) := by
    simp only [find_leaf, hroot, hfl, Option.map_some']
  refine ⟨hfl2, ?_⟩
  simp only [find, hfl2, hq, leaf_rec, pfind]
  cases hk : (pleaf k d t).keys[lower_bound (pleaf k d t).keys k]? with
  | none => rfl
  | some k1 =>
    simp only
    by_cases he : k1 = k
    · simp only [he, if_true]
      have hlt : lower_bound (pleaf k d t).keys k < (pleaf k d t).values.length := by
        rw [hv]
        exact (List.getElem?_eq_some.mp hk).1
      rw [List.getElem?_eq_getElem hlt]
    · simp only [he, if_false]

theorem pfind_none [LinearOrder K] (k : K) (l : LeafR K V) (hk : k ∉ l.keys) :
    pfind k l = none := by
  unfold pfind
  cases hi : l.keys[lower_bound l.keys k]? with
  | none => rfl
  | some k1 =>
    simp only
    by_cases he : k1 = k
    · exfalso
      apply hk
      rw [← he]
      obtain ⟨hlt, hx⟩ := List.getElem?_eq_some.mp hi
      rw [← hx]
      exact List.getElem_mem _
    · simp only [he, if_false]

theorem leaf_keys_subset_entries [LinearOrder K] (ORDER : Nat) (d : Nat) (t : PT K V d)
    (hwf : WF ORDER d t) (l : LeafR K V) (hl : l ∈ PT.leaves d t) (k : K) (hk : k ∈ l.keys) :
    k ∈ (PT.entries d t).map Prod.fst := by
  obtain ⟨hv, -, -, -⟩ := (WF_zero_iff ORDER _).mp (WF_leaves ORDER d t hwf l hl)
  have h1 : (l.keys.zip l.values).map Prod.fst = l.keys :=
    List.map_fst_zip _ _ (le_of_eq hv.symm)
  rw [← h1] at hk
  obtain ⟨e, he, rfl⟩ := List.mem_map.mp hk
  refine List.mem_map.mpr ⟨e, ?_, rfl⟩
  simp only [PT.entries, List.mem_flatten, List.mem_map]
  exact ⟨_, ⟨l, hl, rfl⟩, he⟩

/-- What `leaves` and `entries` return on a store that holds a possibly empty tree. -/
theorem observe [LinearOrder K] (ORDER : Nat) (T : BPlusTree K V) (s : Option (AT K V))
    (ha : Abs T s) (hwf : WFs ORDER s) :
    leaves T = some ((pleaves s).map (fun l => (l.id, pheight s))) ∧
    entries T = some (pentries s) := by
  cases s with
  | none =>
    have hT : T = empty := ha
    subst hT
    exact ⟨rfl, rfl⟩
  | some s =>
    obtain ⟨d, t⟩ := s
    exact observe_tree ORDER T d t ha hwf

theorem pbuild_entries [LinearOrder K] (ORDER : Nat) (hO : 3 ≤ ORDER) (xs : List (K × V)) :
    (pentries (pbuild ORDER xs)).Perm xs := by
  have h := pinsert_list_entries ORDER hO xs none trivial
  simpa [pbuild, pentries] using h

/-- C2: for every `ORDER >= 3`, after any run of `insert` calls on the empty
tree (the empty run included), `find(k, result)` returns `false` for every key
`k` that was never inserted. -/
theorem find_absent_key [LinearOrder K] (ORDER : Nat) (hO : 3 ≤ ORDER) (xs : List (K × V))
    (k : K) (hk : k ∉ xs.map Prod.fst) :
    ∃ T, build ORDER xs = some T ∧ find T k = some none := by
  obtain ⟨T, hb, ha, hwf⟩ := build_refines ORDER hO xs
  refine ⟨T, hb, ?_⟩
  have hperm := pbuild_entries ORDER hO xs
  cases hs : pbuild ORDER xs with
  | none =>
    rw [hs] at ha
    have hT : T = empty := ha
    subst hT
    rfl
  | some s =>
    obtain ⟨d, t⟩ := s
    rw [hs] at ha hwf hperm
    rw [(find_spec ORDER k T d t ha hwf).2]
    refine congrArg some (pfind_none k _ ?_)
    intro hmem
    have h1 := leaf_keys_subset_entries ORDER d t hwf _ (pleaf_mem ORDER k d t hwf) k hmem
    exact hk ((hperm.map Prod.fst).mem_iff.mp h1)

/-- Every leaf record at an address of the tree is one of its leaves. -/
theorem leaf_ids_mem (h : List (Node K V)) :
    ∀ (d : Nat) (t : PT K V d) (p : Option Nat), Rep h d p t → ∀ i ∈ PT.ids d t,
      ∀ n, h[i]? = some n → n.is_leaf = true → ∃ l ∈ PT.leaves d t, l.id = i
  | 0, l, _, _, i, hi, _, _, _ => by
    simp only [PT.ids, List.mem_singleton] at hi
    exact ⟨l, by simp [PT.leaves], hi.symm⟩
  | d + 1, n, p, hr, i, hi, m, hm, hleaf => by
    obtain ⟨hrec, hch⟩ := (Rep_succ_iff h d p n).mp hr
    rw [ids_succ, List.mem_cons] at hi
    rcases hi with hi | hi
    · rw [hi, hrec] at hm
      cases hm
      cases hleaf
    · obtain ⟨c, hc, hic⟩ := (mem_idsL d _ _).mp hi
      obtain ⟨l, hl, hli⟩ := leaf_ids_mem h d c _ (hch c hc) i hic m hm hleaf
      refine ⟨l, ?_, hli⟩
      rw [leaves_succ]
      simp only [List.mem_flatten, List.mem_map]
      exact ⟨_, ⟨c, hc, rfl⟩, hl⟩

/-- C4: for every `ORDER >= 3`, after any run of `insert` calls on the empty
tree, the traversal from the root finds every leaf record of the store, and
all leaves are at the same depth below the root. -/
theorem leaves_same_depth [LinearOrder K] (ORDER : Nat) (hO : 3 ≤ ORDER) (xs : List (K × V)) :
    ∃ T ls, build ORDER xs = some T ∧ leaves T = some ls ∧
      (∀ (a : Nat) (n : Node K V), T.heap[a]? = some n → n.is_leaf = true →
        a ∈ ls.map Prod.fst) ∧
      ∀ a ∈ ls, ∀ b ∈ ls, a.2 = b.2 := by
  obtain ⟨T, hb, ha, hwf⟩ := build_refines ORDER hO xs
  refine ⟨T, _, hb, (observe ORDER T _ ha hwf).1, ?_, ?_⟩
  · intro a n hn hleaf
    cases hs : pbuild ORDER xs with
    | none =>
      rw [hs] at ha
      have hT : T = empty := ha
      subst hT
      simp [empty] at hn
    | some st =>
      obtain ⟨d, t⟩ := st
      rw [hs] at ha
      obtain ⟨-, hrep, hperm⟩ := ha
      have halt : a < T.heap.length := (List.getElem?_eq_some.mp hn).1
      have hmem : a ∈ PT.ids d t := hperm.mem_iff.mpr (List.mem_range.mpr halt)
      obtain ⟨l, hl, hli⟩ := leaf_ids_mem T.heap d t none hrep a hmem n hn hleaf
      simp only [pleaves, List.map_map, List.mem_map, Function.comp]
      exact ⟨l, hl, hli⟩
  · intro a ha1 b hb1
    obtain ⟨_, _, rfl⟩ := List.mem_map.mp ha1
    obtain ⟨_, _, rfl⟩ := List.mem_map.mp hb1
    rfl

/-- C9: for every `ORDER >= 3` and every tree built by `insert` calls,
`insert(k, v)` returns and the entries stored in the leaves afterwards are the
entries stored before plus the one pair `(k, v)`, whether or not `k` was
already stored: nothing is overwritten, the number of entries grows by exactly
one, and the stored entries are, as a multiset, the inserted pairs. -/
theorem insert_adds_one_entry [LinearOrder K] (ORDER : Nat) (hO : 3 ≤ ORDER)
    (xs : List (K × V)) (k : K) (v : V) :
    ∃ T T1 es es1, build ORDER xs = some T ∧ insert ORDER T k v = some T1 ∧
      entries T = some es ∧ entries T1 = some es1 ∧
      es.Perm xs ∧ es1.Perm ((k, v) :: es) ∧ es1.length = es.length + 1 := by
  obtain ⟨T, hb, ha, hwf⟩ := build_refines ORDER hO xs
  obtain ⟨T1, hi, ha1⟩ := insert_refines ORDER k v T _ ha hwf
  have hwf1 := pinsert_WF ORDER hO k v _ hwf
  have hp := pinsert_entries ORDER k v _ hwf
  refine ⟨T, T1, _, _, hb, hi, (observe ORDER T _ ha hwf).2, (observe ORDER T1 _ ha1 hwf1).2,
    pbuild_entries ORDER hO xs, hp, ?_⟩
  rw [hp.length_eq, List.length_cons]

theorem find_absent_key_witness :
    (3 ≤ 4 ∧ (2 : Nat) ∉ [((5 : Nat), "sapo5"), (3, "perro3"), (7, "pato7")].map Prod.fst) ∧
    ∃ T, build 4 [((5 : Nat), "sapo5"), (3, "perro3"), (7, "pato7")] = some T ∧
      find T 2 = some none :=
  ⟨⟨by decide, by decide⟩,
    find_absent_key 4 (by decide) [((5 : Nat), "sapo5"), (3, "perro3"), (7, "pato7")] 2
      (by decide)⟩

theorem leaves_same_depth_witness :
    3 ≤ 4 ∧ ∃ T ls, build 4 [((5 : Nat), "sapo5"), (3, "perro3"), (7, "pato7")] = some T ∧
      leaves T = some ls ∧
      (∀ (a : Nat) (n : Node Nat String), T.heap[a]? = some n → n.is_leaf = true →
        a ∈ ls.map Prod.fst) ∧
      ∀ a ∈ ls, ∀ b ∈ ls, a.2 = b.2 :=
  ⟨by decide, leaves_same_depth 4 (by decide) [((5 : Nat), "sapo5"), (3, "perro3"), (7, "pato7")]⟩

theorem insert_adds_one_entry_witness :
    3 ≤ 4 ∧ ∃ T T1 es es1, build 4 [((5 : Nat), "sapo5")] = some T ∧
      insert 4 T 5 "rana5" = some T1 ∧
      entries T = some es ∧ entries T1 = some es1 ∧
      es.Perm [((5 : Nat), "sapo5")] ∧ es1.Perm ((5, "rana5") :: es) ∧
      es1.length = es.length + 1 :=
  ⟨by decide, insert_adds_one_entry 4 (by decide) [((5 : Nat), "sapo5")] 5 "rana5"⟩

/-! ## Lower bound on ascending vectors without repetition -/

theorem lower_bound_eq [LinearOrder K] (k : K) :
    ∀ (xs : List K) (i : Nat), (∀ x ∈ xs.take i, x < k) → (∀ x, xs[i]? = some x → ¬ x < k) →
      i ≤ xs.length → lower_bound xs k = i
  | [], i, _, _, hi => by
    simp only [List.length_nil, Nat.le_zero] at hi
    rw [hi, lower_bound_nil]
  | y :: ys, 0, _, h2, _ => lower_bound_cons_ge y k ys (h2 y (List.getElem?_cons_zero))
  | y :: ys, i + 1, h1, h2, hi => by
    have hy : y < k := h1 y (by simp)
    rw [lower_bound_cons_lt y k ys hy]
    congr 1
    refine lower_bound_eq k ys i ?_ ?_ (by simpa using hi)
    · intro x hx
      exact h1 x (by rw [List.take_succ_cons]; exact List.mem_cons_of_mem _ hx)
    · intro x hx
      exact h2 x (by simpa using hx)

theorem not_lt_getElem_lower_bound [LinearOrder K] (k : K) :
    ∀ (xs : List K) (x : K), xs[lower_bound xs k]? = some x → ¬ x < k
  | [], x, h => by simp at h
  | y :: ys, x, h => by
    by_cases hy : y < k
    · rw [lower_bound_cons_lt y k ys hy] at h
      exact not_lt_getElem_lower_bound k ys x (by simpa using h)
    · rw [lower_bound_cons_ge y k ys hy] at h
      simp only [List.getElem?_cons_zero, Option.some.injEq] at h
      rw [← h]
      exact hy

theorem sorted_le_of_lt [LinearOrder K] (ks : List K) (hs : ks.Sorted (· < ·)) :
    ks.Sorted (· ≤ ·) :=
  List.Pairwise.imp (fun h => le_of_lt h) hs

theorem sorted_lt_insertAt [LinearOrder K] (k : K) (ks : List K) (hs : ks.Sorted (· < ·))
    (hk : k ∉ ks) : (insertAt ks (lower_bound ks k) k).Sorted (· < ·) := by
  unfold insertAt
  have h1 := lt_of_mem_take_lower_bound k ks
  have h2 := le_of_mem_drop_lower_bound k ks (sorted_le_of_lt ks hs)
  have h3 : ∀ x ∈ ks.drop (lower_bound ks k), k < x := by
    intro x hx
    refine lt_of_le_of_ne (h2 x hx) ?_
    intro e
    exact hk (e ▸ List.mem_of_mem_drop hx)
  have hsub1 : (ks.take (lower_bound ks k)).Sorted (· < ·) :=
    List.Pairwise.sublist (List.take_sublist _ _) hs
  have hsub2 : (ks.drop (lower_bound ks k)).Sorted (· < ·) :=
    List.Pairwise.sublist (List.drop_sublist _ _) hs
  unfold List.Sorted at *
  rw [List.pairwise_append]
  refine ⟨hsub1, List.pairwise_cons.mpr ⟨h3, hsub2⟩, ?_⟩
  intro a ha b hb
  rcases List.mem_cons.mp hb with rfl | hb
  · exact h1 a ha
  · exact lt_trans (h1 a ha) (h3 b hb)

theorem insertAt_mid {α : Type} (A B : List α) (l r : α) :
    insertAt (A ++ l :: B) (A.length + 1) r = A ++ l :: r :: B := by
  unfold insertAt
  have h1 : A ++ l :: B = (A ++ [l]) ++ B := by simp
  have h2 : A.length + 1 = (A ++ [l]).length := by simp
  rw [h1, h2, List.take_left, List.drop_left]
  simp

theorem getElem?_mid {α : Type} (A B : List α) (x : α) (i : Nat) :
    (A ++ x :: B)[i]? =
      if i < A.length then A[i]? else if i = A.length then some x else B[i - A.length - 1]? := by
  by_cases h1 : i < A.length
  · simp only [h1, if_true]
    exact List.getElem?_append_left h1
  · simp only [h1, if_false]
    rw [List.getElem?_append_right (by omega)]
    by_cases h2 : i = A.length
    · simp only [h2, if_true, Nat.sub_self, List.getElem?_cons_zero]
    · simp only [h2, if_false]
      obtain ⟨j, hj⟩ : ∃ j, i - A.length = j + 1 := ⟨i - A.length - 1, by omega⟩
      rw [hj, List.getElem?_cons_succ]
      congr 1

theorem head?_insertAt_pos {α : Type} (xs : List α) (i : Nat) (x : α) (hi : 0 < i)
    (hx : xs ≠ []) : (insertAt xs i x).head? = xs.head? := by
  cases xs with
  | nil => exact absurd rfl hx
  | cons y ys =>
    obtain ⟨j, rfl⟩ : ∃ j, i = j + 1 := ⟨i - 1, by omega⟩
    rfl

theorem lower_bound_pos [LinearOrder K] (k m : K) (xs : List K) (h : xs.head? = some m)
    (hm : m < k) : 0 < lower_bound xs k := by
  cases xs with
  | nil => simp at h
  | cons y ys =>
    simp only [List.head?_cons, Option.some.injEq] at h
    subst h
    rw [lower_bound_cons_lt y k ys hm]
    omega

/-! ## Keys in leaf order -/

theorem keysL_append (A B : List (LeafR K V)) : keysL (A ++ B) = keysL A ++ keysL B := by
  simp [keysL]

theorem keysL_cons (l : LeafR K V) (B : List (LeafR K V)) : keysL (l :: B) = l.keys ++ keysL B := by
  simp [keysL]

theorem keysL_nil : keysL ([] : List (LeafR K V)) = [] := rfl

theorem SepMin_succ_iff (d : Nat) (n : NodeR K (PT K V d)) :
    SepMin (d + 1) (n : PT K V (d + 1)) ↔
      (∀ i s c, n.keys[i]? = some s → n.children[i + 1]? = some c →
        (PT.pkeys d c).head? = some s) ∧
      ∀ c ∈ n.children, SepMin d c := Iff.rfl

theorem leavesL_append (d : Nat) (A B : List (PT K V d)) :
    leavesL d (A ++ B) = leavesL d A ++ leavesL d B := by
  simp [leavesL]

theorem leavesL_cons (d : Nat) (c : PT K V d) (B : List (PT K V d)) :
    leavesL d (c :: B) = PT.leaves d c ++ leavesL d B := by
  simp [leavesL]

theorem leavesL_nil (d : Nat) : leavesL d ([] : List (PT K V d)) = [] := rfl

theorem leaves_succ' (d : Nat) (n : NodeR K (PT K V d)) :
    PT.leaves (d + 1) (n : PT K V (d + 1)) = leavesL d n.children := rfl

theorem leavesL_take_drop (d : Nat) (cs : List (PT K V d)) (m : Nat) :
    leavesL d (cs.take m) ++ leavesL d (cs.drop m) = leavesL d cs := by
  rw [← leavesL_append, List.take_append_drop]

/-- A well-shaped tree stores at least one key. -/
theorem pkeys_ne_nil [LinearOrder K] (ORDER : Nat) :
    ∀ (d : Nat) (t : PT K V d), WF ORDER d t → PT.pkeys d t ≠ []
  | 0, l, hwf => by
    obtain ⟨-, h2, -, -⟩ := (WF_zero_iff ORDER l).mp hwf
    simp only [PT.pkeys, PT.leaves, keysL_cons, keysL_nil, List.append_nil]
    intro e
    rw [e] at h2
    simp at h2
  | d + 1, n, hwf => by
    obtain ⟨id, ks, cs⟩ := n
    obtain ⟨hlen, -, -, hwfc⟩ := (WF_succ_iff ORDER d _).mp hwf
    simp only at hlen hwfc
    cases cs with
    | nil => simp at hlen
    | cons c cs =>
      have := pkeys_ne_nil ORDER d c (hwfc c (List.mem_cons_self _ _))
      simp only [PT.pkeys, leaves_succ', leavesL_cons, keysL_append] at this ⊢
      intro e
      exact this (List.append_eq_nil.mp e).1

/-! ## The leaf that receives the key -/

theorem leaf_out_keys [LinearOrder K] (ORDER fresh : Nat) (k : K) (v : V) (l : LeafR K V) :
    keysL (Res.leaves 0 (pins ORDER fresh k v 0 (l : PT K V 0))) =
      insertAt l.keys (lower_bound l.keys k) k := by
  rw [pins_zero]
  by_cases hf : ORDER - 1 ≤ (leaf_ins k v l).keys.length
  · simp only [hf, if_true, leaf_split, Res.leaves, PT.leaves, List.singleton_append, keysL_cons,
      keysL_nil, List.append_nil]
    exact List.take_append_drop _ _
  · simp only [hf, if_false, Res.leaves, PT.leaves, keysL_cons, keysL_nil, List.append_nil]
    rfl

theorem leaf_out_SepMin [LinearOrder K] (ORDER fresh : Nat) (k : K) (v : V) (l : LeafR K V) :
    Res.SepMin 0 (pins ORDER fresh k v 0 (l : PT K V 0)) := by
  rw [pins_zero]
  by_cases hf : ORDER - 1 ≤ (leaf_ins k v l).keys.length
  · simp only [hf, if_true, leaf_split, Res.SepMin, SepMin, true_and]
    have hlen := leaf_ins_keys_length k v l
    have hne : (leaf_ins k v l).keys.drop ((leaf_ins k v l).keys.length / 2) ≠ [] := by
      intro hnil
      have := congrArg List.length hnil
      simp only [List.length_drop, List.length_nil] at this
      omega
    obtain ⟨x, xs, hx⟩ := List.exists_cons_of_ne_nil hne
    simp only [PT.pkeys, PT.leaves, keysL_cons, keysL_nil, List.append_nil, hx, List.head?_cons,
      List.headD_cons]
  · simp only [hf, if_false, Res.SepMin, SepMin]

theorem head_le_of_sorted [LinearOrder K] (xs : List K) (hs : xs.Sorted (· < ·)) (m : K)
    (hm : xs.head? = some m) : ∀ z ∈ xs, m ≤ z := by
  cases xs with
  | nil => simp at hm
  | cons y ys =>
    simp only [List.head?_cons, Option.some.injEq] at hm
    subst hm
    intro z hz
    rcases List.mem_cons.mp hz with rfl | hz
    · exact le_refl _
    · exact le_of_lt (List.rel_of_sorted_cons hs z hz)

theorem mem_of_head? {α : Type} (xs : List α) (m : α) (hm : xs.head? = some m) : m ∈ xs := by
  cases xs with
  | nil => simp at hm
  | cons y ys =>
    simp only [List.head?_cons, Option.some.injEq] at hm
    subst hm
    exact List.mem_cons_self _ _

/-- The keys in leaf order after the insertion are ascending without
repetition, when they were so before and the new key is between its neighbours. -/
theorem sorted_after [LinearOrder K] (k : K) (XA XB ks : List K)
    (hs : (XA ++ ks ++ XB).Sorted (· < ·)) (hk : k ∉ ks)
    (hA : ∀ x ∈ XA, x < k) (hB : ∀ x ∈ XB, k < x) :
    (XA ++ insertAt ks (lower_bound ks k) k ++ XB).Sorted (· < ·) := by
  unfold List.Sorted at *
  rw [List.pairwise_append] at hs
  obtain ⟨h1, h2, h3⟩ := hs
  rw [List.pairwise_append] at h1
  obtain ⟨h4, h5, h6⟩ := h1
  rw [List.pairwise_append]
  refine ⟨?_, h2, ?_⟩
  · rw [List.pairwise_append]
    refine ⟨h4, sorted_lt_insertAt k ks h5 hk, ?_⟩
    intro a ha b hb
    rcases (mem_insertAt ks _ k b).mp hb with rfl | hb
    · exact hA a ha
    · exact h6 a ha b hb
  · intro a ha b hb
    rcases List.mem_append.mp ha with ha | ha
    · exact h3 a (List.mem_append_left _ ha) b hb
    · rcases (mem_insertAt ks _ k a).mp ha with rfl | ha
      · exact hB b hb
      · exact h3 a (List.mem_append_right _ ha) b hb

/-- The smallest key is kept when a larger key is inserted. -/
theorem head_after [LinearOrder K] (k m : K) (XA XB ks : List K) (hks : ks ≠ [])
    (hm : (XA ++ ks ++ XB).head? = some m) (hmk : m < k) :
    (XA ++ insertAt ks (lower_bound ks k) k ++ XB).head? = some m := by
  cases XA with
  | cons a XA =>
    simpa using hm
  | nil =>
    simp only [List.nil_append] at hm ⊢
    rw [List.head?_append_of_ne_nil _ hks] at hm
    have hpos := lower_bound_pos k m ks hm hmk
    have hne : insertAt ks (lower_bound ks k) k ≠ [] := by
      intro e
      have := congrArg List.length e
      rw [length_insertAt] at this
      simp at this
    rw [List.head?_append_of_ne_nil _ hne, head?_insertAt_pos ks _ k hpos hks]
    exact hm

theorem sorted_le_getElem [LinearOrder K] (xs : List K) (hs : xs.Sorted (· ≤ ·)) (i j : Nat)
    (x y : K) (hx : xs[i]? = some x) (hy : xs[j]? = some y) (hij : i ≤ j) : x ≤ y := by
  obtain ⟨hi, rfl⟩ := List.getElem?_eq_some.mp hx
  obtain ⟨hj, rfl⟩ := List.getElem?_eq_some.mp hy
  rcases Nat.lt_or_eq_of_le hij with h | h
  · exact (List.pairwise_iff_getElem.mp hs) i j hi hj h
  · subst h
    exact le_refl _

theorem leaves_WF_keys [LinearOrder K] (ORDER : Nat) (d : Nat) (t : PT K V d)
    (hwf : WF ORDER d t) (l : LeafR K V) (hl : l ∈ PT.leaves d t) : l.keys ≠ [] := by
  obtain ⟨-, h2, -, -⟩ := (WF_zero_iff ORDER l).mp (WF_leaves ORDER d t hwf l hl)
  intro e
  rw [e] at h2
  simp at h2

theorem mem_keysL (ls : List (LeafR K V)) (x : K) :
    x ∈ keysL ls ↔ ∃ l ∈ ls, x ∈ l.keys := by
  simp only [keysL, List.mem_flatten, List.mem_map]
  constructor
  · rintro ⟨_, ⟨l, hl, rfl⟩, hx⟩
    exact ⟨l, hl, hx⟩
  · rintro ⟨l, hl, hx⟩
    exact ⟨_, ⟨l, hl, rfl⟩, hx⟩

/-! ## Insertion of a new key into an ordered tree -/

theorem pkeys_succ (d : Nat) (id : Nat) (ks : List K) (A B : List (PT K V d)) (c : PT K V d) :
    PT.pkeys (d + 1) ((⟨id, ks, A ++ c :: B⟩ : NodeR K (PT K V d)) : PT K V (d + 1)) =
      keysL (leavesL d A) ++ PT.pkeys d c ++ keysL (leavesL d B) := by
  simp only [PT.pkeys, leaves_succ', leavesL_append, leavesL_cons, keysL_append,
    List.append_assoc]

theorem SepMin_take (d : Nat) (id1 : Nat) (ks : List K) (cs : List (PT K V d)) (m : Nat)
    (h : SepMin (d + 1) ((⟨id1, ks, cs⟩ : NodeR K (PT K V d)) : PT K V (d + 1))) :
    SepMin (d + 1)
      ((⟨id1, ks.take m, cs.take (m + 1)⟩ : NodeR K (PT K V d)) : PT K V (d + 1)) := by
  obtain ⟨h1, h2⟩ := (SepMin_succ_iff d _).mp h
  refine (SepMin_succ_iff d _).mpr ⟨?_, ?_⟩
  · intro i s c hs hc
    simp only [List.getElem?_take] at hs hc
    split at hs
    · split at hc
      · exact h1 i s c hs hc
      · cases hc
    · cases hs
  · intro c hc
    exact h2 c (List.mem_of_mem_take hc)

theorem SepMin_drop (d : Nat) (id1 id2 : Nat) (ks : List K) (cs : List (PT K V d)) (m : Nat)
    (h : SepMin (d + 1) ((⟨id1, ks, cs⟩ : NodeR K (PT K V d)) : PT K V (d + 1))) :
    SepMin (d + 1)
      ((⟨id2, ks.drop (m + 1), cs.drop (m + 1)⟩ : NodeR K (PT K V d)) : PT K V (d + 1)) := by
  obtain ⟨h1, h2⟩ := (SepMin_succ_iff d _).mp h
  refine (SepMin_succ_iff d _).mpr ⟨?_, ?_⟩
  · intro i s c hs hc
    simp only [List.getElem?_drop] at hs hc
    exact h1 (m + 1 + i) s c hs (by rw [← hc]; congr 1)
  · intro c hc
    exact h2 c (List.mem_of_mem_drop hc)

/-- The separator invariant after `insert_in_parent` has put the promoted
key and the new sibling right behind the split child. -/
theorem SepMin_node_ins [LinearOrder K] (d : Nat) (id1 : Nat) (ks : List K)
    (A B : List (PT K V d)) (c l r : PT K V d) (pk : K) (hA : A.length ≤ ks.length)
    (h : SepMin (d + 1) ((⟨id1, ks, A ++ c :: B⟩ : NodeR K (PT K V d)) : PT K V (d + 1)))
    (hl : SepMin d l) (hr : SepMin d r) (hrk : (PT.pkeys d r).head? = some pk)
    (hhead : ∀ s, (PT.pkeys d c).head? = some s → A ≠ [] → (PT.pkeys d l).head? = some s) :
    SepMin (d + 1) ((⟨id1, ks.take A.length ++ pk :: ks.drop A.length, A ++ l :: r :: B⟩ :
      NodeR K (PT K V d)) : PT K V (d + 1)) := by
  obtain ⟨h1, h2⟩ := (SepMin_succ_iff d _).mp h
  simp only at h1 h2
  refine (SepMin_succ_iff d _).mpr ⟨?_, ?_⟩
  · intro i s c1 hs hc
    simp only at hs hc
    have htl : (ks.take A.length).length = A.length := by
      rw [List.length_take]
      omega
    rw [getElem?_mid, htl] at hs
    rw [getElem?_mid] at hc
    by_cases c1lt : i + 1 < A.length
    · have c2 : i < A.length := by omega
      simp only [c1lt, c2, if_true] at hs hc
      rw [List.getElem?_take_of_lt c2] at hs
      refine h1 i s c1 hs ?_
      rw [getElem?_mid]
      simp only [c1lt, if_true]
      exact hc
    · by_cases c1eq : i + 1 = A.length
      · have c2 : i < A.length := by omega
        simp only [c1lt, c1eq, c2, if_true, if_false, Option.some.injEq, lt_irrefl] at hs hc
        rw [List.getElem?_take_of_lt c2] at hs
        subst hc
        have hold := h1 i s c hs (by
          rw [getElem?_mid]
          simp only [c1lt, c1eq, if_true, if_false, lt_irrefl])
        refine hhead s hold ?_
        intro e
        rw [e] at c2
        simp at c2
      · by_cases c3 : i = A.length
        · subst c3
          simp only [c1lt, c1eq, if_false, lt_irrefl, if_true, Option.some.injEq,
            Nat.add_sub_cancel_left, List.getElem?_cons_zero, Nat.add_sub_cancel,
            Nat.sub_self] at hs hc
          subst hs
          have hc2 : r = c1 := by
            simpa using hc
          subst hc2
          exact hrk
        · have c4 : ¬ i < A.length := by omega
          simp only [c1lt, c1eq, c4, c3, if_false] at hs hc
          rw [List.getElem?_drop] at hs
          obtain ⟨j, hj⟩ : ∃ j, i + 1 - A.length - 1 = j + 1 :=
            ⟨i + 1 - A.length - 2, by omega⟩
          rw [hj, List.getElem?_cons_succ] at hc
          refine h1 (i - 1) s c1 ?_ ?_
          · rw [← hs]
            congr 1
            omega
          · rw [getElem?_mid]
            have e1 : ¬ i - 1 + 1 < A.length := by omega
            have e2 : ¬ i - 1 + 1 = A.length := by omega
            simp only [e1, e2, if_false]
            rw [← hc]
            congr 1
            omega
  · intro c1 hc1
    simp only [List.mem_append, List.mem_cons] at hc1
    rcases hc1 with hc1 | rfl | rfl | hc1
    · exact h2 c1 (List.mem_append_left _ hc1)
    · exact hl
    · exact hr
    · exact h2 c1 (List.mem_append_right _ (List.mem_cons_of_mem _ hc1))

theorem SepMin_set [LinearOrder K] (d : Nat) (id1 : Nat) (ks : List K)
    (A B : List (PT K V d)) (c c1 : PT K V d)
    (h : SepMin (d + 1) ((⟨id1, ks, A ++ c :: B⟩ : NodeR K (PT K V d)) : PT K V (d + 1)))
    (hc1 : SepMin d c1)
    (hhead : ∀ s, (PT.pkeys d c).head? = some s → A ≠ [] → (PT.pkeys d c1).head? = some s) :
    SepMin (d + 1) ((⟨id1, ks, A ++ c1 :: B⟩ : NodeR K (PT K V d)) : PT K V (d + 1)) := by
  obtain ⟨h1, h2⟩ := (SepMin_succ_iff d _).mp h
  simp only at h1 h2
  refine (SepMin_succ_iff d _).mpr ⟨?_, ?_⟩
  · intro i s c2 hs hc
    simp only at hs hc
    rw [getElem?_mid] at hc
    by_cases c1lt : i + 1 < A.length
    · simp only [c1lt, if_true] at hc
      refine h1 i s c2 hs ?_
      rw [getElem?_mid]
      simp only [c1lt, if_true]
      exact hc
    · by_cases c1eq : i + 1 = A.length
      · simp only [c1lt, c1eq, if_true, if_false, Option.some.injEq, lt_irrefl] at hc
        subst hc
        have hold := h1 i s c hs (by
          rw [getElem?_mid]
          simp only [c1lt, c1eq, if_true, if_false, lt_irrefl])
        refine hhead s hold ?_
        intro e
        rw [e] at c1eq
        simp at c1eq
      · simp only [c1lt, c1eq, if_false] at hc
        refine h1 i s c2 hs ?_
        rw [getElem?_mid]
        simp only [c1lt, c1eq, if_false]
        exact hc
  · intro c2 hc2
    simp only [List.mem_append, List.mem_cons] at hc2
    rcases hc2 with hc2 | rfl | hc2
    · exact h2 c2 (List.mem_append_left _ hc2)
    · exact hc1
    · exact h2 c2 (List.mem_append_right _ (List.mem_cons_of_mem _ hc2))

theorem Res_leaves_pkeys_done (d : Nat) (t : PT K V d) :
    keysL (Res.leaves d (.done t)) = PT.pkeys d t := rfl

theorem Res_leaves_pkeys_split (d : Nat) (l r : PT K V d) (pk : K) :
    keysL (Res.leaves d (.split l pk r)) = PT.pkeys d l ++ PT.pkeys d r := by
  simp only [Res.leaves, keysL_append, PT.pkeys]

theorem node_ins_eq [LinearOrder K] (d : Nat) (id1 : Nat) (ks : List K)
    (A B : List (PT K V d)) (c l r : PT K V d) (pk : K)
    (hj : lower_bound ks pk = A.length) :
    node_ins d ⟨id1, ks, A ++ c :: B⟩ A.length l pk r =
      ⟨id1, ks.take A.length ++ pk :: ks.drop A.length, A ++ l :: r :: B⟩ := by
  simp only [node_ins, set_at_index, hj, insertAt_mid]
  rfl

theorem node_split_leaves (fresh : Nat) (k : K) (d : Nat) (n : NodeR K (PT K V d)) :
    Res.leaves (d + 1) (node_split fresh k d n : Res K V (d + 1)) =
      PT.leaves (d + 1) (n : PT K V (d + 1)) := by
  simp only [node_split, Res.leaves, leaves_succ']
  exact leavesL_take_drop d n.children _

theorem node_split_SepMin (fresh : Nat) (k : K) (d : Nat) (n : NodeR K (PT K V d))
    (h : SepMin (d + 1) (n : PT K V (d + 1)))
    (hlen : n.children.length = n.keys.length + 1) (hk : 1 ≤ n.keys.length) :
    Res.SepMin (d + 1) (node_split fresh k d n : Res K V (d + 1)) := by
  obtain ⟨id1, ks, cs⟩ := n
  simp only at hlen hk
  simp only [node_split, Res.SepMin]
  refine ⟨SepMin_take d id1 ks cs _ h, SepMin_drop d id1 fresh ks cs _ h, ?_⟩
  obtain ⟨h1, -⟩ := (SepMin_succ_iff d _).mp h
  simp only at h1
  have hmid : ks.length / 2 < ks.length := by omega
  have hc : ks.length / 2 + 1 < cs.length := by omega
  have hh := h1 (ks.length / 2) _ _ (List.getElem?_eq_getElem hmid) (List.getElem?_eq_getElem hc)
  have hne : PT.pkeys d cs[ks.length / 2 + 1] ≠ [] := by
    intro e
    rw [e] at hh
    cases hh
  rw [List.getD_eq_getElem?_getD, List.getElem?_eq_getElem hmid]
  simp only [Option.getD_some]
  show (keysL (leavesL d (cs.drop (ks.length / 2 + 1)))).head? = _
  rw [List.drop_eq_getElem_cons hc, leavesL_cons, keysL_append]
  show (PT.pkeys d cs[ks.length / 2 + 1] ++ _).head? = _
  rw [List.head?_append_of_ne_nil _ hne]
  exact hh

/-- Inserting a key that is not stored into an ordered tree: the leaf
`find_leaf` reaches is replaced, in the left-to-right order of the leaves, by
the leaf with the key placed (or by its two halves), all keys to the left are
smaller and all keys to the right are larger, and every separator is still the
smallest key to its right. -/
theorem pins_leaves [LinearOrder K] (ORDER fresh : Nat) (k : K) (v : V) :
    ∀ (d : Nat) (t : PT K V d), WF ORDER d t → (PT.pkeys d t).Sorted (· < ·) → SepMin d t →
      k ∉ PT.pkeys d t →
      ∃ LA LB, PT.leaves d t = LA ++ pleaf k d t :: LB ∧
        Res.leaves d (pins ORDER fresh k v d t) =
          LA ++ Res.leaves 0 (pins ORDER fresh k v 0 (pleaf k d t : PT K V 0)) ++ LB ∧
        (∀ x ∈ keysL LA, x < k) ∧ (∀ x ∈ keysL LB, k < x) ∧
        Res.SepMin d (pins ORDER fresh k v d t)
  | 0, l, _, _, _, _ => by
    refine ⟨[], [], rfl, ?_, ?_, ?_, leaf_out_SepMin ORDER fresh k v l⟩
    · simp [pleaf]
    · simp [keysL_nil]
    · simp [keysL_nil]
  | d + 1, n, hwf, hs, hsm, hk => by
    obtain ⟨id1, ks, cs⟩ := n
    obtain ⟨hlen, -, hks, hwfc⟩ := (WF_succ_iff ORDER d _).mp hwf
    simp only at hlen hks hwfc
    have hlb := lower_bound_le ks k
    have hi : lower_bound ks k < cs.length := by omega
    have hc : cs[lower_bound ks k]? = some cs[lower_bound ks k] := List.getElem?_eq_getElem hi
    generalize cs[lower_bound ks k] = c at hc
    obtain ⟨A, B, hAB, hAlen⟩ := split_at_index _ _ _ hc
    subst hAB
    have hcmem : c ∈ A ++ c :: B := List.mem_append_right _ (List.mem_cons_self _ _)
    have hwfcc := hwfc c hcmem
    obtain ⟨hsep, hsmc⟩ := (SepMin_succ_iff d _).mp hsm
    simp only at hsep hsmc
    -- the keys of the node in leaf order
    rw [pkeys_succ] at hs hk
    have hs0 := hs
    unfold List.Sorted at hs
    rw [List.pairwise_append] at hs
    obtain ⟨hs1, hsB, hcrossB⟩ := hs
    rw [List.pairwise_append] at hs1
    obtain ⟨hsA, hsc, hcrossA⟩ := hs1
    have hkc : k ∉ PT.pkeys d c := fun hm =>
      hk (List.mem_append_left _ (List.mem_append_right _ hm))
    obtain ⟨LAc, LBc, e1, e2, e3, e4, e5⟩ :=
      pins_leaves ORDER fresh k v d c hwfcc hsc (hsmc c hcmem) hkc
    have hl0 : pleaf k (d + 1) ((⟨id1, ks, A ++ c :: B⟩ : NodeR K (PT K V d)) : PT K V (d + 1)) =
        pleaf k d c := pleaf_succ k d _ c hc
    have hPc : PT.pkeys d c = keysL LAc ++ (pleaf k d c).keys ++ keysL LBc := by
      simp only [PT.pkeys, e1, keysL_append, keysL_cons, List.append_assoc]
    have hRk : keysL (Res.leaves d (pins ORDER fresh k v d c)) =
        keysL LAc ++ insertAt (pleaf k d c).keys (lower_bound (pleaf k d c).keys k) k ++
          keysL LBc := by
      rw [e2, keysL_append, keysL_append, leaf_out_keys]
    have hl0mem : pleaf k d c ∈ PT.leaves d c := pleaf_mem ORDER k d c hwfcc
    have hl0ne : (pleaf k d c).keys ≠ [] := leaves_WF_keys ORDER d c hwfcc _ hl0mem
    have hkl0 : k ∉ (pleaf k d c).keys := by
      intro hm
      apply hkc
      rw [hPc]
      exact List.mem_append_left _ (List.mem_append_right _ hm)
    have hRs : (keysL (Res.leaves d (pins ORDER fresh k v d c))).Sorted (· < ·) := by
      rw [hRk]
      rw [hPc] at hsc
      exact sorted_after k _ _ _ hsc hkl0 e3 e4
    have hRmem : ∀ x ∈ keysL (Res.leaves d (pins ORDER fresh k v d c)),
        x = k ∨ x ∈ PT.pkeys d c := by
      intro x hx
      rw [hRk] at hx
      rw [hPc]
      simp only [List.mem_append, mem_insertAt] at hx ⊢
      tauto
    -- keys left of the child are below `k`
    have hbelow : ∀ s, A ≠ [] → (PT.pkeys d c).head? = some s → s < k := by
      intro s hA hhd
      have hApos : 0 < A.length := List.length_pos.mpr hA
      have hex : ∃ s1, ks[A.length - 1]? = some s1 := by
        have hlt : A.length - 1 < ks.length := by omega
        exact ⟨ks[A.length - 1], List.getElem?_eq_getElem hlt⟩
      obtain ⟨s1, hs1⟩ := hex
      have hh := hsep (A.length - 1) s1 c hs1 (by
        rw [show A.length - 1 + 1 = A.length by omega, getElem?_mid]
        simp only [lt_irrefl, if_false, if_true])
      rw [hhd] at hh
      cases hh
      refine lt_of_mem_take_lower_bound k ks s ?_
      rw [← hAlen]
      obtain ⟨hlt, hget⟩ := List.getElem?_eq_some.mp hs1
      rw [← hget]
      rw [List.mem_take_iff_getElem]
      exact ⟨A.length - 1, by omega, rfl⟩
    have hLA : ∀ x ∈ keysL (leavesL d A ++ LAc), x < k := by
      intro x hx
      rw [keysL_append] at hx
      rcases List.mem_append.mp hx with hx | hx
      · have hA : A ≠ [] := by
          intro e
          rw [e] at hx
          simp [leavesL_nil, keysL_nil] at hx
        obtain ⟨m, hm⟩ : ∃ m, (PT.pkeys d c).head? = some m := by
          cases hpc : PT.pkeys d c with
          | nil => exact absurd hpc (pkeys_ne_nil ORDER d c hwfcc)
          | cons y ys => exact ⟨y, rfl⟩
        exact lt_trans (hcrossA x hx m (mem_of_head? _ _ hm)) (hbelow m hA hm)
      · exact e3 x hx
    have hLB : ∀ x ∈ keysL (LBc ++ leavesL d B), k < x := by
      intro x hx
      rw [keysL_append] at hx
      rcases List.mem_append.mp hx with hx | hx
      · exact e4 x hx
      · cases B with
        | nil => simp [leavesL_nil, keysL_nil] at hx
        | cons b B1 =>
          have hbm : b ∈ A ++ c :: b :: B1 :=
            List.mem_append_right _ (List.mem_cons_of_mem _ (List.mem_cons_self _ _))
          have hlt : A.length < ks.length := by
            simp only [List.length_append, List.length_cons] at hlen
            omega
          have hs1 : ks[A.length]? = some ks[A.length] := List.getElem?_eq_getElem hlt
          have hh := hsep A.length _ b hs1 (by
            rw [getElem?_mid]
            simp)
          have hge : ¬ ks[A.length] < k := by
            refine not_lt_getElem_lower_bound k ks _ ?_
            rw [← hAlen]
            exact hs1
          have hbne := pkeys_ne_nil ORDER d b (hwfc b hbm)
          have hhB : (keysL (leavesL d (b :: B1))).head? = some ks[A.length] := by
            rw [leavesL_cons, keysL_append]
            show (PT.pkeys d b ++ keysL (leavesL d B1)).head? = some ks[A.length]
            rw [List.head?_append_of_ne_nil _ hbne]
            exact hh
          have hle := head_le_of_sorted _ hsB _ hhB x hx
          refine lt_of_le_of_ne (le_trans (not_lt.mp hge) hle) ?_
          intro e
          exact hk (List.mem_append_right _ (e ▸ hx))
    -- the smallest key of the child is kept
    have hhead : ∀ s, (PT.pkeys d c).head? = some s → A ≠ [] →
        (keysL (Res.leaves d (pins ORDER fresh k v d c))).head? = some s := by
      intro s hhd hA
      rw [hRk]
      rw [hPc] at hhd
      exact head_after k s _ _ _ hl0ne hhd (hbelow s hA (by rw [hPc]; exact hhd))
    have hresWF := pins_WF ORDER fresh k v d c hwfcc
    rw [hl0, pins_succ ORDER fresh k v d _ c hc]
    simp only
    rw [← hAlen]
    have hleaves : PT.leaves (d + 1)
        ((⟨id1, ks, A ++ c :: B⟩ : NodeR K (PT K V d)) : PT K V (d + 1)) =
        (leavesL d A ++ LAc) ++ pleaf k d c :: (LBc ++ leavesL d B) := by
      rw [leaves_succ']
      simp only [leavesL_append, leavesL_cons, e1, List.append_assoc, List.cons_append]
    cases hp : pins ORDER fresh k v d c with
    | done c1 =>
      rw [hp] at e2 e5 hhead
      have e2a : PT.leaves d c1 =
          LAc ++ Res.leaves 0 (pins ORDER fresh k v 0 (pleaf k d c : PT K V 0)) ++ LBc := e2
      simp only [Res.SepMin] at e5
      simp only [pins_node, set_at_index]
      refine ⟨leavesL d A ++ LAc, LBc ++ leavesL d B, hleaves, ?_, hLA, hLB, ?_⟩
      · show PT.leaves (d + 1) _ = _
        rw [leaves_succ']
        simp only [leavesL_append, leavesL_cons, e2a, List.append_assoc]
      · exact SepMin_set d id1 ks A B c c1 hsm e5 hhead
    | split l pk r =>
      rw [hp] at e2 e5 hhead hRs hRmem hresWF
      have e2a : PT.leaves d l ++ PT.leaves d r =
          LAc ++ Res.leaves 0 (pins ORDER fresh k v 0 (pleaf k d c : PT K V 0)) ++ LBc := e2
      simp only [Res.SepMin, Res.WF] at e5 hresWF
      rw [Res_leaves_pkeys_split] at hhead hRs hRmem
      obtain ⟨hsl, hsr, hrk⟩ := e5
      have hlne := pkeys_ne_nil ORDER d l hresWF.1
      have hpkr : pk ∈ PT.pkeys d r := mem_of_head? _ _ hrk
      have hheadl : ∀ s, (PT.pkeys d c).head? = some s → A ≠ [] →
          (PT.pkeys d l).head? = some s := by
        intro s h1 h2
        have := hhead s h1 h2
        rw [List.head?_append_of_ne_nil _ hlne] at this
        exact this
      have hcross : ∀ a ∈ PT.pkeys d l, ∀ b ∈ PT.pkeys d r, a < b :=
        (List.pairwise_append.mp hRs).2.2
      -- the promoted key goes right behind the child
      have hj : lower_bound ks pk = A.length := by
        refine lower_bound_eq pk ks A.length ?_ ?_ (by omega)
        · intro x hx
          have hA : A ≠ [] := by
            intro e
            rw [e] at hx
            simp at hx
          have hApos : 0 < A.length := List.length_pos.mpr hA
          obtain ⟨m, hm⟩ : ∃ m, (PT.pkeys d c).head? = some m := by
            cases hpc : PT.pkeys d c with
            | nil => exact absurd hpc (pkeys_ne_nil ORDER d c hwfcc)
            | cons y ys => exact ⟨y, rfl⟩
          have hs1 : ks[A.length - 1]? = some ks[A.length - 1] :=
            List.getElem?_eq_getElem (by omega)
          have hh := hsep (A.length - 1) _ c hs1 (by
            rw [show A.length - 1 + 1 = A.length by omega, getElem?_mid]
            simp only [lt_irrefl, if_false, if_true])
          rw [hm] at hh
          cases hh
          rw [List.mem_take_iff_getElem] at hx
          obtain ⟨i, hi1, hi2⟩ := hx
          have hile : i < ks.length := by omega
          have hxle : x ≤ ks[A.length - 1] :=
            sorted_le_getElem ks hks i (A.length - 1) x _
              (by rw [List.getElem?_eq_getElem hile, hi2]) hs1 (by omega)
          exact lt_of_le_of_lt hxle
            (hcross _ (mem_of_head? _ _ (hheadl _ hm hA)) pk hpkr)
        · intro x hx
          rcases hRmem pk (List.mem_append_right _ hpkr) with e | hmem
          · rw [e]
            refine not_lt_getElem_lower_bound k ks x ?_
            rw [← hAlen]
            exact hx
          · cases B with
            | nil =>
              have := (List.getElem?_eq_some.mp hx).1
              simp only [List.length_append, List.length_cons, List.length_nil] at hlen
              omega
            | cons b B1 =>
              have hbm : b ∈ A ++ c :: b :: B1 :=
                List.mem_append_right _ (List.mem_cons_of_mem _ (List.mem_cons_self _ _))
              have hh := hsep A.length x b hx (by
                rw [getElem?_mid]
                simp)
              have hxm : x ∈ keysL (leavesL d (b :: B1)) := by
                rw [leavesL_cons, keysL_append]
                exact List.mem_append_left _ (mem_of_head? _ _ hh)
              exact not_lt_of_gt (hcrossB pk (List.mem_append_right _ hmem) x hxm)
      have hnode := node_ins_eq d id1 ks A B c l r pk hj
      have hsmn : SepMin (d + 1) ((node_ins d ⟨id1, ks, A ++ c :: B⟩ A.length l pk r :
          NodeR K (PT K V d)) : PT K V (d + 1)) := by
        rw [hnode]
        exact SepMin_node_ins d id1 ks A B c l r pk (by omega) hsm hsl hsr hrk hheadl
      have hlvn : PT.leaves (d + 1) ((node_ins d ⟨id1, ks, A ++ c :: B⟩ A.length l pk r :
          NodeR K (PT K V d)) : PT K V (d + 1)) =
          (leavesL d A ++ LAc) ++
            Res.leaves 0 (pins ORDER fresh k v 0 (pleaf k d c : PT K V 0)) ++
            (LBc ++ leavesL d B) := by
        rw [hnode, leaves_succ']
        simp only [leavesL_append, leavesL_cons, List.append_assoc]
        rw [← List.append_assoc (PT.leaves d l), e2a]
        simp only [List.append_assoc]
      simp only [pins_node]
      by_cases hf : ORDER - 1 ≤ (node_ins d ⟨id1, ks, A ++ c :: B⟩ A.length l pk r).keys.length
      · simp only [hf, if_true]
        refine ⟨leavesL d A ++ LAc, LBc ++ leavesL d B, hleaves, ?_, hLA, hLB, ?_⟩
        · rw [node_split_leaves, hlvn]
        · refine node_split_SepMin _ k d _ hsmn ?_ ?_
          · simp only [node_ins, length_insertAt, List.length_set]
            omega
          · simp only [node_ins, length_insertAt]
            omega
      · simp only [hf, if_false]
        exact ⟨leavesL d A ++ LAc, LBc ++ leavesL d B, hleaves, hlvn, hLA, hLB, hsmn⟩

/-! ## The sibling chain -/

theorem LinkedTo_cons (e : Option Nat) (l : LeafR K V) (rest : List (LeafR K V)) :
    LinkedTo e (l :: rest) ↔ l.next = next_of e rest ∧ LinkedTo e rest := by
  cases rest with
  | nil => simp [LinkedTo, next_of]
  | cons l1 rest => simp [LinkedTo, next_of]

/-- Replacing a leaf in a linked run by a linked run that starts at the same
address and ends where the leaf pointed. -/
theorem LinkedTo_replace (e : Option Nat) (l0 o : LeafR K V) (os : List (LeafR K V))
    (hid : o.id = l0.id)
    (hseg : ∀ (LB : List (LeafR K V)), LinkedTo e (l0 :: LB) → LinkedTo e (o :: os ++ LB)) :
    ∀ (LA LB : List (LeafR K V)), LinkedTo e (LA ++ l0 :: LB) →
      LinkedTo e (LA ++ (o :: os) ++ LB)
  | [], LB, h => hseg LB h
  | a :: LA, LB, h => by
    have h1 := (LinkedTo_cons e a (LA ++ l0 :: LB)).mp h
    have ih := LinkedTo_replace e l0 o os hid hseg LA LB h1.2
    have hgoal : a :: LA ++ (o :: os) ++ LB = a :: (LA ++ (o :: os) ++ LB) := by simp
    rw [hgoal, LinkedTo_cons]
    refine ⟨?_, ih⟩
    rw [h1.1]
    cases LA with
    | nil => simp [hid, next_of]
    | cons a1 LA1 => simp [next_of]

theorem leaf_out_linked [LinearOrder K] (ORDER fresh : Nat) (k : K) (v : V) (l0 : LeafR K V)
    (e : Option Nat) :
    ∃ o os, Res.leaves 0 (pins ORDER fresh k v 0 (l0 : PT K V 0)) = o :: os ∧ o.id = l0.id ∧
      ∀ (LB : List (LeafR K V)), LinkedTo e (l0 :: LB) → LinkedTo e (o :: os ++ LB) := by
  rw [pins_zero]
  by_cases hf : ORDER - 1 ≤ (leaf_ins k v l0).keys.length
  · simp only [hf, if_true, leaf_split, Res.leaves, PT.leaves, List.singleton_append]
    refine ⟨_, _, rfl, rfl, ?_⟩
    intro LB h
    have h1 := (LinkedTo_cons e l0 LB).mp h
    simp only [List.cons_append, List.nil_append]
    refine ⟨rfl, ?_⟩
    rw [LinkedTo_cons]
    exact ⟨h1.1, h1.2⟩
  · simp only [hf, if_false, Res.leaves, PT.leaves]
    refine ⟨_, _, rfl, rfl, ?_⟩
    intro LB h
    have h1 := (LinkedTo_cons e l0 LB).mp h
    simp only [List.cons_append, List.nil_append]
    rw [LinkedTo_cons]
    exact ⟨h1.1, h1.2⟩

/-! ## The order invariant over a run of insertions -/

theorem pkeys_eq_entries [LinearOrder K] (ORDER : Nat) (d : Nat) (t : PT K V d)
    (hwf : WF ORDER d t) : PT.pkeys d t = (PT.entries d t).map Prod.fst := by
  simp only [PT.pkeys, PT.entries, keysL, List.map_flatten, List.map_map]
  congr 1
  refine List.map_congr_left ?_
  intro l hl
  obtain ⟨hv, -, -, -⟩ := (WF_zero_iff ORDER l).mp (WF_leaves ORDER d t hwf l hl)
  simp only [Function.comp, LeafR.entries]
  exact (List.map_fst_zip _ _ (le_of_eq hv.symm)).symm

theorem ppkeys_eq_pentries [LinearOrder K] (ORDER : Nat) (s : Option (AT K V))
    (hwf : WFs ORDER s) : ppkeys s = (pentries s).map Prod.fst := by
  cases s with
  | none => rfl
  | some s =>
    obtain ⟨d, t⟩ := s
    exact pkeys_eq_entries ORDER d t hwf

theorem pinsert_Ordered [LinearOrder K] (ORDER : Nat) (k : K) (v : V) (s : Option (AT K V))
    (hwf : WFs ORDER s) (ho : Ordered s) (hk : k ∉ ppkeys s) :
    Ordered (some (pinsert ORDER k v s)) := by
  cases s with
  | none =>
    refine ⟨?_, trivial, rfl⟩
    simp [PT.pkeys, PT.leaves, keysL]
  | some s =>
    obtain ⟨d, t⟩ := s
    obtain ⟨hs, hsm, hl⟩ := ho
    have hwf1 : WF ORDER d t := hwf
    have hk1 : k ∉ PT.pkeys d t := hk
    obtain ⟨LA, LB, e1, e2, e3, e4, e5⟩ :=
      pins_leaves ORDER (PT.ids d t).length k v d t hwf1 hs hsm hk1
    obtain ⟨o, os, f1, f2, f3⟩ :=
      leaf_out_linked ORDER (PT.ids d t).length k v (pleaf k d t) none
    have hl0mem : pleaf k d t ∈ PT.leaves d t := pleaf_mem ORDER k d t hwf1
    have hPc : PT.pkeys d t = keysL LA ++ (pleaf k d t).keys ++ keysL LB := by
      simp only [PT.pkeys, e1, keysL_append, keysL_cons, List.append_assoc]
    have hkl0 : k ∉ (pleaf k d t).keys := by
      intro hm
      apply hk1
      rw [hPc]
      exact List.mem_append_left _ (List.mem_append_right _ hm)
    have hsorted : (keysL (Res.leaves d (pins ORDER (PT.ids d t).length k v d t))).Sorted
        (· < ·) := by
      rw [e2, keysL_append, keysL_append, leaf_out_keys]
      rw [hPc] at hs
      exact sorted_after k _ _ _ hs hkl0 e3 e4
    have hlinked : LinkedTo none (Res.leaves d (pins ORDER (PT.ids d t).length k v d t)) := by
      rw [e2, f1]
      rw [e1] at hl
      exact LinkedTo_replace none (pleaf k d t) o os f2 f3 LA LB hl
    simp only [pinsert]
    cases hp : pins ORDER (PT.ids d t).length k v d t with
    | done t1 =>
      rw [hp] at hsorted hlinked e5
      exact ⟨hsorted, e5, hlinked⟩
    | split l pk r =>
      rw [hp] at hsorted hlinked e5
      obtain ⟨g1, g2, g3⟩ := e5
      refine ⟨?_, ?_, ?_⟩
      · have : PT.pkeys (d + 1) ((⟨(PT.ids d t).length + d + 1, [pk], [l, r]⟩ :
            NodeR K (PT K V d)) : PT K V (d + 1)) =
            keysL (Res.leaves d (.split l pk r)) := by
          simp only [PT.pkeys, leaves_succ', leavesL_cons, leavesL_nil, List.append_nil,
            Res.leaves]
        rw [this]
        exact hsorted
      · refine (SepMin_succ_iff d _).mpr ⟨?_, ?_⟩
        · intro i s c hs1 hc1
          simp only at hs1 hc1
          cases i with
          | zero =>
            simp only [List.getElem?_cons_zero, Option.some.injEq, zero_add,
              List.getElem?_cons_succ] at hs1 hc1
            subst hs1 hc1
            exact g3
          | succ i => simp at hs1
        · intro c hc
          simp only [List.mem_cons, List.mem_singleton, List.not_mem_nil, or_false] at hc
          rcases hc with rfl | rfl
          · exact g1
          · exact g2
      · have : PT.leaves (d + 1) ((⟨(PT.ids d t).length + d + 1, [pk], [l, r]⟩ :
            NodeR K (PT K V d)) : PT K V (d + 1)) = Res.leaves d (.split l pk r) := by
          simp only [leaves_succ', leavesL_cons, leavesL_nil, List.append_nil, Res.leaves]
        rw [this]
        exact hlinked

theorem pinsert_list_Ordered [LinearOrder K] (ORDER : Nat) (hO : 3 ≤ ORDER) :
    ∀ (xs : List (K × V)) (s : Option (AT K V)), WFs ORDER s → Ordered s →
      (xs.map Prod.fst).Nodup → (∀ x ∈ xs.map Prod.fst, x ∉ ppkeys s) →
      Ordered (pinsert_list ORDER s xs)
  | [], _, _, ho, _, _ => ho
  | (k, v) :: rest, s, hwf, ho, hnd, hnew => by
    simp only [List.map_cons, List.nodup_cons] at hnd
    have hk : k ∉ ppkeys s := hnew k (by simp)
    have hwf1 := pinsert_WF ORDER hO k v s hwf
    have ho1 := pinsert_Ordered ORDER k v s hwf ho hk
    refine pinsert_list_Ordered ORDER hO rest _ hwf1 ho1 hnd.2 ?_
    intro x hx hmem
    rw [ppkeys_eq_pentries ORDER _ hwf1] at hmem
    have hp := (pinsert_entries ORDER k v s hwf).map Prod.fst
    have hmem2 := hp.mem_iff.mp hmem
    simp only [List.map_cons, List.mem_cons] at hmem2
    rcases hmem2 with e | hmem2
    · exact hnd.1 (e ▸ hx)
    · rw [← ppkeys_eq_pentries ORDER _ hwf] at hmem2
      exact hnew x (by simp [hx]) hmem2

theorem pbuild_Ordered [LinearOrder K] (ORDER : Nat) (hO : 3 ≤ ORDER) (xs : List (K × V))
    (hnd : (xs.map Prod.fst).Nodup) : Ordered (pbuild ORDER xs) :=
  pinsert_list_Ordered ORDER hO xs none trivial trivial hnd (fun _ _ h => by simp [ppkeys] at h)

/-! ## The sibling chain on a store that holds a tree -/

theorem leftmost_below_spec [LinearOrder K] (ORDER : Nat) (h : List (Node K V)) :
    ∀ (d : Nat) (t : PT K V d) (p : Option Nat) (fuel : Nat),
      Rep h d p t → WF ORDER d t → d < fuel →
      ∃ l rest, PT.leaves d t = l :: rest ∧ leftmost_below h fuel (PT.rid d t) = some l.id
  | 0, l, p, fuel, hr, _, hf => by
    obtain ⟨f, rfl⟩ : ∃ f, fuel = f + 1 := ⟨fuel - 1, by omega⟩
    have hrec : h[(l : LeafR K V).id]? = some (leaf_rec p l) := hr
    refine ⟨l, [], rfl, ?_⟩
    simp only [leftmost_below, PT.rid, hrec, leaf_rec, if_true]
  | d + 1, n, p, fuel, hr, hwf, hf => by
    obtain ⟨f, rfl⟩ : ∃ f, fuel = f + 1 := ⟨fuel - 1, by omega⟩
    obtain ⟨id, ks, cs⟩ := n
    obtain ⟨hrec, hch⟩ := (Rep_succ_iff h d p _).mp hr
    obtain ⟨hlen, -, -, hwfc⟩ := (WF_succ_iff ORDER d _).mp hwf
    simp only at hrec hch hlen hwfc
    cases cs with
    | nil => simp at hlen
    | cons c cs =>
      obtain ⟨l, rest, e1, e2⟩ := leftmost_below_spec ORDER h d c (some id) f
        (hch c (List.mem_cons_self _ _)) (hwfc c (List.mem_cons_self _ _)) (by omega)
      refine ⟨l, rest ++ leavesL d cs, ?_, ?_⟩
      · rw [leaves_succ', leavesL_cons, e1]
        rfl
      · simp only [leftmost_below, PT.rid, hrec, node_rec, Bool.false_eq_true, if_false,
          List.map_cons, List.getElem?_cons_zero]
        exact e2

theorem chain_from_spec (h : List (Node K V)) :
    ∀ (ls : List (LeafR K V)) (fuel : Nat), LinkedTo none ls →
      (∀ l ∈ ls, ∃ q, h[l.id]? = some (leaf_rec q l)) → ls.length ≤ fuel →
      chain_from h fuel (next_of none ls) = some (ls.map (fun l => l.id))
  | [], fuel, _, _, _ => by
    cases fuel <;> rfl
  | l :: rest, fuel, hl, hrec, hf => by
    obtain ⟨f, rfl⟩ : ∃ f, fuel = f + 1 := ⟨fuel - 1, by simp at hf; omega⟩
    obtain ⟨q, hq⟩ := hrec l (List.mem_cons_self _ _)
    have h1 := (LinkedTo_cons none l rest).mp hl
    have ih := chain_from_spec h rest f h1.2
      (fun l1 hl1 => hrec l1 (List.mem_cons_of_mem _ hl1)) (by simpa using hf)
    show chain_from h (f + 1) (some l.id) = _
    simp only [chain_from, hq, leaf_rec, h1.1, ih, List.map_cons]

theorem leaves_length_le :
    ∀ (d : Nat) (t : PT K V d), (PT.leaves d t).length ≤ (PT.ids d t).length
  | 0, _ => by simp [PT.leaves, PT.ids]
  | d + 1, n => by
    obtain ⟨id, ks, cs⟩ := n
    rw [leaves_succ', ids_succ]
    simp only [List.length_cons]
    have : ∀ (cs : List (PT K V d)), (leavesL d cs).length ≤ (idsL d cs).length := by
      intro cs
      induction cs with
      | nil => simp [leavesL, idsL]
      | cons c cs ih =>
        rw [leavesL_cons, idsL_cons]
        simp only [List.length_append]
        have := leaves_length_le d c
        omega
    have := this cs
    omega

/-- On a store that holds a linked tree, the walk along the `next` links from
the leftmost leaf visits the leaves in their left-to-right order. -/
theorem chain_spec [LinearOrder K] (ORDER : Nat) (T : BPlusTree K V) (d : Nat) (t : PT K V d)
    (ha : Abs T (some ⟨d, t⟩)) (hwf : WF ORDER d t) (hl : LinkedTo none (PT.leaves d t)) :
    chain T = some ((PT.leaves d t).map (fun l => l.id)) := by
  obtain ⟨hroot, hrep, hperm⟩ := ha
  have hlen : (PT.ids d t).length = T.heap.length := by
    rw [hperm.length_eq, List.length_range]
  have hd := height_lt_ids ORDER d t hwf
  obtain ⟨l, rest, e1, e2⟩ :=
    leftmost_below_spec ORDER T.heap d t none T.heap.length hrep hwf (by omega)
  have hc := chain_from_spec T.heap (PT.leaves d t) T.heap.length hl
    (Rep_leaves T.heap d t none hrep) (by
      have := leaves_length_le d t
      omega)
  simp only [chain, hroot, e2]
  rw [e1] at hc ⊢
  exact hc

/-- C3: for every `ORDER >= 3` and every run of `insert` calls with pairwise
distinct keys on the empty tree, the walk from the leftmost leaf along the
`next` links visits the leaves in the left-to-right order of the `children`
vectors, and the entries of the leaves in that order have strictly ascending
keys and are exactly the inserted pairs, each once. -/
theorem leaf_chain_sorted [LinearOrder K] (ORDER : Nat) (hO : 3 ≤ ORDER) (xs : List (K × V))
    (hnd : (xs.map Prod.fst).Nodup) :
    ∃ T ls es, build ORDER xs = some T ∧ leaves T = some ls ∧
      chain T = some (ls.map Prod.fst) ∧
      entries_of T.heap (ls.map Prod.fst) = some es ∧
      (es.map Prod.fst).Sorted (· < ·) ∧ es.Perm xs := by
  obtain ⟨T, hb, ha, hwf⟩ := build_refines ORDER hO xs
  have ho := pbuild_Ordered ORDER hO xs hnd
  have hperm := pbuild_entries ORDER hO xs
  obtain ⟨o1, o2⟩ := observe ORDER T _ ha hwf
  have hent : entries_of T.heap
      (((pleaves (pbuild ORDER xs)).map (fun l => (l.id, pheight (pbuild ORDER xs)))).map
        Prod.fst) = some (pentries (pbuild ORDER xs)) := by
    simp only [entries, o1] at o2
    exact o2
  refine ⟨T, _, _, hb, o1, ?_, hent, ?_, hperm⟩
  · cases hs : pbuild ORDER xs with
    | none =>
      rw [hs] at ha
      have hT : T = empty := ha
      subst hT
      rfl
    | some s =>
      obtain ⟨d, t⟩ := s
      rw [hs] at ha hwf ho
      rw [chain_spec ORDER T d t ha hwf ho.2.2]
      simp only [pleaves, List.map_map]
      rfl
  · rw [← ppkeys_eq_pentries ORDER _ hwf]
    cases hs : pbuild ORDER xs with
    | none => simp [ppkeys]
    | some s =>
      obtain ⟨d, t⟩ := s
      rw [hs] at ho
      exact ho.1

theorem leaf_chain_sorted_witness :
    (3 ≤ 4 ∧ ([((5 : Nat), "sapo5"), (3, "perro3"), (7, "pato7")].map Prod.fst).Nodup) ∧
    ∃ T ls es, build 4 [((5 : Nat), "sapo5"), (3, "perro3"), (7, "pato7")] = some T ∧
      leaves T = some ls ∧ chain T = some (ls.map Prod.fst) ∧
      entries_of T.heap (ls.map Prod.fst) = some es ∧
      (es.map Prod.fst).Sorted (· < ·) ∧
      es.Perm [((5 : Nat), "sapo5"), (3, "perro3"), (7, "pato7")] :=
  ⟨⟨by decide, by decide⟩,
    leaf_chain_sorted 4 (by decide) [((5 : Nat), "sapo5"), (3, "perro3"), (7, "pato7")]
      (by decide)⟩

/-! ## Separators and the keys below the children -/

theorem pkeys_succ_all (d : Nat) (n : NodeR K (PT K V d)) :
    PT.pkeys (d + 1) (n : PT K V (d + 1)) = keysL (leavesL d n.children) := rfl

theorem sorted_child [LinearOrder K] (d : Nat) (n : NodeR K (PT K V d))
    (hs : (PT.pkeys (d + 1) (n : PT K V (d + 1))).Sorted (· < ·)) (c : PT K V d)
    (hc : c ∈ n.children) : (PT.pkeys d c).Sorted (· < ·) := by
  obtain ⟨A, B, hAB⟩ := List.append_of_mem hc
  obtain ⟨id, ks, cs⟩ := n
  simp only at hAB
  subst hAB
  rw [pkeys_succ] at hs
  unfold List.Sorted at hs
  exact (List.pairwise_append.mp (List.pairwise_append.mp hs).1).2.1

/-- Every node of a tree the store holds is the top of a subtree the store
holds, with the invariants of the whole tree. -/
theorem subtree_at [LinearOrder K] (ORDER : Nat) (h : List (Node K V)) :
    ∀ (d : Nat) (t : PT K V d) (p : Option Nat), Rep h d p t → WF ORDER d t →
      (PT.pkeys d t).Sorted (· < ·) → SepMin d t → ∀ i ∈ PT.ids d t,
      ∃ (d1 : Nat) (p1 : Option Nat) (t1 : PT K V d1), d1 ≤ d ∧ PT.rid d1 t1 = i ∧
        Rep h d1 p1 t1 ∧ WF ORDER d1 t1 ∧ (PT.pkeys d1 t1).Sorted (· < ·) ∧ SepMin d1 t1
  | 0, l, p, hr, hwf, hs, hsm, i, hi => by
    simp only [PT.ids, List.mem_singleton] at hi
    exact ⟨0, p, l, le_refl _, hi.symm, hr, hwf, hs, hsm⟩
  | d + 1, n, p, hr, hwf, hs, hsm, i, hi => by
    rw [ids_succ, List.mem_cons] at hi
    rcases hi with hi | hi
    · exact ⟨d + 1, p, n, le_refl _, hi.symm, hr, hwf, hs, hsm⟩
    · obtain ⟨c, hc, hic⟩ := (mem_idsL d _ _).mp hi
      obtain ⟨-, hch⟩ := (Rep_succ_iff h d p n).mp hr
      obtain ⟨-, -, -, hwfc⟩ := (WF_succ_iff ORDER d n).mp hwf
      obtain ⟨-, hsmc⟩ := (SepMin_succ_iff d n).mp hsm
      obtain ⟨d1, p1, t1, g1, g2, g3, g4, g5, g6⟩ :=
        subtree_at ORDER h d c _ (hch c hc) (hwfc c hc) (sorted_child d n hs c hc)
          (hsmc c hc) i hic
      exact ⟨d1, p1, t1, by omega, g2, g3, g4, g5, g6⟩

/-- In an ordered tree, the keys below `children[i]` are smaller than
`keys[i]` and the keys below `children[i+1]` are not. -/
theorem node_sep [LinearOrder K] (ORDER : Nat) (d : Nat) (n : NodeR K (PT K V d))
    (hwf : WF ORDER (d + 1) (n : PT K V (d + 1)))
    (hs : (PT.pkeys (d + 1) (n : PT K V (d + 1))).Sorted (· < ·))
    (hsm : SepMin (d + 1) (n : PT K V (d + 1))) (i : Nat) (s : K) (hi : n.keys[i]? = some s) :
    ∃ c0 c1, n.children[i]? = some c0 ∧ n.children[i + 1]? = some c1 ∧
      (∀ x ∈ PT.pkeys d c0, x < s) ∧ (∀ x ∈ PT.pkeys d c1, s ≤ x) := by
  obtain ⟨id, ks, cs⟩ := n
  obtain ⟨hlen, -, -, -⟩ := (WF_succ_iff ORDER d _).mp hwf
  obtain ⟨hsep, -⟩ := (SepMin_succ_iff d _).mp hsm
  simp only at hlen hsep hi
  have hik : i < ks.length := (List.getElem?_eq_some.mp hi).1
  have h0 : cs[i]? = some cs[i] := List.getElem?_eq_getElem (by omega)
  have h1 : cs[i + 1]? = some cs[i + 1] := List.getElem?_eq_getElem (by omega)
  have hhead := hsep i s _ hi h1
  have hc1s : (PT.pkeys d cs[i + 1]).Sorted (· < ·) :=
    sorted_child d ⟨id, ks, cs⟩ hs _ (List.getElem_mem _)
  refine ⟨cs[i], cs[i + 1], h0, h1, ?_, head_le_of_sorted _ hc1s s hhead⟩
  obtain ⟨A, B, hAB, hAlen⟩ := split_at_index cs i _ h0
  have hB : B[0]? = some cs[i + 1] := by
    have h2 := h1
    conv at h2 => lhs; rw [hAB]
    rw [getElem?_mid] at h2
    have e1 : ¬ i + 1 < A.length := by omega
    have e2 : ¬ i + 1 = A.length := by omega
    simp only [e1, e2, if_false] at h2
    rw [← h2]
    congr 1
    omega
  obtain ⟨B1, hB1⟩ : ∃ B1, B = cs[i + 1] :: B1 := by
    cases B with
    | nil => simp at hB
    | cons b B1 =>
      simp only [List.getElem?_cons_zero, Option.some.injEq] at hB
      exact ⟨B1, by rw [hB]⟩
  have hpk : PT.pkeys (d + 1) ((⟨id, ks, cs⟩ : NodeR K (PT K V d)) : PT K V (d + 1)) =
      keysL (leavesL d A) ++ PT.pkeys d cs[i] ++ keysL (leavesL d B) := by
    rw [← pkeys_succ d id ks A B cs[i], ← hAB]
  rw [hpk] at hs
  unfold List.Sorted at hs
  have hcross := (List.pairwise_append.mp hs).2.2
  intro x hx
  refine hcross x (List.mem_append_right _ hx) s ?_
  rw [hB1, leavesL_cons, keysL_append]
  exact List.mem_append_left _ (mem_of_head? _ _ hhead)

theorem keys_below_spec [LinearOrder K] (ORDER : Nat) (h : List (Node K V)) (d : Nat)
    (t : PT K V d) (p : Option Nat) (hr : Rep h d p t) (hwf : WF ORDER d t)
    (hd : d < h.length) : keys_below h (PT.rid d t) = some (PT.pkeys d t) := by
  have hlv := leaves_below_spec ORDER h d t p h.length hr hwf hd
  have he := entries_of_spec h (PT.leaves d t) (fun l hl =>
    ⟨Rep_leaves h d t p hr l hl, ((WF_zero_iff ORDER l).mp (WF_leaves ORDER d t hwf l hl)).1⟩)
  simp only [keys_below, hlv, List.map_map]
  have he2 : entries_of h (List.map (Prod.fst ∘ fun l => (l.id, d)) (PT.leaves d t)) =
      some (PT.entries d t) := he
  simp only [he2, pkeys_eq_entries ORDER d t hwf]

/-- C5: for every `ORDER >= 3` and every run of `insert` calls with pairwise
distinct keys on the empty tree, for every internal node and every index `i`
of its keys, both `children[i]` and `children[i+1]` exist, every key stored
below `children[i]` is `< keys[i]` and every key stored below `children[i+1]`
is `>= keys[i]`. -/
theorem separators_bound_subtrees [LinearOrder K] (ORDER : Nat) (hO : 3 ≤ ORDER)
    (xs : List (K × V)) (hnd : (xs.map Prod.fst).Nodup) :
    ∃ T, build ORDER xs = some T ∧
      ∀ (a : Nat) (n : Node K V), T.heap[a]? = some n → n.is_leaf = false →
        ∀ (i : Nat) (s : K), n.keys[i]? = some s →
          ∃ c0 c1 ks0 ks1, n.children[i]? = some c0 ∧ n.children[i + 1]? = some c1 ∧
            keys_below T.heap c0 = some ks0 ∧ keys_below T.heap c1 = some ks1 ∧
            (∀ x ∈ ks0, x < s) ∧ (∀ x ∈ ks1, s ≤ x) := by
  obtain ⟨T, hb, ha, hwf⟩ := build_refines ORDER hO xs
  have ho := pbuild_Ordered ORDER hO xs hnd
  refine ⟨T, hb, ?_⟩
  intro a n hn hleaf i s hi
  cases hs : pbuild ORDER xs with
  | none =>
    rw [hs] at ha
    have hT : T = empty := ha
    subst hT
    simp [empty] at hn
  | some st =>
    obtain ⟨d, t⟩ := st
    rw [hs] at ha hwf ho
    obtain ⟨hroot, hrep, hperm⟩ := ha
    have hwf1 : WF ORDER d t := hwf
    have hlen : (PT.ids d t).length = T.heap.length := by
      rw [hperm.length_eq, List.length_range]
    have hd := height_lt_ids ORDER d t hwf1
    have halt : a < T.heap.length := (List.getElem?_eq_some.mp hn).1
    have hmem : a ∈ PT.ids d t := hperm.mem_iff.mpr (List.mem_range.mpr halt)
    obtain ⟨d1, p1, t1, g1, g2, g3, g4, g5, g6⟩ :=
      subtree_at ORDER T.heap d t none hrep hwf1 ho.1 ho.2.1 a hmem
    cases d1 with
    | zero =>
      have hrec : T.heap[(t1 : LeafR K V).id]? = some (leaf_rec p1 t1) := g3
      have hid : (t1 : LeafR K V).id = a := g2
      rw [hid, hn] at hrec
      cases hrec
      cases hleaf
    | succ d2 =>
      obtain ⟨hrec, hch⟩ := (Rep_succ_iff T.heap d2 p1 t1).mp g3
      obtain ⟨-, -, -, hwfc⟩ := (WF_succ_iff ORDER d2 t1).mp g4
      have hid : (t1 : NodeR K (PT K V d2)).id = a := g2
      rw [hid, hn] at hrec
      cases hrec
      simp only [node_rec] at hi ⊢
      obtain ⟨c0, c1, q1, q2, q3, q4⟩ := node_sep ORDER d2 t1 g4 g5 g6 i s hi
      have hm0 : c0 ∈ (t1 : NodeR K (PT K V d2)).children := by
        obtain ⟨hl, hx⟩ := List.getElem?_eq_some.mp q1
        rw [← hx]
        exact List.getElem_mem _
      have hm1 : c1 ∈ (t1 : NodeR K (PT K V d2)).children := by
        obtain ⟨hl, hx⟩ := List.getElem?_eq_some.mp q2
        rw [← hx]
        exact List.getElem_mem _
      refine ⟨PT.rid d2 c0, PT.rid d2 c1, PT.pkeys d2 c0, PT.pkeys d2 c1, ?_, ?_, ?_, ?_,
        q3, q4⟩
      · rw [List.getElem?_map, q1]
        rfl
      · rw [List.getElem?_map, q2]
        rfl
      · exact keys_below_spec ORDER T.heap d2 c0 _ (hch c0 hm0) (hwfc c0 hm0) (by omega)
      · exact keys_below_spec ORDER T.heap d2 c1 _ (hch c1 hm1) (hwfc c1 hm1) (by omega)

theorem separators_bound_subtrees_witness :
    (3 ≤ 4 ∧ ([((5 : Nat), "sapo5"), (3, "perro3"), (7, "pato7")].map Prod.fst).Nodup) ∧
    ∃ T, build 4 [((5 : Nat), "sapo5"), (3, "perro3"), (7, "pato7")] = some T ∧
      ∀ (a : Nat) (n : Node Nat String), T.heap[a]? = some n → n.is_leaf = false →
        ∀ (i : Nat) (s : Nat), n.keys[i]? = some s →
          ∃ c0 c1 ks0 ks1, n.children[i]? = some c0 ∧ n.children[i + 1]? = some c1 ∧
            keys_below T.heap c0 = some ks0 ∧ keys_below T.heap c1 = some ks1 ∧
            (∀ x ∈ ks0, x < s) ∧ (∀ x ∈ ks1, s ≤ x) :=
  ⟨⟨by decide, by decide⟩,
    separators_bound_subtrees 4 (by decide)
      [((5 : Nat), "sapo5"), (3, "perro3"), (7, "pato7")] (by decide)⟩

/-! ## The records of a store that holds a tree -/

/-- Every node of a tree the store holds is the top of a well-shaped subtree
the store holds. -/
theorem subtree_wf [LinearOrder K] (ORDER : Nat) (h : List (Node K V)) :
    ∀ (d : Nat) (t : PT K V d) (p : Option Nat), Rep h d p t → WF ORDER d t →
      ∀ i ∈ PT.ids d t,
      ∃ (d1 : Nat) (p1 : Option Nat) (t1 : PT K V d1), d1 ≤ d ∧ PT.rid d1 t1 = i ∧
        Rep h d1 p1 t1 ∧ WF ORDER d1 t1
  | 0, l, p, hr, hwf, i, hi => by
    simp only [PT.ids, List.mem_singleton] at hi
    exact ⟨0, p, l, le_refl _, hi.symm, hr, hwf⟩
  | d + 1, n, p, hr, hwf, i, hi => by
    rw [ids_succ, List.mem_cons] at hi
    rcases hi with hi | hi
    · exact ⟨d + 1, p, n, le_refl _, hi.symm, hr, hwf⟩
    · obtain ⟨c, hc, hic⟩ := (mem_idsL d _ _).mp hi
      obtain ⟨-, hch⟩ := (Rep_succ_iff h d p n).mp hr
      obtain ⟨-, -, -, hwfc⟩ := (WF_succ_iff ORDER d n).mp hwf
      obtain ⟨d1, p1, t1, g1, g2, g3, g4⟩ :=
        subtree_wf ORDER h d c _ (hch c hc) (hwfc c hc) i hic
      exact ⟨d1, p1, t1, by omega, g2, g3, g4⟩

/-- Every record of the store behind a built tree is a leaf record or an
internal record of a well-shaped subtree. -/
theorem record_cases [LinearOrder K] (ORDER : Nat) (T : BPlusTree K V) (s : Option (AT K V))
    (ha : Abs T s) (hwf : WFs ORDER s) (a : Nat) (n : Node K V) (hn : T.heap[a]? = some n) :
    (∃ (p : Option Nat) (l : LeafR K V), n = leaf_rec p l ∧ WF ORDER 0 (l : PT K V 0)) ∨
    (∃ (d : Nat) (p : Option Nat) (m : NodeR K (PT K V d)), n = node_rec d p m ∧
      WF ORDER (d + 1) (m : PT K V (d + 1))) := by
  cases s with
  | none =>
    have hT : T = empty := ha
    subst hT
    simp [empty] at hn
  | some st =>
    obtain ⟨d, t⟩ := st
    obtain ⟨-, hrep, hperm⟩ := ha
    have hwf1 : WF ORDER d t := hwf
    have halt : a < T.heap.length := (List.getElem?_eq_some.mp hn).1
    have hmem : a ∈ PT.ids d t := hperm.mem_iff.mpr (List.mem_range.mpr halt)
    obtain ⟨d1, p1, t1, -, g2, g3, g4⟩ := subtree_wf ORDER T.heap d t none hrep hwf1 a hmem
    cases d1 with
    | zero =>
      have hrec : T.heap[(t1 : LeafR K V).id]? = some (leaf_rec p1 t1) := g3
      have hid : (t1 : LeafR K V).id = a := g2
      rw [hid, hn] at hrec
      exact Or.inl ⟨p1, t1, Option.some.inj hrec, g4⟩
    | succ d2 =>
      obtain ⟨hrec, -⟩ := (Rep_succ_iff T.heap d2 p1 t1).mp g3
      have hid : (t1 : NodeR K (PT K V d2)).id = a := g2
      rw [hid, hn] at hrec
      exact Or.inr ⟨d2, p1, t1, Option.some.inj hrec, g4⟩

/-- C12: for every `ORDER >= 3` and every run of `insert` calls on the empty
tree, every internal node of the store has exactly one more child than it has
keys. -/
theorem child_count [LinearOrder K] (ORDER : Nat) (hO : 3 ≤ ORDER) (xs : List (K × V)) :
    ∃ T, build ORDER xs = some T ∧
      ∀ (a : Nat) (n : Node K V), T.heap[a]? = some n → n.is_leaf = false →
        n.children.length = n.keys.length + 1 := by
  obtain ⟨T, hb, ha, hwf⟩ := build_refines ORDER hO xs
  refine ⟨T, hb, ?_⟩
  intro a n hn hleaf
  rcases record_cases ORDER T _ ha hwf a n hn with ⟨p, l, rfl, -⟩ | ⟨d, p, m, rfl, hm⟩
  · cases hleaf
  · obtain ⟨h1, -, -, -⟩ := (WF_succ_iff ORDER d m).mp hm
    simp only [node_rec, List.length_map]
    exact h1

theorem child_count_witness :
    3 ≤ 4 ∧ ∃ T, build 4 [((5 : Nat), "sapo5"), (3, "perro3"), (7, "pato7")] = some T ∧
      ∀ (a : Nat) (n : Node Nat String), T.heap[a]? = some n → n.is_leaf = false →
        n.children.length = n.keys.length + 1 :=
  ⟨by decide, child_count 4 (by decide) [((5 : Nat), "sapo5"), (3, "perro3"), (7, "pato7")]⟩

/-- C11: for every `ORDER >= 3` and every run of `insert` calls with pairwise
distinct keys on the empty tree, for every internal node and every index `i`
of its keys, `keys[i]` is the first and the smallest of the keys stored below
`children[i+1]`. -/
theorem separators_are_minima [LinearOrder K] (ORDER : Nat) (hO : 3 ≤ ORDER)
    (xs : List (K × V)) (hnd : (xs.map Prod.fst).Nodup) :
    ∃ T, build ORDER xs = some T ∧
      ∀ (a : Nat) (n : Node K V), T.heap[a]? = some n → n.is_leaf = false →
        ∀ (i : Nat) (s : K), n.keys[i]? = some s →
          ∃ c1 ks1, n.children[i + 1]? = some c1 ∧ keys_below T.heap c1 = some ks1 ∧
            ks1.head? = some s ∧ s ∈ ks1 ∧ (∀ x ∈ ks1, s ≤ x) := by
  obtain ⟨T, hb, ha, hwf⟩ := build_refines ORDER hO xs
  have ho := pbuild_Ordered ORDER hO xs hnd
  refine ⟨T, hb, ?_⟩
  intro a n hn hleaf i s hi
  cases hs : pbuild ORDER xs with
  | none =>
    rw [hs] at ha
    have hT : T = empty := ha
    subst hT
    simp [empty] at hn
  | some st =>
    obtain ⟨d, t⟩ := st
    rw [hs] at ha hwf ho
    obtain ⟨hroot, hrep, hperm⟩ := ha
    have hwf1 : WF ORDER d t := hwf
    have hlen : (PT.ids d t).length = T.heap.length := by
      rw [hperm.length_eq, List.length_range]
    have hd := height_lt_ids ORDER d t hwf1
    have halt : a < T.heap.length := (List.getElem?_eq_some.mp hn).1
    have hmem : a ∈ PT.ids d t := hperm.mem_iff.mpr (List.mem_range.mpr halt)
    obtain ⟨d1, p1, t1, g1, g2, g3, g4, g5, g6⟩ :=
      subtree_at ORDER T.heap d t none hrep hwf1 ho.1 ho.2.1 a hmem
    cases d1 with
    | zero =>
      have hrec : T.heap[(t1 : LeafR K V).id]? = some (leaf_rec p1 t1) := g3
      have hid : (t1 : LeafR K V).id = a := g2
      rw [hid, hn] at hrec
      cases hrec
      cases hleaf
    | succ d2 =>
      obtain ⟨hrec, hch⟩ := (Rep_succ_iff T.heap d2 p1 t1).mp g3
      obtain ⟨-, -, -, hwfc⟩ := (WF_succ_iff ORDER d2 t1).mp g4
      obtain ⟨hsep, -⟩ := (SepMin_succ_iff d2 t1).mp g6
      have hid : (t1 : NodeR K (PT K V d2)).id = a := g2
      rw [hid, hn] at hrec
      cases hrec
      simp only [node_rec] at hi ⊢
      obtain ⟨c0, c1, -, q2, -, q4⟩ := node_sep ORDER d2 t1 g4 g5 g6 i s hi
      have hm1 : c1 ∈ (t1 : NodeR K (PT K V d2)).children := by
        obtain ⟨hl, hx⟩ := List.getElem?_eq_some.mp q2
        rw [← hx]
        exact List.getElem_mem _
      have hhead := hsep i s c1 hi q2
      refine ⟨PT.rid d2 c1, PT.pkeys d2 c1, ?_, ?_, hhead, mem_of_head? _ _ hhead, q4⟩
      · rw [List.getElem?_map, q2]
        rfl
      · exact keys_below_spec ORDER T.heap d2 c1 _ (hch c1 hm1) (hwfc c1 hm1) (by omega)

theorem separators_are_minima_witness :
    (3 ≤ 4 ∧ ([((5 : Nat), "sapo5"), (3, "perro3"), (7, "pato7")].map Prod.fst).Nodup) ∧
    ∃ T, build 4 [((5 : Nat), "sapo5"), (3, "perro3"), (7, "pato7")] = some T ∧
      ∀ (a : Nat) (n : Node Nat String), T.heap[a]? = some n → n.is_leaf = false →
        ∀ (i : Nat) (s : Nat), n.keys[i]? = some s →
          ∃ c1 ks1, n.children[i + 1]? = some c1 ∧ keys_below T.heap c1 = some ks1 ∧
            ks1.head? = some s ∧ s ∈ ks1 ∧ (∀ x ∈ ks1, s ≤ x) :=
  ⟨⟨by decide, by decide⟩,
    separators_are_minima 4 (by decide)
      [((5 : Nat), "sapo5"), (3, "perro3"), (7, "pato7")] (by decide)⟩

/-! ## The two split methods, one call at a time -/

/-- C14: `split_leaf` on a leaf `l` with `n >= 2` keys and as many values,
with `mid = n / 2`: the old leaf keeps keys and values `[0, mid)` and gets the
new leaf as `next`; the new leaf, allocated at the end of the store, gets keys
and values `[mid, n)` and the old leaf's former `next`; the key `keys[mid]` is the
first key of the new leaf and is the key handed to `insert_in_parent`, called
with the old and the new leaf. -/
theorem split_leaf_post [LinearOrder K] (ORDER fuel : Nat) (t : BPlusTree K V) (leaf : Nat)
    (l : Node K V) (hl : t.heap[leaf]? = some l) (hv : l.values.length = l.keys.length)
    (hn : 2 ≤ l.keys.length) :
    ∃ (pk : K) (L R : Node K V) (heap1 : List (Node K V)),
      l.keys[l.keys.length / 2]? = some pk ∧
      L = { l with keys := l.keys.take (l.keys.length / 2),
                   values := l.values.take (l.keys.length / 2),
                   next := some t.heap.length } ∧
      R = { is_leaf := true, keys := l.keys.drop (l.keys.length / 2), parent := none,
            values := l.values.drop (l.keys.length / 2), next := l.next, children := [] } ∧
      R.keys.head? = some pk ∧
      L.keys ++ R.keys = l.keys ∧ L.values ++ R.values = l.values ∧
      L.keys.length = l.keys.length / 2 ∧ L.values.length = l.keys.length / 2 ∧
      heap1.length = t.heap.length + 1 ∧
      heap1[leaf]? = some L ∧ heap1[t.heap.length]? = some R ∧
      (∀ i, i ≠ leaf → i < t.heap.length → heap1[i]? = t.heap[i]?) ∧
      split_leaf ORDER fuel t leaf =
        insert_in_parent ORDER fuel { heap := heap1, root := t.root } leaf pk t.heap.length := by
  have hlt : leaf < t.heap.length := (List.getElem?_eq_some.mp hl).1
  have hmid : l.keys.length / 2 < l.keys.length := by omega
  refine ⟨l.keys[l.keys.length / 2],
    { l with keys := l.keys.take (l.keys.length / 2),
             values := l.values.take (l.keys.length / 2), next := some t.heap.length },
    { is_leaf := true, keys := l.keys.drop (l.keys.length / 2), parent := none,
      values := l.values.drop (l.keys.length / 2), next := l.next, children := [] },
    t.heap.set leaf
      { l with keys := l.keys.take (l.keys.length / 2),
               values := l.values.take (l.keys.length / 2), next := some t.heap.length } ++
      [{ is_leaf := true, keys := l.keys.drop (l.keys.length / 2), parent := none,
         values := l.values.drop (l.keys.length / 2), next := l.next, children := [] }],
    ?_, rfl, rfl, ?_, ?_, ?_, ?_, ?_, ?_, ?_, ?_, ?_, ?_⟩
  · exact List.getElem?_eq_getElem hmid
  · show (l.keys.drop (l.keys.length / 2)).head? = _
    rw [List.head?_drop]
    exact List.getElem?_eq_getElem hmid
  · exact List.take_append_drop _ _
  · exact List.take_append_drop _ _
  · show (l.keys.take (l.keys.length / 2)).length = _
    rw [List.length_take]
    omega
  · show (l.values.take (l.keys.length / 2)).length = _
    rw [List.length_take]
    omega
  · simp
  · rw [List.getElem?_append_left (by simpa using hlt)]
    simp [List.getElem?_set, hlt]
  · rw [List.getElem?_append_right (by simp)]
    simp
  · intro i hne hi
    rw [List.getElem?_append_left (by simpa using hi)]
    simp [List.getElem?_set, Ne.symm hne]
  · have hhd : (l.keys.drop (l.keys.length / 2)).head? = some l.keys[l.keys.length / 2] := by
      rw [List.head?_drop]
      exact List.getElem?_eq_getElem hmid
    have hnv : ¬ l.values.length < l.keys.length / 2 := by omega
    simp only [split_leaf, hl, hnv, if_false, new_leaf_node, hhd]

theorem split_leaf_post_witness :
    (demo4.heap[0]? = some (demo_leaf [1, 3] (some 2) ["gato1", "perro3"] (some 1)) ∧
      (demo_leaf [1, 3] (some 2) ["gato1", "perro3"] (some 1)).values.length =
        (demo_leaf [1, 3] (some 2) ["gato1", "perro3"] (some 1)).keys.length ∧
      2 ≤ (demo_leaf [1, 3] (some 2) ["gato1", "perro3"] (some 1)).keys.length) ∧
    ∃ (pk : Nat) (L R : Node Nat String) (heap1 : List (Node Nat String)),
      ([1, 3] : List Nat)[1]? = some pk ∧
      L = demo_leaf [1] (some 2) ["gato1"] (some 3) ∧
      R = demo_leaf [3] none ["perro3"] (some 1) ∧
      R.keys.head? = some pk ∧
      L.keys ++ R.keys = [1, 3] ∧ L.values ++ R.values = ["gato1", "perro3"] ∧
      L.keys.length = 1 ∧ L.values.length = 1 ∧
      heap1.length = 4 ∧
      heap1[0]? = some L ∧ heap1[3]? = some R ∧
      (∀ i, i ≠ 0 → i < 3 → heap1[i]? = demo4.heap[i]?) ∧
      split_leaf 4 8 demo4 0 =
        insert_in_parent 4 8 { heap := heap1, root := some 2 } 0 pk 3 :=
  ⟨⟨by decide, by decide, by decide⟩,
    split_leaf_post 4 8 demo4 0 (demo_leaf [1, 3] (some 2) ["gato1", "perro3"] (some 1))
      (by decide) (by decide) (by decide)⟩

/-- The loop that sets the `parent` field of every node of a list of valid
addresses: it returns, and changes exactly that field of exactly those nodes. -/
theorem set_parents_total (p : Nat) :
    ∀ (cs : List Nat) (h : List (Node K V)), (∀ c ∈ cs, c < h.length) →
      ∃ h1, set_parents h p cs = some h1 ∧ h1.length = h.length ∧
        ∀ i, h1[i]? = (h[i]?).map (fun n => if i ∈ cs then { n with parent := some p } else n)
  | [], h, _ => by
    refine ⟨h, rfl, rfl, ?_⟩
    intro i
    cases h[i]? <;> simp
  | c :: cs, h, hc => by
    have hlt : c < h.length := hc c (List.mem_cons_self _ _)
    have hget : h[c]? = some h[c] := List.getElem?_eq_getElem hlt
    obtain ⟨h1, e1, e2, e3⟩ := set_parents_total p cs (h.set c { h[c] with parent := some p })
      (by
        intro x hx
        rw [List.length_set]
        exact hc x (List.mem_cons_of_mem _ hx))
    refine ⟨h1, ?_, ?_, ?_⟩
    · simp only [set_parents, hget]
      exact e1
    · rw [e2, List.length_set]
    · intro i
      rw [e3 i]
      by_cases hic : i = c
      · subst hic
        rw [List.getElem?_set_self hlt, hget]
        by_cases hm : i ∈ cs <;> simp [hm]
      · rw [List.getElem?_set_ne (Ne.symm hic)]
        cases h[i]? <;> simp [hic]

/-- C15: `split_internal` on an internal node `n` with `k >= 2` keys and
`k + 1` children (all valid addresses), with `mid = k / 2`: the key `keys[mid]`
is promoted and is stored in neither half; the old node keeps keys `[0, mid)`
and children `[0, mid]`; the new node, allocated at the end of the store, gets
keys `(mid, k)` and children `[mid+1, k]`; every moved child has the new node
as `parent`; both nodes have one more child than keys; nothing else changes;
and `insert_in_parent` is called with the old node, the promoted key and the
new node. -/
theorem split_internal_post [LinearOrder K] (ORDER fuel : Nat) (t : BPlusTree K V) (node : Nat)
    (n : Node K V) (hn : t.heap[node]? = some n)
    (hc : n.children.length = n.keys.length + 1) (h2 : 2 ≤ n.keys.length)
    (hv : ∀ c ∈ n.children, c < t.heap.length) :
    ∃ (pk : K) (N M : Node K V) (heap2 : List (Node K V)),
      n.keys[n.keys.length / 2]? = some pk ∧
      N.keys = n.keys.take (n.keys.length / 2) ∧
      N.children = n.children.take (n.keys.length / 2 + 1) ∧
      N.is_leaf = n.is_leaf ∧
      M = { is_leaf := false, keys := n.keys.drop (n.keys.length / 2 + 1), parent := none,
            values := [], next := none,
            children := n.children.drop (n.keys.length / 2 + 1) } ∧
      n.keys = N.keys ++ pk :: M.keys ∧
      n.children = N.children ++ M.children ∧
      N.children.length = N.keys.length + 1 ∧ M.children.length = M.keys.length + 1 ∧
      heap2.length = t.heap.length + 1 ∧
      heap2[node]? = some N ∧ heap2[t.heap.length]? = some M ∧
      (∀ c ∈ M.children, ∃ r, heap2[c]? = some r ∧ r.parent = some t.heap.length) ∧
      (∀ c ∈ M.children, c ≠ node → ∃ r0, t.heap[c]? = some r0 ∧
        heap2[c]? = some { r0 with parent := some t.heap.length }) ∧
      (∀ i, i ≠ node → i ∉ M.children → i < t.heap.length → heap2[i]? = t.heap[i]?) ∧
      split_internal ORDER (fuel + 1) t node =
        insert_in_parent ORDER fuel { heap := heap2, root := t.root } node pk
          t.heap.length := by
  have hlt : node < t.heap.length := (List.getElem?_eq_some.mp hn).1
  have hmid : n.keys.length / 2 < n.keys.length := by omega
  have hpk : n.keys[n.keys.length / 2]? = some n.keys[n.keys.length / 2] :=
    List.getElem?_eq_getElem hmid
  obtain ⟨heap2, e1, e2, e3⟩ := set_parents_total t.heap.length
    (n.children.drop (n.keys.length / 2 + 1))
    (t.heap.set node { n with keys := n.keys.take (n.keys.length / 2),
                              children := n.children.take (n.keys.length / 2 + 1) } ++
      [{ is_leaf := false, keys := n.keys.drop (n.keys.length / 2 + 1), parent := none,
         values := [], next := none,
         children := n.children.drop (n.keys.length / 2 + 1) }])
    (by
      intro c hcm
      have := hv c (List.mem_of_mem_drop hcm)
      simp only [List.length_append, List.length_set, List.length_singleton]
      omega)
  have hnew : t.heap.length ∉ n.children.drop (n.keys.length / 2 + 1) := by
    intro hm
    have := hv _ (List.mem_of_mem_drop hm)
    omega
  have g_node := e3 node
  rw [List.getElem?_append_left (by simpa using hlt), List.getElem?_set_self hlt,
    Option.map_some'] at g_node
  have g_new := e3 t.heap.length
  rw [List.getElem?_append_right (by simp)] at g_new
  simp only [List.length_set, Nat.sub_self, List.getElem?_cons_zero, Option.map_some',
    hnew, if_false] at g_new
  have g_other : ∀ i, i ≠ node → i < t.heap.length →
      heap2[i]? = (t.heap[i]?).map (fun r =>
        if i ∈ n.children.drop (n.keys.length / 2 + 1)
        then { r with parent := some t.heap.length } else r) := by
    intro i hne hi
    rw [e3 i, List.getElem?_append_left (by simpa using hi), List.getElem?_set_ne (Ne.symm hne)]
  refine ⟨n.keys[n.keys.length / 2], _, _, heap2, hpk, ?_, ?_, ?_, rfl, ?_, ?_, ?_, ?_, ?_,
    g_node, g_new, ?_, ?_, ?_, ?_⟩
  · by_cases hm : node ∈ n.children.drop (n.keys.length / 2 + 1) <;> simp [hm]
  · by_cases hm : node ∈ n.children.drop (n.keys.length / 2 + 1) <;> simp [hm]
  · by_cases hm : node ∈ n.children.drop (n.keys.length / 2 + 1) <;> simp [hm]
  · have hk : (if node ∈ n.children.drop (n.keys.length / 2 + 1)
        then ({ ({ n with keys := n.keys.take (n.keys.length / 2),
                          children := n.children.take (n.keys.length / 2 + 1) } : Node K V)
                with parent := some t.heap.length } : Node K V)
        else { n with keys := n.keys.take (n.keys.length / 2),
                      children := n.children.take (n.keys.length / 2 + 1) }).keys =
        n.keys.take (n.keys.length / 2) := by
      by_cases hm : node ∈ n.children.drop (n.keys.length / 2 + 1) <;> simp [hm]
    rw [hk]
    show n.keys = _ ++ n.keys[n.keys.length / 2] :: n.keys.drop (n.keys.length / 2 + 1)
    rw [← List.drop_eq_getElem_cons hmid, List.take_append_drop]
  · have hk : (if node ∈ n.children.drop (n.keys.length / 2 + 1)
        then ({ ({ n with keys := n.keys.take (n.keys.length / 2),
                          children := n.children.take (n.keys.length / 2 + 1) } : Node K V)
                with parent := some t.heap.length } : Node K V)
        else { n with keys := n.keys.take (n.keys.length / 2),
                      children := n.children.take (n.keys.length / 2 + 1) }).children =
        n.children.take (n.keys.length / 2 + 1) := by
      by_cases hm : node ∈ n.children.drop (n.keys.length / 2 + 1) <;> simp [hm]
    rw [hk]
    exact (List.take_append_drop _ _).symm
  · by_cases hm : node ∈ n.children.drop (n.keys.length / 2 + 1) <;>
      simp [hm, List.length_take] <;> omega
  · simp only [List.length_drop]
    omega
  · rw [e2]
    simp
  · intro c hcm
    have hcl := hv c (List.mem_of_mem_drop hcm)
    by_cases hcn : c = node
    · subst hcn
      refine ⟨_, g_node, ?_⟩
      simp [hcm]
    · rw [g_other c hcn hcl, List.getElem?_eq_getElem hcl]
      exact ⟨_, rfl, by simp [hcm]⟩
  · intro c hcm hcn
    have hcl := hv c (List.mem_of_mem_drop hcm)
    refine ⟨t.heap[c], List.getElem?_eq_getElem hcl, ?_⟩
    rw [g_other c hcn hcl, List.getElem?_eq_getElem hcl]
    simp [hcm]
  · intro i hne hnm hi
    rw [g_other i hne hi]
    cases t.heap[i]? <;> simp [hnm]
  · have hnc : ¬ n.children.length < n.keys.length / 2 + 1 := by omega
    simp only [split_internal, hn, hpk, hnc, if_false, new_internal_node, e1]

theorem split_internal_post_witness :
    (demo5.heap[2]? = some (demo_internal [5, 7] none [0, 1, 3]) ∧
      (demo_internal [5, 7] none [0, 1, 3]).children.length =
        (demo_internal [5, 7] none [0, 1, 3]).keys.length + 1 ∧
      2 ≤ (demo_internal [5, 7] none [0, 1, 3]).keys.length ∧
      ∀ c ∈ (demo_internal [5, 7] none [0, 1, 3]).children, c < demo5.heap.length) ∧
    ∃ (pk : Nat) (N M : Node Nat String) (heap2 : List (Node Nat String)),
      ([5, 7] : List Nat)[1]? = some pk ∧
      N.keys = [5] ∧ N.children = [0, 1] ∧ N.is_leaf = false ∧
      M = demo_internal [] none [3] ∧
      [5, 7] = N.keys ++ pk :: M.keys ∧
      [0, 1, 3] = N.children ++ M.children ∧
      N.children.length = N.keys.length + 1 ∧ M.children.length = M.keys.length + 1 ∧
      heap2.length = 5 ∧
      heap2[2]? = some N ∧ heap2[4]? = some M ∧
      (∀ c ∈ M.children, ∃ r, heap2[c]? = some r ∧ r.parent = some 4) ∧
      (∀ c ∈ M.children, c ≠ 2 → ∃ r0, demo5.heap[c]? = some r0 ∧
        heap2[c]? = some { r0 with parent := some 4 }) ∧
      (∀ i, i ≠ 2 → i ∉ M.children → i < 4 → heap2[i]? = demo5.heap[i]?) ∧
      split_internal 4 9 demo5 2 =
        insert_in_parent 4 8 { heap := heap2, root := some 2 } 2 pk 4 :=
  ⟨⟨by decide, by decide, by decide, by decide⟩,
    split_internal_post 4 8 demo5 2 (demo_internal [5, 7] none [0, 1, 3])
      (by decide) (by decide) (by decide) (by decide)⟩

/-! ## Equal keys -/

theorem lower_bound_replicate [LinearOrder K] (n : Nat) (k : K) :
    lower_bound (List.replicate n k) k = 0 := by
  cases n with
  | zero => rfl
  | succ m => exact lower_bound_cons_ge k k _ (lt_irrefl k)

/-- C17 (counterexample): with `ORDER = 4`, `insert(5, "a")` then `insert(5, "b")`
leaves one leaf with keys `[5, 5]` and values `["b", "a"]`: the later value
comes first. -/
theorem duplicate_is_placed_first :
    build 4 [((5 : Nat), "a"), (5, "b")] =
      some ⟨[demo_leaf [5, 5] none ["b", "a"] none], some 0⟩ := by
  decide

/-- One key in one leaf: inserting a key `n` times, `1 <= n <= ORDER - 2`, into
the empty tree gives a single leaf that holds the key `n` times and the values
in the reverse of the order of insertion. -/
theorem duplicates_reverse_order [LinearOrder K] (ORDER : Nat) (k : K) (vs : List V)
    (hne : vs ≠ []) (hlen : vs.length ≤ ORDER - 2) :
    build ORDER (vs.map (fun v => (k, v))) =
      some ⟨[{ is_leaf := true, keys := List.replicate vs.length k, parent := none,
               values := vs.reverse, next := none, children := [] }], some 0⟩ := by
  induction vs using List.reverseRecOn with
  | nil => exact absurd rfl hne
  | append_singleton vs v ih =>
    rw [List.map_append, List.map_singleton]
    by_cases hvs : vs = []
    · subst hvs
      rfl
    · have hl : vs.length + 1 ≤ ORDER - 2 := by simpa using hlen
      rw [build_snoc ORDER _ k v _ (ih hvs (by omega))]
      have hfull : ¬ ORDER - 1 ≤ vs.length + 1 := by omega
      simp only [insert, find_leaf, find_leaf_loop, List.length_singleton,
        List.getElem?_cons_zero, if_true, Option.map_some', lower_bound_replicate,
        insertAt_zero, Node.is_full, Nat.not_lt_zero, if_false, List.set_cons_zero,
        List.length_cons, List.length_replicate, decide_eq_true_eq, hfull,
        List.length_append, List.reverse_append, List.reverse_singleton,
        List.singleton_append]
      rfl

theorem duplicates_reverse_order_witness :
    (["a", "b"] ≠ [] ∧ ["a", "b"].length ≤ 4 - 2) ∧
    build 4 (["a", "b"].map (fun v => ((5 : Nat), v))) =
      some ⟨[{ is_leaf := true, keys := List.replicate ["a", "b"].length 5, parent := none,
               values := ["a", "b"].reverse, next := none, children := [] }], some 0⟩ :=
  ⟨⟨by decide, by decide⟩, duplicates_reverse_order 4 5 ["a", "b"] (by decide) (by decide)⟩

/-! ## Internal nodes without a key -/

theorem Keyed_succ_iff (d : Nat) (n : NodeR K (PT K V d)) :
    Keyed (d + 1) (n : PT K V (d + 1)) ↔
      1 ≤ n.keys.length ∧ ∀ c ∈ n.children, Keyed d c := Iff.rfl

theorem node_Keyed [LinearOrder K] (ORDER : Nat) (hO : 4 ≤ ORDER) (fresh : Nat) (k : K)
    (d : Nat) (n : NodeR K (PT K V d)) (i : Nat)
    (hk : Keyed (d + 1) (n : PT K V (d + 1))) (res : Res K V d)
    (hres : Res.Keyed d res) :
    Res.Keyed (d + 1) (pins_node ORDER fresh k d n i res) := by
  obtain ⟨h1, h4⟩ := (Keyed_succ_iff d n).mp hk
  cases res with
  | done c1 =>
    simp only [pins_node, Res.Keyed] at hres ⊢
    rw [Keyed_succ_iff]
    refine ⟨h1, ?_⟩
    intro c hc
    rcases List.mem_or_eq_of_mem_set hc with hc | rfl
    · exact h4 c hc
    · exact hres
  | split l pk r =>
    simp only [Res.Keyed] at hres
    have hkl : (node_ins d n i l pk r).keys.length = n.keys.length + 1 := by
      simp only [node_ins, length_insertAt]
    have hch : ∀ c ∈ (node_ins d n i l pk r).children, Keyed d c := by
      intro c hc
      simp only [node_ins] at hc
      rw [mem_insertAt] at hc
      rcases hc with rfl | hc
      · exact hres.2
      · rcases List.mem_or_eq_of_mem_set hc with hc | rfl
        · exact h4 c hc
        · exact hres.1
    simp only [pins_node]
    by_cases hf : ORDER - 1 ≤ (node_ins d n i l pk r).keys.length
    · simp only [hf, if_true, node_split, Res.Keyed]
      refine ⟨?_, ?_⟩
      · rw [Keyed_succ_iff]
        simp only [List.length_take]
        refine ⟨by omega, ?_⟩
        intro c hc
        exact hch c (List.mem_of_mem_take hc)
      · rw [Keyed_succ_iff]
        simp only [List.length_drop]
        refine ⟨by omega, ?_⟩
        intro c hc
        exact hch c (List.mem_of_mem_drop hc)
    · simp only [hf, if_false, Res.Keyed]
      rw [Keyed_succ_iff]
      exact ⟨by omega, hch⟩

theorem pins_Keyed [LinearOrder K] (ORDER : Nat) (hO : 4 ≤ ORDER) (fresh : Nat) (k : K)
    (v : V) : ∀ (d : Nat) (t : PT K V d), Keyed d t →
      Res.Keyed d (pins ORDER fresh k v d t)
  | 0, l, _ => by
    rw [pins_zero]
    by_cases hf : ORDER - 1 ≤ (leaf_ins k v l).keys.length
    · simp only [hf, if_true, leaf_split, Res.Keyed, Keyed, and_self]
    · simp only [hf, if_false, Res.Keyed, Keyed]
  | d + 1, n, hk => by
    obtain ⟨-, h4⟩ := (Keyed_succ_iff d n).mp hk
    cases hc : (n : NodeR K (PT K V d)).children[
        lower_bound (n : NodeR K (PT K V d)).keys k]? with
    | none =>
      rw [pins_succ_none ORDER fresh k v d n hc]
      exact hk
    | some c =>
      rw [pins_succ ORDER fresh k v d n _ hc]
      have hm : c ∈ (n : NodeR K (PT K V d)).children := by
        obtain ⟨hl, hx⟩ := List.getElem?_eq_some.mp hc
        rw [← hx]
        exact List.getElem_mem _
      exact node_Keyed ORDER hO fresh k d n _ hk _ (pins_Keyed ORDER hO fresh k v d c (h4 c hm))

theorem pinsert_Keyed [LinearOrder K] (ORDER : Nat) (hO : 4 ≤ ORDER) (k : K) (v : V)
    (s : Option (AT K V)) (hk : Keyeds s) : Keyeds (some (pinsert ORDER k v s)) := by
  cases s with
  | none => exact trivial
  | some s =>
    obtain ⟨d, t⟩ := s
    have h := pins_Keyed ORDER hO (PT.ids d t).length k v d t hk
    simp only [pinsert]
    cases hp : pins ORDER (PT.ids d t).length k v d t with
    | done t1 =>
      rw [hp] at h
      exact h
    | split l pk r =>
      rw [hp] at h
      show Keyed (d + 1) _
      rw [Keyed_succ_iff]
      refine ⟨by simp, ?_⟩
      intro c hc
      simp only [List.mem_cons, List.mem_singleton, List.not_mem_nil, or_false] at hc
      rcases hc with rfl | rfl
      · exact h.1
      · exact h.2

theorem pinsert_list_Keyed [LinearOrder K] (ORDER : Nat) (hO : 4 ≤ ORDER) :
    ∀ (xs : List (K × V)) (s : Option (AT K V)), Keyeds s →
      Keyeds (pinsert_list ORDER s xs)
  | [], _, h => h
  | (k, v) :: rest, s, h =>
    pinsert_list_Keyed ORDER hO rest _ (pinsert_Keyed ORDER hO k v s h)

/-- Every node of a tree the store holds is the top of a subtree the store
holds, and the subtree has a key in each internal node if the tree has. -/
theorem subtree_keyed (h : List (Node K V)) :
    ∀ (d : Nat) (t : PT K V d) (p : Option Nat), Rep h d p t → Keyed d t →
      ∀ i ∈ PT.ids d t,
      ∃ (d1 : Nat) (p1 : Option Nat) (t1 : PT K V d1), PT.rid d1 t1 = i ∧
        Rep h d1 p1 t1 ∧ Keyed d1 t1
  | 0, l, p, hr, hk, i, hi => by
    simp only [PT.ids, List.mem_singleton] at hi
    exact ⟨0, p, l, hi.symm, hr, hk⟩
  | d + 1, n, p, hr, hk, i, hi => by
    rw [ids_succ, List.mem_cons] at hi
    rcases hi with hi | hi
    · exact ⟨d + 1, p, n, hi.symm, hr, hk⟩
    · obtain ⟨c, hc, hic⟩ := (mem_idsL d _ _).mp hi
      obtain ⟨-, hch⟩ := (Rep_succ_iff h d p n).mp hr
      obtain ⟨-, hkc⟩ := (Keyed_succ_iff d n).mp hk
      exact subtree_keyed h d c _ (hch c hc) (hkc c hc) i hic

theorem build_order3_two : build 3 [((1 : Nat), "a"), (2, "b")] = some order3_two := by
  decide

theorem insert_order3_three : insert 3 order3_two 3 "c" = some order3_three := by
  simp [insert, order3_two, find_leaf, find_leaf_loop, lower_bound, demo_leaf, demo_internal,
    insertAt, Node.is_full, split_leaf, insert_in_parent, split_internal, set_parents,
    new_leaf_node, new_internal_node, order3_three]

/-- C13 (counterexample): with `ORDER = 3` the distinct keys 1, 2, 3 give a store whose
node 4 is an internal node with no key and a single child. -/
theorem order3_keyless_internal_node :
    3 ≤ 3 ∧ ([((1 : Nat), "a"), (2, "b"), (3, "c")].map Prod.fst).Nodup ∧
    build 3 [((1 : Nat), "a"), (2, "b"), (3, "c")] = some order3_three ∧
    order3_three.heap[4]? = some (demo_internal [] (some 5) [3]) ∧
    (demo_internal [] (some 5) [3]).is_leaf = false ∧
    (demo_internal [] (some 5) [3]).keys.length = 0 ∧
    (demo_internal [] (some 5) [3]).children.length = 1 := by
  refine ⟨by decide, by decide, ?_, by decide, by decide, by decide, by decide⟩
  exact (build_snoc 3 [((1 : Nat), "a"), (2, "b")] 3 "c" order3_two build_order3_two).trans
    insert_order3_three

/-- C13 (amended): for every `ORDER >= 4` and every run of `insert` calls on the
empty tree, with distinct keys or not, every internal node of the store holds
at least one key. -/
theorem internal_nodes_have_keys [LinearOrder K] (ORDER : Nat) (hO : 4 ≤ ORDER)
    (xs : List (K × V)) :
    ∃ T, build ORDER xs = some T ∧
      ∀ (a : Nat) (n : Node K V), T.heap[a]? = some n → n.is_leaf = false →
        1 ≤ n.keys.length := by
  obtain ⟨T, hb, ha, -⟩ := build_refines ORDER (by omega) xs
  have hk : Keyeds (pbuild ORDER xs) := pinsert_list_Keyed ORDER hO xs none trivial
  refine ⟨T, hb, ?_⟩
  intro a n hn hleaf
  cases hs : pbuild ORDER xs with
  | none =>
    rw [hs] at ha
    have hT : T = empty := ha
    subst hT
    simp [empty] at hn
  | some st =>
    obtain ⟨d, t⟩ := st
    rw [hs] at ha hk
    obtain ⟨-, hrep, hperm⟩ := ha
    have hk1 : Keyed d t := hk
    have halt : a < T.heap.length := (List.getElem?_eq_some.mp hn).1
    have hmem : a ∈ PT.ids d t := hperm.mem_iff.mpr (List.mem_range.mpr halt)
    obtain ⟨d1, p1, t1, g2, g3, g4⟩ := subtree_keyed T.heap d t none hrep hk1 a hmem
    cases d1 with
    | zero =>
      have hrec : T.heap[(t1 : LeafR K V).id]? = some (leaf_rec p1 t1) := g3
      have hid : (t1 : LeafR K V).id = a := g2
      rw [hid, hn] at hrec
      cases hrec
      cases hleaf
    | succ d2 =>
      obtain ⟨hrec, -⟩ := (Rep_succ_iff T.heap d2 p1 t1).mp g3
      have hid : (t1 : NodeR K (PT K V d2)).id = a := g2
      rw [hid, hn] at hrec
      cases hrec
      exact ((Keyed_succ_iff d2 t1).mp g4).1

theorem internal_nodes_have_keys_witness :
    4 ≤ 4 ∧ ∃ T, build 4 [((5 : Nat), "sapo5"), (3, "perro3"), (7, "pato7")] = some T ∧
      ∀ (a : Nat) (n : Node Nat String), T.heap[a]? = some n → n.is_leaf = false →
        1 ≤ n.keys.length :=
  ⟨by decide, internal_nodes_have_keys 4 (by decide)
    [((5 : Nat), "sapo5"), (3, "perro3"), (7, "pato7")]⟩

/-! ## Which leaf a stored key is looked up in -/

theorem mem_seps_succ (d : Nat) (n : NodeR K (PT K V d)) (k : K) :
    k ∈ PT.seps (d + 1) (n : PT K V (d + 1)) ↔
      k ∈ n.keys ∨ ∃ c ∈ n.children, k ∈ PT.seps d c := by
  simp only [PT.seps, List.mem_append, List.mem_flatten, List.mem_map]
  constructor
  · rintro (h | ⟨_, ⟨c, hc, rfl⟩, hk⟩)
    · exact Or.inl h
    · exact Or.inr ⟨c, hc, hk⟩
  · rintro (h | ⟨c, hc, hk⟩)
    · exact Or.inl h
    · exact Or.inr ⟨_, ⟨c, hc, rfl⟩, hk⟩

theorem mem_pkeys_succ (d : Nat) (n : NodeR K (PT K V d)) (k : K) :
    k ∈ PT.pkeys (d + 1) (n : PT K V (d + 1)) ↔ ∃ c ∈ n.children, k ∈ PT.pkeys d c := by
  simp only [PT.pkeys, leaves_succ, mem_keysL, List.mem_flatten, List.mem_map]
  constructor
  · rintro ⟨l, ⟨_, ⟨c, hc, rfl⟩, hl⟩, hk⟩
    exact ⟨c, hc, l, hl, hk⟩
  · rintro ⟨c, hc, l, hl, hk⟩
    exact ⟨l, ⟨_, ⟨c, hc, rfl⟩, hl⟩, hk⟩

/-- Every separator is a key stored in a leaf. -/
theorem seps_subset_pkeys [LinearOrder K] (ORDER : Nat) :
    ∀ (d : Nat) (t : PT K V d), WF ORDER d t → SepMin d t →
      ∀ k ∈ PT.seps d t, k ∈ PT.pkeys d t
  | 0, _, _, _, k, hk => by simp [PT.seps] at hk
  | d + 1, n, hwf, hsm, k, hk => by
    obtain ⟨h1, -, -, h4⟩ := (WF_succ_iff ORDER d n).mp hwf
    obtain ⟨hsep, hsc⟩ := (SepMin_succ_iff d n).mp hsm
    rw [mem_pkeys_succ]
    rcases (mem_seps_succ d n k).mp hk with hk | ⟨c, hc, hk⟩
    · obtain ⟨i, hi, hx⟩ := List.getElem_of_mem hk
      have hi1 : i + 1 < (n : NodeR K (PT K V d)).children.length := by omega
      have hget := List.getElem?_eq_getElem hi1
      have hhead := hsep i k _ (by rw [List.getElem?_eq_getElem hi, hx]) hget
      exact ⟨_, List.getElem_mem _, mem_of_head? _ _ hhead⟩
    · exact ⟨c, hc, seps_subset_pkeys ORDER d c (h4 c hc) (hsc c hc) k hk⟩

/-- A stored key that is not a key of the node is routed into the child below
which it is stored. -/
theorem route_stored [LinearOrder K] (ORDER : Nat) (d : Nat) (n : NodeR K (PT K V d))
    (hwf : WF ORDER (d + 1) (n : PT K V (d + 1)))
    (hs : (PT.pkeys (d + 1) (n : PT K V (d + 1))).Sorted (· < ·))
    (hsm : SepMin (d + 1) (n : PT K V (d + 1))) (k : K) (j : Nat) (c : PT K V d)
    (hc : n.children[j]? = some c) (hk : k ∈ PT.pkeys d c) (hnk : k ∉ n.keys) :
    lower_bound n.keys k = j := by
  obtain ⟨h1, -, h3, -⟩ := (WF_succ_iff ORDER d n).mp hwf
  have hj : j < (n : NodeR K (PT K V d)).children.length := (List.getElem?_eq_some.mp hc).1
  refine lower_bound_eq k _ j ?_ ?_ (by omega)
  · intro x hx
    obtain ⟨m, hm, hxm⟩ := List.getElem_of_mem hx
    have hm1 : m < j := by
      have := hm
      simp only [List.length_take] at this
      omega
    have hm2 : m < (n : NodeR K (PT K V d)).keys.length := by
      have := hm
      simp only [List.length_take] at this
      omega
    have hxm1 : (n : NodeR K (PT K V d)).keys[m]? = some x := by
      rw [List.getElem_take] at hxm
      rw [List.getElem?_eq_getElem hm2, hxm]
    have hj1 : j - 1 < (n : NodeR K (PT K V d)).keys.length := by omega
    have hs1 := List.getElem?_eq_getElem hj1
    obtain ⟨c0, c1, -, q2, -, q4⟩ := node_sep ORDER d n hwf hs hsm (j - 1) _ hs1
    have hjj : j - 1 + 1 = j := by omega
    rw [hjj, hc] at q2
    cases q2
    have hle1 : x ≤ (n : NodeR K (PT K V d)).keys[j - 1] :=
      sorted_le_getElem _ h3 m (j - 1) x _ hxm1 hs1 (by omega)
    have hle2 := q4 k hk
    have hne : x ≠ k := by
      intro e
      apply hnk
      rw [← e]
      exact List.mem_of_mem_take hx
    exact lt_of_le_of_ne (le_trans hle1 hle2) hne
  · intro x hx
    obtain ⟨c0, c1, q1, -, q3, -⟩ := node_sep ORDER d n hwf hs hsm j x hx
    rw [hc] at q1
    cases q1
    exact not_lt_of_lt (q3 k hk)

/-- A key of the node is routed into the child left of it, below which it is
not stored. -/
theorem route_sep [LinearOrder K] (ORDER : Nat) (d : Nat) (n : NodeR K (PT K V d))
    (hwf : WF ORDER (d + 1) (n : PT K V (d + 1)))
    (hs : (PT.pkeys (d + 1) (n : PT K V (d + 1))).Sorted (· < ·))
    (hsm : SepMin (d + 1) (n : PT K V (d + 1))) (k : K) (hk : k ∈ n.keys) :
    ∃ c, n.children[lower_bound n.keys k]? = some c ∧ c ∈ n.children ∧ k ∉ PT.pkeys d c := by
  obtain ⟨h1, -, h3, -⟩ := (WF_succ_iff ORDER d n).mp hwf
  obtain ⟨m, hm, hxm⟩ := List.getElem_of_mem hk
  have hlb : lower_bound (n : NodeR K (PT K V d)).keys k ≤ m := by
    by_contra hcon
    have hmem : (n : NodeR K (PT K V d)).keys[m] ∈
        (n : NodeR K (PT K V d)).keys.take (lower_bound (n : NodeR K (PT K V d)).keys k) := by
      rw [List.mem_take_iff_getElem]
      exact ⟨m, by simp only [lt_min_iff]; omega, rfl⟩
    have := lt_of_mem_take_lower_bound k _ _ hmem
    rw [hxm] at this
    exact lt_irrefl _ this
  have hi : lower_bound (n : NodeR K (PT K V d)).keys k <
      (n : NodeR K (PT K V d)).keys.length := by omega
  have hget := List.getElem?_eq_getElem hi
  have hnlt := not_lt_getElem_lower_bound k _ _ hget
  have hle := sorted_le_getElem _ h3 _ m _ k hget
    (by rw [List.getElem?_eq_getElem hm, hxm]) hlb
  have heq : (n : NodeR K (PT K V d)).keys[lower_bound (n : NodeR K (PT K V d)).keys k] = k :=
    le_antisymm hle (not_lt.mp hnlt)
  rw [heq] at hget
  obtain ⟨c0, c1, q1, -, q3, -⟩ := node_sep ORDER d n hwf hs hsm _ k hget
  refine ⟨c0, q1, ?_, ?_⟩
  · obtain ⟨hl, hx⟩ := List.getElem?_eq_some.mp q1
    rw [← hx]
    exact List.getElem_mem _
  · intro hmem
    exact lt_irrefl _ (q3 k hmem)

theorem pleaf_keys_subset [LinearOrder K] (ORDER : Nat) (k : K) (d : Nat) (t : PT K V d)
    (hwf : WF ORDER d t) : ∀ x ∈ (pleaf k d t).keys, x ∈ PT.pkeys d t := by
  intro x hx
  exact (mem_keysL _ x).mpr ⟨_, pleaf_mem ORDER k d t hwf, hx⟩

/-- The lookup of a separator ends in a leaf that does not hold it. -/
theorem sep_not_in_pleaf [LinearOrder K] (ORDER : Nat) (k : K) :
    ∀ (d : Nat) (t : PT K V d), WF ORDER d t → (PT.pkeys d t).Sorted (· < ·) → SepMin d t →
      k ∈ PT.seps d t → k ∉ (pleaf k d t).keys
  | 0, _, _, _, _, hk => by simp [PT.seps] at hk
  | d + 1, n, hwf, hs, hsm, hk => by
    obtain ⟨h1, -, -, h4⟩ := (WF_succ_iff ORDER d n).mp hwf
    obtain ⟨-, hsc⟩ := (SepMin_succ_iff d n).mp hsm
    by_cases hkn : k ∈ (n : NodeR K (PT K V d)).keys
    · obtain ⟨c, hc, hcm, hnot⟩ := route_sep ORDER d n hwf hs hsm k hkn
      rw [pleaf_succ k d n c hc]
      intro hmem
      exact hnot (pleaf_keys_subset ORDER k d c (h4 c hcm) k hmem)
    · rcases (mem_seps_succ d n k).mp hk with hk1 | ⟨c, hcm, hkc⟩
      · exact absurd hk1 hkn
      · obtain ⟨j, hj, hx⟩ := List.getElem_of_mem hcm
        have hc : (n : NodeR K (PT K V d)).children[j]? = some c := by
          rw [List.getElem?_eq_getElem hj, hx]
        have hst := seps_subset_pkeys ORDER d c (h4 c hcm) (hsc c hcm) k hkc
        have hlb := route_stored ORDER d n hwf hs hsm k j c hc hst hkn
        rw [← hlb] at hc
        rw [pleaf_succ k d n c hc]
        exact sep_not_in_pleaf ORDER k d c (h4 c hcm) (sorted_child d n hs c hcm)
          (hsc c hcm) hkc

/-- The lookup of a stored key that is no separator ends in the leaf that
holds it. -/
theorem stored_in_pleaf [LinearOrder K] (ORDER : Nat) (k : K) :
    ∀ (d : Nat) (t : PT K V d), WF ORDER d t → (PT.pkeys d t).Sorted (· < ·) → SepMin d t →
      k ∈ PT.pkeys d t → k ∉ PT.seps d t → k ∈ (pleaf k d t).keys
  | 0, l, _, _, _, hk, _ => by
    simpa [PT.pkeys, PT.leaves, keysL, pleaf] using hk
  | d + 1, n, hwf, hs, hsm, hk, hns => by
    obtain ⟨h1, -, -, h4⟩ := (WF_succ_iff ORDER d n).mp hwf
    obtain ⟨-, hsc⟩ := (SepMin_succ_iff d n).mp hsm
    obtain ⟨c, hcm, hkc⟩ := (mem_pkeys_succ d n k).mp hk
    have hkn : k ∉ (n : NodeR K (PT K V d)).keys :=
      fun h => hns ((mem_seps_succ d n k).mpr (Or.inl h))
    have hkc1 : k ∉ PT.seps d c :=
      fun h => hns ((mem_seps_succ d n k).mpr (Or.inr ⟨c, hcm, h⟩))
    obtain ⟨j, hj, hx⟩ := List.getElem_of_mem hcm
    have hc : (n : NodeR K (PT K V d)).children[j]? = some c := by
      rw [List.getElem?_eq_getElem hj, hx]
    have hlb := route_stored ORDER d n hwf hs hsm k j c hc hkc hkn
    rw [← hlb] at hc
    rw [pleaf_succ k d n c hc]
    exact stored_in_pleaf ORDER k d c (h4 c hcm) (sorted_child d n hs c hcm) (hsc c hcm)
      hkc hkc1

/-- The leaf search finds a key of the leaf, with the value stored next to it. -/
theorem pfind_hit [LinearOrder K] (k : K) (l : LeafR K V) (hk : k ∈ l.keys)
    (hs : l.keys.Sorted (· ≤ ·)) (hv : l.values.length = l.keys.length) :
    ∃ v, pfind k l = some v ∧ (k, v) ∈ l.entries := by
  obtain ⟨m, hm, hxm⟩ := List.getElem_of_mem hk
  have hlb : lower_bound l.keys k ≤ m := by
    by_contra hcon
    have hmem : l.keys[m] ∈ l.keys.take (lower_bound l.keys k) := by
      rw [List.mem_take_iff_getElem]
      exact ⟨m, by simp only [lt_min_iff]; omega, rfl⟩
    have := lt_of_mem_take_lower_bound k _ _ hmem
    rw [hxm] at this
    exact lt_irrefl _ this
  have hi : lower_bound l.keys k < l.keys.length := by omega
  have hiv : lower_bound l.keys k < l.values.length := by omega
  have hget := List.getElem?_eq_getElem hi
  have hnlt := not_lt_getElem_lower_bound k _ _ hget
  have hle := sorted_le_getElem _ hs _ m _ k hget (by rw [List.getElem?_eq_getElem hm, hxm]) hlb
  have heq : l.keys[lower_bound l.keys k] = k := le_antisymm hle (not_lt.mp hnlt)
  refine ⟨l.values[lower_bound l.keys k], ?_, ?_⟩
  · unfold pfind
    rw [hget]
    simp only [heq, if_true]
    exact List.getElem?_eq_getElem hiv
  · unfold LeafR.entries
    have hz : lower_bound l.keys k < (l.keys.zip l.values).length := by
      simp only [List.length_zip, lt_min_iff]
      exact ⟨hi, hiv⟩
    have hzz : (l.keys.zip l.values)[lower_bound l.keys k] =
        (k, l.values[lower_bound l.keys k]) := by
      rw [List.getElem_zip, heq]
    rw [← hzz]
    exact List.getElem_mem _

/-- The keys of an internal record of the store are separators of the tree. -/
theorem rec_keys_seps (h : List (Node K V)) :
    ∀ (d : Nat) (t : PT K V d) (p : Option Nat), Rep h d p t →
      ∀ (a : Nat) (n : Node K V), a ∈ PT.ids d t → h[a]? = some n → n.is_leaf = false →
        ∀ k ∈ n.keys, k ∈ PT.seps d t
  | 0, l, p, hr, a, n, ha, hn, hleaf, k, _ => by
    simp only [PT.ids, List.mem_singleton] at ha
    have hrec : h[(l : LeafR K V).id]? = some (leaf_rec p l) := hr
    rw [← ha, hn] at hrec
    cases hrec
    cases hleaf
  | d + 1, t, p, hr, a, n, ha, hn, hleaf, k, hk => by
    obtain ⟨hrec, hch⟩ := (Rep_succ_iff h d p t).mp hr
    rw [ids_succ, List.mem_cons] at ha
    rw [mem_seps_succ]
    rcases ha with ha | ha
    · rw [← ha, hn] at hrec
      cases hrec
      exact Or.inl hk
    · obtain ⟨c, hc, hac⟩ := (mem_idsL d _ _).mp ha
      exact Or.inr ⟨c, hc, rec_keys_seps h d c _ (hch c hc) a n hac hn hleaf k hk⟩

/-- Every separator of the tree is a key of an internal record of the store. -/
theorem seps_rec_keys (h : List (Node K V)) :
    ∀ (d : Nat) (t : PT K V d) (p : Option Nat), Rep h d p t →
      ∀ k ∈ PT.seps d t, ∃ (a : Nat) (n : Node K V),
        h[a]? = some n ∧ n.is_leaf = false ∧ k ∈ n.keys
  | 0, _, _, _, k, hk => by simp [PT.seps] at hk
  | d + 1, t, p, hr, k, hk => by
    obtain ⟨hrec, hch⟩ := (Rep_succ_iff h d p t).mp hr
    rcases (mem_seps_succ d t k).mp hk with hk | ⟨c, hc, hk⟩
    · exact ⟨_, _, hrec, rfl, hk⟩
    · exact seps_rec_keys h d c _ (hch c hc) k hk

/-- C18: for every `ORDER >= 3` and every run of `insert` calls with pairwise
distinct keys on the empty tree: `find(k)` returns `false` for every key `k`
of an internal node, although `k` was inserted and is an entry of a leaf; and
`find(k)` returns `true` with the inserted value for every inserted key `k`
that is a key of no internal node. -/
theorem separator_lookups_miss [LinearOrder K] (ORDER : Nat) (hO : 3 ≤ ORDER)
    (xs : List (K × V)) (hnd : (xs.map Prod.fst).Nodup) :
    ∃ T, build ORDER xs = some T ∧
      (∀ k, (∃ (a : Nat) (n : Node K V), T.heap[a]? = some n ∧ n.is_leaf = false ∧ k ∈ n.keys) →
        find T k = some none ∧
          ∃ v es, (k, v) ∈ xs ∧ entries T = some es ∧ (k, v) ∈ es) ∧
      (∀ k v, (k, v) ∈ xs →
        (¬ ∃ (a : Nat) (n : Node K V), T.heap[a]? = some n ∧ n.is_leaf = false ∧ k ∈ n.keys) →
        find T k = some (some v)) := by
  obtain ⟨T, hb, ha, hwf⟩ := build_refines ORDER hO xs
  have ho := pbuild_Ordered ORDER hO xs hnd
  have hperm := pbuild_entries ORDER hO xs
  have hobs := (observe ORDER T _ ha hwf).2
  refine ⟨T, hb, ?_, ?_⟩
  · rintro k ⟨a, n, hn, hleaf, hk⟩
    cases hs : pbuild ORDER xs with
    | none =>
      rw [hs] at ha
      have hT : T = empty := ha
      subst hT
      simp [empty] at hn
    | some st =>
      obtain ⟨d, t⟩ := st
      rw [hs] at ha hwf ho hperm hobs
      have hwf1 : WF ORDER d t := hwf
      obtain ⟨hso, hsm, -⟩ := ho
      have hrep : Rep T.heap d none t := ha.2.1
      have halt : a < T.heap.length := (List.getElem?_eq_some.mp hn).1
      have hmem : a ∈ PT.ids d t := ha.2.2.mem_iff.mpr (List.mem_range.mpr halt)
      have hsep := rec_keys_seps T.heap d t none hrep a n hmem hn hleaf k hk
      have hmiss := sep_not_in_pleaf ORDER k d t hwf1 hso hsm hsep
      refine ⟨?_, ?_⟩
      · rw [(find_spec ORDER k T d t ha hwf1).2, pfind_none k _ hmiss]
      · have hst := seps_subset_pkeys ORDER d t hwf1 hsm k hsep
        rw [pkeys_eq_entries ORDER d t hwf1] at hst
        obtain ⟨e, he, hek⟩ := List.mem_map.mp hst
        obtain ⟨k1, v⟩ := e
        simp only at hek
        subst hek
        exact ⟨v, _, hperm.mem_iff.mp he, hobs, he⟩
  · intro k v hkv hns
    cases hs : pbuild ORDER xs with
    | none =>
      rw [hs] at hperm
      have hnil : xs = [] := by
        have := hperm.length_eq
        simp only [pentries, List.length_nil] at this
        exact List.length_eq_zero.mp this.symm
      subst hnil
      simp at hkv
    | some st =>
      obtain ⟨d, t⟩ := st
      rw [hs] at ha hwf ho hperm hobs
      have hwf1 : WF ORDER d t := hwf
      obtain ⟨hso, hsm, -⟩ := ho
      have hrep : Rep T.heap d none t := ha.2.1
      have he : (k, v) ∈ PT.entries d t := hperm.mem_iff.mpr hkv
      have hst : k ∈ PT.pkeys d t := by
        rw [pkeys_eq_entries ORDER d t hwf1]
        exact List.mem_map.mpr ⟨(k, v), he, rfl⟩
      have hnsep : k ∉ PT.seps d t := fun h => hns (seps_rec_keys T.heap d t none hrep k h)
      have hin := stored_in_pleaf ORDER k d t hwf1 hso hsm hst hnsep
      have hlm := pleaf_mem ORDER k d t hwf1
      obtain ⟨hv, -, -, hsl⟩ := (WF_zero_iff ORDER _).mp (WF_leaves ORDER d t hwf1 _ hlm)
      obtain ⟨v1, hf, hev⟩ := pfind_hit k _ hin hsl hv
      have he1 : (k, v1) ∈ PT.entries d t := by
        simp only [PT.entries, List.mem_flatten, List.mem_map]
        exact ⟨_, ⟨_, hlm, rfl⟩, hev⟩
      have hkv1 : (k, v1) ∈ xs := hperm.mem_iff.mp he1
      have heq := List.inj_on_of_nodup_map hnd hkv1 hkv rfl
      rw [(find_spec ORDER k T d t ha hwf1).2, hf]
      cases heq
      rfl

theorem separator_lookups_miss_witness :
    (3 ≤ 4 ∧ ([((5 : Nat), "sapo5"), (3, "perro3"), (7, "pato7")].map Prod.fst).Nodup) ∧
    ∃ T, build 4 [((5 : Nat), "sapo5"), (3, "perro3"), (7, "pato7")] = some T ∧
      (∀ k, (∃ (a : Nat) (n : Node Nat String),
          T.heap[a]? = some n ∧ n.is_leaf = false ∧ k ∈ n.keys) →
        find T k = some none ∧
          ∃ v es, (k, v) ∈ [((5 : Nat), "sapo5"), (3, "perro3"), (7, "pato7")] ∧
            entries T = some es ∧ (k, v) ∈ es) ∧
      (∀ k v, (k, v) ∈ [((5 : Nat), "sapo5"), (3, "perro3"), (7, "pato7")] →
        (¬ ∃ (a : Nat) (n : Node Nat String),
          T.heap[a]? = some n ∧ n.is_leaf = false ∧ k ∈ n.keys) →
        find T k = some (some v)) :=
  ⟨⟨by decide, by decide⟩,
    separator_lookups_miss 4 (by decide)
      [((5 : Nat), "sapo5"), (3, "perro3"), (7, "pato7")] (by decide)⟩

/-- For a key that is not stored yet: the key a split below child `c` promotes
has its lower-bound position among the keys of the node at the index of `c`. -/
theorem placement_index [LinearOrder K] (ORDER fresh : Nat) (k : K) (v : V) (d : Nat)
    (id1 : Nat) (ks : List K) (A B : List (PT K V d)) (c : PT K V d)
    (hwf : WF ORDER (d + 1) ((⟨id1, ks, A ++ c :: B⟩ : NodeR K (PT K V d)) : PT K V (d + 1)))
    (hs : (PT.pkeys (d + 1)
      ((⟨id1, ks, A ++ c :: B⟩ : NodeR K (PT K V d)) : PT K V (d + 1))).Sorted (· < ·))
    (hsm : SepMin (d + 1) ((⟨id1, ks, A ++ c :: B⟩ : NodeR K (PT K V d)) : PT K V (d + 1)))
    (hk : k ∉ PT.pkeys (d + 1)
      ((⟨id1, ks, A ++ c :: B⟩ : NodeR K (PT K V d)) : PT K V (d + 1)))
    (hAlen : A.length = lower_bound ks k)
    (l : PT K V d) (pk : K) (r : PT K V d)
    (hp : pins ORDER fresh k v d c = .split l pk r) :
    lower_bound ks pk = A.length := by
  obtain ⟨hlen, -, hks, hwfc⟩ := (WF_succ_iff ORDER d _).mp hwf
  simp only at hlen hks hwfc
  have hlb := lower_bound_le ks k
  have hcmem : c ∈ A ++ c :: B := List.mem_append_right _ (List.mem_cons_self _ _)
  have hwfcc := hwfc c hcmem
  obtain ⟨hsep, hsmc⟩ := (SepMin_succ_iff d _).mp hsm
  simp only at hsep hsmc
  -- the keys of the node in leaf order
  rw [pkeys_succ] at hs hk
  have hs0 := hs
  unfold List.Sorted at hs
  rw [List.pairwise_append] at hs
  obtain ⟨hs1, hsB, hcrossB⟩ := hs
  rw [List.pairwise_append] at hs1
  obtain ⟨hsA, hsc, hcrossA⟩ := hs1
  have hkc : k ∉ PT.pkeys d c := fun hm =>
    hk (List.mem_append_left _ (List.mem_append_right _ hm))
  obtain ⟨LAc, LBc, e1, e2, e3, e4, e5⟩ :=
    pins_leaves ORDER fresh k v d c hwfcc hsc (hsmc c hcmem) hkc
  have hPc : PT.pkeys d c = keysL LAc ++ (pleaf k d c).keys ++ keysL LBc := by
    simp only [PT.pkeys, e1, keysL_append, keysL_cons, List.append_assoc]
  have hRk : keysL (Res.leaves d (pins ORDER fresh k v d c)) =
      keysL LAc ++ insertAt (pleaf k d c).keys (lower_bound (pleaf k d c).keys k) k ++
        keysL LBc := by
    rw [e2, keysL_append, keysL_append, leaf_out_keys]
  have hl0mem : pleaf k d c ∈ PT.leaves d c := pleaf_mem ORDER k d c hwfcc
  have hl0ne : (pleaf k d c).keys ≠ [] := leaves_WF_keys ORDER d c hwfcc _ hl0mem
  have hkl0 : k ∉ (pleaf k d c).keys := by
    intro hm
    apply hkc
    rw [hPc]
    exact List.mem_append_left _ (List.mem_append_right _ hm)
  have hRs : (keysL (Res.leaves d (pins ORDER fresh k v d c))).Sorted (· < ·) := by
    rw [hRk]
    rw [hPc] at hsc
    exact sorted_after k _ _ _ hsc hkl0 e3 e4
  have hRmem : ∀ x ∈ keysL (Res.leaves d (pins ORDER fresh k v d c)),
      x = k ∨ x ∈ PT.pkeys d c := by
    intro x hx
    rw [hRk] at hx
    rw [hPc]
    simp only [List.mem_append, mem_insertAt] at hx ⊢
    tauto
  -- keys left of the child are below `k`
  have hbelow : ∀ s, A ≠ [] → (PT.pkeys d c).head? = some s → s < k := by
    intro s hA hhd
    have hApos : 0 < A.length := List.length_pos.mpr hA
    have hex : ∃ s1, ks[A.length - 1]? = some s1 := by
      have hlt : A.length - 1 < ks.length := by omega
      exact ⟨ks[A.length - 1], List.getElem?_eq_getElem hlt⟩
    obtain ⟨s1, hs1⟩ := hex
    have hh := hsep (A.length - 1) s1 c hs1 (by
      rw [show A.length - 1 + 1 = A.length by omega, getElem?_mid]
      simp only [lt_irrefl, if_false, if_true])
    rw [hhd] at hh
    cases hh
    refine lt_of_mem_take_lower_bound k ks s ?_
    rw [← hAlen]
    obtain ⟨hlt, hget⟩ := List.getElem?_eq_some.mp hs1
    rw [← hget]
    rw [List.mem_take_iff_getElem]
    exact ⟨A.length - 1, by omega, rfl⟩
  have hhead : ∀ s, (PT.pkeys d c).head? = some s → A ≠ [] →
      (keysL (Res.leaves d (pins ORDER fresh k v d c))).head? = some s := by
    intro s hhd hA
    rw [hRk]
    rw [hPc] at hhd
    exact head_after k s _ _ _ hl0ne hhd (hbelow s hA (by rw [hPc]; exact hhd))
  have hresWF := pins_WF ORDER fresh k v d c hwfcc
  rw [hp] at e2 e5 hhead hRs hRmem hresWF
  have e2a : PT.leaves d l ++ PT.leaves d r =
      LAc ++ Res.leaves 0 (pins ORDER fresh k v 0 (pleaf k d c : PT K V 0)) ++ LBc := e2
  simp only [Res.SepMin, Res.WF] at e5 hresWF
  rw [Res_leaves_pkeys_split] at hhead hRs hRmem
  obtain ⟨hsl, hsr, hrk⟩ := e5
  have hlne := pkeys_ne_nil ORDER d l hresWF.1
  have hpkr : pk ∈ PT.pkeys d r := mem_of_head? _ _ hrk
  have hheadl : ∀ s, (PT.pkeys d c).head? = some s → A ≠ [] →
      (PT.pkeys d l).head? = some s := by
    intro s h1 h2
    have := hhead s h1 h2
    rw [List.head?_append_of_ne_nil _ hlne] at this
    exact this
  have hcross : ∀ a ∈ PT.pkeys d l, ∀ b ∈ PT.pkeys d r, a < b :=
    (List.pairwise_append.mp hRs).2.2
  -- the promoted key goes right behind the child
  have hj : lower_bound ks pk = A.length := by
    refine lower_bound_eq pk ks A.length ?_ ?_ (by omega)
    · intro x hx
      have hA : A ≠ [] := by
        intro e
        rw [e] at hx
        simp at hx
      have hApos : 0 < A.length := List.length_pos.mpr hA
      obtain ⟨m, hm⟩ : ∃ m, (PT.pkeys d c).head? = some m := by
        cases hpc : PT.pkeys d c with
        | nil => exact absurd hpc (pkeys_ne_nil ORDER d c hwfcc)
        | cons y ys => exact ⟨y, rfl⟩
      have hs1 : ks[A.length - 1]? = some ks[A.length - 1] :=
        List.getElem?_eq_getElem (by omega)
      have hh := hsep (A.length - 1) _ c hs1 (by
        rw [show A.length - 1 + 1 = A.length by omega, getElem?_mid]
        simp only [lt_irrefl, if_false, if_true])
      rw [hm] at hh
      cases hh
      rw [List.mem_take_iff_getElem] at hx
      obtain ⟨i, hi1, hi2⟩ := hx
      have hile : i < ks.length := by omega
      have hxle : x ≤ ks[A.length - 1] :=
        sorted_le_getElem ks hks i (A.length - 1) x _
          (by rw [List.getElem?_eq_getElem hile, hi2]) hs1 (by omega)
      exact lt_of_le_of_lt hxle
        (hcross _ (mem_of_head? _ _ (hheadl _ hm hA)) pk hpkr)
    · intro x hx
      rcases hRmem pk (List.mem_append_right _ hpkr) with e | hmem
      · rw [e]
        refine not_lt_getElem_lower_bound k ks x ?_
        rw [← hAlen]
        exact hx
      · cases B with
        | nil =>
          have := (List.getElem?_eq_some.mp hx).1
          simp only [List.length_append, List.length_cons, List.length_nil] at hlen
          omega
        | cons b B1 =>
          have hbm : b ∈ A ++ c :: b :: B1 :=
            List.mem_append_right _ (List.mem_cons_of_mem _ (List.mem_cons_self _ _))
          have hh := hsep A.length x b hx (by
            rw [getElem?_mid]
            simp)
          have hxm : x ∈ keysL (leavesL d (b :: B1)) := by
            rw [leavesL_cons, keysL_append]
            exact List.mem_append_left _ (mem_of_head? _ _ hh)
          exact not_lt_of_gt (hcrossB pk (List.mem_append_right _ hmem) x hxm)
  exact hj

/-! ## The log changes nothing -/

/-- Without their log, the logged `split_internal` and `insert_in_parent` are
the methods themselves. -/
theorem log_erase [LinearOrder K] (ORDER : Nat) :
    ∀ f : Nat,
      (∀ (t : BPlusTree K V) (node : Nat) (log : List Event),
        (split_internal_log ORDER f t node log).map Prod.fst = split_internal ORDER f t node) ∧
      (∀ (t : BPlusTree K V) (old_node : Nat) (key : K) (new_node : Nat) (log : List Event),
        (insert_in_parent_log ORDER f t old_node key new_node log).map Prod.fst =
          insert_in_parent ORDER f t old_node key new_node)
  | 0 => ⟨fun _ _ _ => rfl, fun _ _ _ _ _ => rfl⟩
  | f + 1 => by
    obtain ⟨ih1, ih2⟩ := log_erase ORDER f
    refine ⟨?_, ?_⟩
    · intro t node log
      simp only [split_internal_log, split_internal]
      cases t.heap[node]? with
      | none => rfl
      | some n =>
        simp only
        cases n.keys[n.keys.length / 2]? with
        | none => rfl
        | some pk =>
          simp only
          split
          · rfl
          · generalize set_parents _ _ _ = sp
            cases sp with
            | none => rfl
            | some heap2 => exact ih2 _ _ _ _ _
    · intro t old_node key new_node log
      simp only [insert_in_parent_log, insert_in_parent]
      split
      · generalize set_parents _ _ _ = sp
        cases sp <;> rfl
      · cases t.heap[old_node]? with
        | none => rfl
        | some o =>
          simp only
          cases o.parent with
          | none => rfl
          | some parent =>
            simp only
            cases t.heap[parent]? with
            | none => rfl
            | some p =>
              simp only
              split
              · rfl
              · split
                · rfl
                · generalize set_parents _ _ _ = sp
                  cases sp with
                  | none => rfl
                  | some heap2 =>
                    simp only
                    split
                    · exact ih1 _ _ _
                    · rfl

theorem split_leaf_log_erase [LinearOrder K] (ORDER fuel : Nat) (t : BPlusTree K V)
    (leaf : Nat) (log : List Event) :
    (split_leaf_log ORDER fuel t leaf log).map Prod.fst = split_leaf ORDER fuel t leaf := by
  simp only [split_leaf_log, split_leaf]
  cases t.heap[leaf]? with
  | none => rfl
  | some l =>
    simp only
    split
    · rfl
    · generalize (List.drop (l.keys.length / 2) l.keys).head? = hd
      cases hd with
      | none => rfl
      | some pk => exact (log_erase ORDER fuel).2 _ _ _ _ _

theorem insert_log_erase [LinearOrder K] (ORDER : Nat) (t : BPlusTree K V) (key : K)
    (value : V) (log : List Event) :
    (insert_log ORDER t key value log).map Prod.fst = insert ORDER t key value := by
  simp only [insert_log, insert]
  cases t.root with
  | none => rfl
  | some r =>
    simp only
    cases find_leaf t key with
    | none => rfl
    | some o =>
      cases o with
      | none => rfl
      | some leaf =>
        simp only
        cases t.heap[leaf]? with
        | none => rfl
        | some l =>
          simp only
          split
          · split
            · rfl
            · split
              · exact split_leaf_log_erase ORDER _ _ _ _
              · rfl
          · rfl

theorem insert_list_log_erase [LinearOrder K] (ORDER : Nat) :
    ∀ (xs : List (K × V)) (t : BPlusTree K V) (log : List Event),
      (insert_list_log ORDER t xs log).map Prod.fst = insert_list ORDER t xs
  | [], _, _ => rfl
  | (k, v) :: rest, t, log => by
    have h := insert_log_erase ORDER t k v log
    simp only [insert_list_log, insert_list]
    cases hi : insert_log ORDER t k v log with
    | none =>
      rw [hi] at h
      rw [← h]
      rfl
    | some r =>
      obtain ⟨t1, log1⟩ := r
      rw [hi] at h
      rw [← h]
      exact insert_list_log_erase ORDER rest t1 log1

/-- Without its log, a logged run of `insert` calls is the run itself. -/
theorem build_log_erase [LinearOrder K] (ORDER : Nat) (xs : List (K × V)) :
    (build_log ORDER xs).map Prod.fst = build ORDER xs :=
  insert_list_log_erase ORDER xs empty []

/-! ## The logged methods on a store that holds a tree -/

/-- The logged `insert` on a leaf that does not become full. -/
theorem leaf_step_done_log [LinearOrder K] (ORDER F r : Nat) (k : K) (v : V) (h : List (Node K V))
    (p : Option Nat) (l : LeafR K V) (hr : h[l.id]? = some (leaf_rec p l))
    (hv : l.values.length = l.keys.length)
    (hf : ¬ ORDER - 1 ≤ (leaf_ins k v l).keys.length) (log : List Event) :
    leaf_step_log ORDER F ⟨h, some r⟩ l.id k v log =
      some (⟨h.set l.id (leaf_rec p (leaf_ins k v l)), some r⟩, log) := by
  have hlb := lower_bound_le l.keys k
  have hg : ¬ l.values.length < lower_bound l.keys k := by omega
  have hf1 : ¬ ORDER - 1 ≤ (insertAt l.keys (lower_bound l.keys k) k).length := hf
  simp only [leaf_step_log, hr, leaf_rec, if_true, hg, if_false, Node.is_full, hf1, decide_False,
    Bool.false_eq_true, leaf_ins]

/-- The logged `insert` on a leaf that becomes full: `split_leaf` leaves the two halves in
the store and calls `insert_in_parent`. -/
theorem leaf_step_split_log [LinearOrder K] (ORDER F r : Nat) (k : K) (v : V) (h : List (Node K V))
    (p : Option Nat) (l : LeafR K V) (hr : h[l.id]? = some (leaf_rec p l))
    (hv : l.values.length = l.keys.length)
    (hf : ORDER - 1 ≤ (leaf_ins k v l).keys.length)
    (L : LeafR K V) (pk : K) (R : LeafR K V)
    (e : leaf_split h.length k (leaf_ins k v l) = .split (L : PT K V 0) pk (R : PT K V 0))
    (log : List Event) :
    leaf_step_log ORDER F ⟨h, some r⟩ l.id k v log =
      insert_in_parent_log ORDER F ⟨h.set l.id (leaf_rec p L) ++ [leaf_rec none R], some r⟩
        l.id pk h.length (log ++ [Event.leaf_split l.id (leaf_ins k v l).keys.length]) := by
  have hlb := lower_bound_le l.keys k
  have hg : ¬ l.values.length < lower_bound l.keys k := by omega
  have hf1 : ORDER - 1 ≤ (insertAt l.keys (lower_bound l.keys k) k).length := hf
  have hlt : l.id < h.length := by
    by_contra hc
    rw [List.getElem?_eq_none (by omega)] at hr
    cases hr
  have hlen1 := length_insertAt l.keys (lower_bound l.keys k) k
  have hlen2 := length_insertAt l.values (lower_bound l.keys k) v
  have hg2 : ¬ (insertAt l.values (lower_bound l.keys k) v).length <
      (insertAt l.keys (lower_bound l.keys k) k).length / 2 := by omega
  simp only [leaf_split, Res.split.injEq] at e
  obtain ⟨e1, e2, e3⟩ := e
  have e1 : (_ : LeafR K V) = L := e1
  have e3 : (_ : LeafR K V) = R := e3
  subst e1 e2 e3
  have hne : (insertAt l.keys (lower_bound l.keys k) k).drop
      ((insertAt l.keys (lower_bound l.keys k) k).length / 2) ≠ [] := by
    intro hnil
    have := congrArg List.length hnil
    simp only [List.length_drop, List.length_nil] at this
    omega
  obtain ⟨x, xs, hx⟩ := List.exists_cons_of_ne_nil hne
  simp only [leaf_step_log, hr, leaf_rec, if_true, hg, if_false, Node.is_full, hf1, decide_True,
    split_leaf_log, List.getElem?_set_self hlt, hg2, new_leaf_node, List.length_set,
    List.set_set, leaf_ins, hx, List.head?_cons, List.headD_cons]

/-- The logged `insert_in_parent` on the root: a new root with the two halves below it. -/
theorem iip_root_log [LinearOrder K] (ORDER f r : Nat) (pk : K) (h : List (Node K V)) (d : Nat)
    (p : Option Nat) (l rt : PT K V d) (hl : Rep h d p l) (hrt : Rep h d none rt)
    (hrid : PT.rid d l = r) (hn : (PT.ids d l ++ PT.ids d rt).Nodup) (log : List Event) :
    ∃ h2, insert_in_parent_log ORDER (f + 1) ⟨h, some r⟩ r pk (PT.rid d rt) log =
        some (⟨h2, some h.length⟩, log) ∧
      Rep h2 (d + 1) none ((⟨h.length, [pk], [l, rt]⟩ : NodeR K (PT K V d)) : PT K V (d + 1)) ∧
      h2.length = h.length + 1 := by
  subst hrid
  have hpre : ∀ c ∈ [l, rt], ∃ q, Rep (h ++ [({ (new_internal_node : Node K V) with
      keys := [pk], children := [PT.rid d l, PT.rid d rt] } : Node K V)]) d q c := by
    intro c hc
    simp only [List.mem_cons, List.mem_singleton, List.not_mem_nil, or_false] at hc
    rcases hc with rfl | rfl
    · exact ⟨p, Rep_append h _ d p _ hl⟩
    · exact ⟨none, Rep_append h _ d none _ hrt⟩
  have hnd : (([l, rt].map (PT.ids d)).flatten).Nodup := by
    simpa using hn
  obtain ⟨h2, e1, e2, e3, e4⟩ := set_parents_spec h.length d [l, rt] _ hpre hnd
  refine ⟨h2, ?_, ?_, ?_⟩
  · rw [insert_in_parent_log]
    simp only [if_true]
    simp only [List.map_cons, List.map_nil] at e1
    rw [e1]
  · rw [Rep_succ_iff]
    refine ⟨?_, e3⟩
    have hnot : h.length ∉ [l, rt].map (PT.rid d) := by
      intro hm
      simp only [List.map_cons, List.map_nil, List.mem_cons, List.mem_singleton,
        List.not_mem_nil, or_false] at hm
      rcases hm with hm | hm
      · have := Rep_ids_lt h d p l hl _ (rid_mem_ids d l)
        omega
      · have := Rep_ids_lt h d none rt hrt _ (rid_mem_ids d rt)
        omega
    rw [e4 _ hnot, List.getElem?_concat_length]
    rfl
  · rw [e2]
    simp

/-- The logged `split_internal` on a node the store holds: the two halves are in the
store afterwards, the moved children point to the new node, and
`insert_in_parent` is called with the middle key. -/
theorem split_internal_spec_log [LinearOrder K] (ORDER f : Nat) (ro : Option Nat) (k : K)
    (h : List (Node K V)) (d : Nat) (p : Option Nat) (n : NodeR K (PT K V d))
    (hr : Rep h (d + 1) p (n : PT K V (d + 1)))
    (hn : (PT.ids (d + 1) (n : PT K V (d + 1))).Nodup)
    (hc : n.children.length = n.keys.length + 1) (hk : 1 ≤ n.keys.length)
    (N : NodeR K (PT K V d)) (pk : K) (M : NodeR K (PT K V d))
    (e : node_split h.length k d n = .split (N : PT K V (d + 1)) pk (M : PT K V (d + 1)))
    (log : List Event) :
    ∃ h4, split_internal_log ORDER (f + 1) ⟨h, ro⟩ n.id log =
        insert_in_parent_log ORDER f ⟨h4, ro⟩ n.id pk h.length
          (log ++ [Event.internal_split n.id n.keys.length]) ∧
      Rep h4 (d + 1) p (N : PT K V (d + 1)) ∧ Rep h4 (d + 1) none (M : PT K V (d + 1)) ∧
      h4.length = h.length + 1 ∧
      (∀ i, i < h.length → i ∉ PT.ids (d + 1) (n : PT K V (d + 1)) → h4[i]? = h[i]?) := by
  obtain ⟨hrec, hch⟩ := (Rep_succ_iff h d p n).mp hr
  simp only [node_split, Res.split.injEq] at e
  obtain ⟨e1, e2, e3⟩ := e
  have e1 : (_ : NodeR K (PT K V d)) = N := e1
  have e3 : (_ : NodeR K (PT K V d)) = M := e3
  subst e1 e2 e3
  rw [ids_succ, List.nodup_cons] at hn
  obtain ⟨hn1, hn2⟩ := hn
  have hlt : n.id < h.length := by
    by_contra hcon
    rw [List.getElem?_eq_none (by omega)] at hrec
    cases hrec
  have hmid : n.keys.length / 2 < n.keys.length := by omega
  have htd := idsL_take_drop d n.children (n.keys.length / 2 + 1)
  rw [← htd, List.nodup_append] at hn2
  obtain ⟨hn3, hn4, hdis⟩ := hn2
  -- the store before the loop over the moved children
  have hall : ∀ c ∈ n.children,
      Rep (h.set n.id ({ node_rec d p n with
              keys := n.keys.take (n.keys.length / 2),
              children := (n.children.map (PT.rid d)).take (n.keys.length / 2 + 1) }) ++
            [({ (new_internal_node : Node K V) with
              keys := n.keys.drop (n.keys.length / 2 + 1),
              children := (n.children.map (PT.rid d)).drop (n.keys.length / 2 + 1) })])
        d (some n.id) c := by
    intro c hcm1
    refine Rep_append _ _ d _ c ?_
    refine Rep_frame h _ d _ c (hch c hcm1) ?_
    intro i hi
    have hne : n.id ≠ i := by
      intro e
      exact hn1 ((mem_idsL d _ _).mpr ⟨c, hcm1, e ▸ hi⟩)
    rw [List.getElem?_set_ne hne]
  have hpre : ∀ c ∈ n.children.drop (n.keys.length / 2 + 1), ∃ q,
      Rep (h.set n.id ({ node_rec d p n with
              keys := n.keys.take (n.keys.length / 2),
              children := (n.children.map (PT.rid d)).take (n.keys.length / 2 + 1) }) ++
            [({ (new_internal_node : Node K V) with
              keys := n.keys.drop (n.keys.length / 2 + 1),
              children := (n.children.map (PT.rid d)).drop (n.keys.length / 2 + 1) })])
        d q c := fun c hcm => ⟨some n.id, hall c (List.mem_of_mem_drop hcm)⟩
  obtain ⟨h4, s1, s2, s3, s4⟩ := set_parents_spec h.length d _ _ hpre hn4
  refine ⟨h4, ?_, ?_, ?_, ?_, ?_⟩
  · rw [split_internal_log]
    have hkm : n.keys[n.keys.length / 2]? = some (n.keys.getD (n.keys.length / 2) k) := by
      rw [List.getD_eq_getElem?_getD, List.getElem?_eq_getElem hmid]
      rfl
    have hg : ¬ (n.children.map (PT.rid d)).length < n.keys.length / 2 + 1 := by
      rw [List.length_map]
      omega
    simp only [hrec, node_rec, hkm, hg, if_false]
    rw [List.map_drop] at s1
    simp only [node_rec] at s1
    rw [s1]
  · rw [Rep_succ_iff]
    refine ⟨?_, ?_⟩
    · have hnot : n.id ∉ (n.children.drop (n.keys.length / 2 + 1)).map (PT.rid d) := by
        intro hm
        apply hn1
        rw [← htd]
        exact List.mem_append_right _ (rid_mem_idsL d _ _ hm)
      rw [s4 _ hnot, List.getElem?_append_left (by rw [List.length_set]; exact hlt),
        List.getElem?_set_self hlt]
      simp only [node_rec, List.map_take]
    · intro c hcm
      have hcm1 : c ∈ n.children := List.mem_of_mem_take hcm
      refine Rep_frame _ h4 d _ c (hall c hcm1) ?_
      intro i hi
      refine s4 i ?_
      intro hm
      exact hdis ((mem_idsL d _ _).mpr ⟨c, hcm, hi⟩) (rid_mem_idsL d _ _ hm)
  · rw [Rep_succ_iff]
    refine ⟨?_, s3⟩
    have hnot : h.length ∉ (n.children.drop (n.keys.length / 2 + 1)).map (PT.rid d) := by
      intro hm
      obtain ⟨c, hcm, hce⟩ := List.mem_map.mp hm
      have := Rep_ids_lt h d _ c (hch c (List.mem_of_mem_drop hcm)) _ (rid_mem_ids d c)
      omega
    rw [s4 _ hnot]
    rw [getElem?_append_at _ _ _ (List.length_set _ _ _)]
    simp only [node_rec, new_internal_node, List.map_drop]
  · rw [s2]
    simp
  · intro i hi hnot
    rw [ids_succ, List.mem_cons, not_or] at hnot
    have hnm : i ∉ (n.children.drop (n.keys.length / 2 + 1)).map (PT.rid d) := by
      intro hm
      apply hnot.2
      rw [← htd]
      exact List.mem_append_right _ (rid_mem_idsL d _ _ hm)
    rw [s4 i hnm, List.getElem?_append_left (by rw [List.length_set]; exact hi),
      List.getElem?_set_ne (Ne.symm hnot.1)]

/-- The logged `insert_in_parent` below the root: the parent gains the key and the new
child; when that fills it, `split_internal` is called on it. -/
theorem iip_inner_log [LinearOrder K] (ORDER f r : Nat) (pk : K) (h1 : List (Node K V)) (d : Nat)
    (p : Option Nat) (id : Nat) (ks : List K) (A B : List (PT K V d)) (c l rt : PT K V d)
    (hrec : h1[id]? = some (node_rec d p ⟨id, ks, A ++ c :: B⟩))
    (hA : ∀ c1 ∈ A, Rep h1 d (some id) c1) (hB : ∀ c1 ∈ B, Rep h1 d (some id) c1)
    (hl : Rep h1 d (some id) l) (hrid : PT.rid d l = PT.rid d c)
    (hrt : Rep h1 d none rt)
    (hnd : (id :: (idsL d A ++ (PT.ids d l ++ PT.ids d rt) ++ idsL d B)).Nodup)
    (hlen : (A ++ c :: B).length = ks.length + 1)
    (hroot : r ≠ PT.rid d l) (log : List Event) :
    ∃ h2, insert_in_parent_log ORDER (f + 1) ⟨h1, some r⟩ (PT.rid d l) pk (PT.rid d rt) log =
        (if ORDER - 1 ≤ (node_ins d ⟨id, ks, A ++ c :: B⟩ A.length l pk rt).keys.length then
          split_internal_log ORDER f ⟨h2, some r⟩ id
            (log ++ [Event.place (PT.rid d l) (PT.rid d rt) (lower_bound ks pk)
              ((A ++ c :: B).map (PT.rid d))
              (insertAt ((A ++ c :: B).map (PT.rid d)) (lower_bound ks pk + 1) (PT.rid d rt))])
         else some (⟨h2, some r⟩,
            log ++ [Event.place (PT.rid d l) (PT.rid d rt) (lower_bound ks pk)
              ((A ++ c :: B).map (PT.rid d))
              (insertAt ((A ++ c :: B).map (PT.rid d)) (lower_bound ks pk + 1)
                (PT.rid d rt))])) ∧
      Rep h2 (d + 1) p (node_ins d ⟨id, ks, A ++ c :: B⟩ A.length l pk rt : PT K V (d + 1)) ∧
      h2.length = h1.length ∧
      (∀ i, i ≠ id → i ≠ PT.rid d rt → h2[i]? = h1[i]?) := by
  rw [List.nodup_cons] at hnd
  obtain ⟨hid, hnd1⟩ := hnd
  have hid_rt : id ∉ PT.ids d rt := fun hm =>
    hid (List.mem_append_left _ (List.mem_append_right _ (List.mem_append_right _ hm)))
  have hid_l : id ∉ PT.ids d l := fun hm =>
    hid (List.mem_append_left _ (List.mem_append_right _ (List.mem_append_left _ hm)))
  have hid_A : id ∉ idsL d A := fun hm =>
    hid (List.mem_append_left _ (List.mem_append_left _ hm))
  have hid_B : id ∉ idsL d B := fun hm => hid (List.mem_append_right _ hm)
  rw [List.nodup_append] at hnd1
  obtain ⟨hnd2, -, hdisB⟩ := hnd1
  rw [List.nodup_append] at hnd2
  obtain ⟨-, hnd3, hdisA⟩ := hnd2
  rw [List.nodup_append] at hnd3
  obtain ⟨-, hnrt, hdislr⟩ := hnd3
  have hlt : id < h1.length := by
    by_contra hcon
    rw [List.getElem?_eq_none (by omega)] at hrec
    cases hrec
  obtain ⟨m, hm, hmp, -⟩ := Rep_rid h1 d (some id) l hl
  have hlb := lower_bound_le ks pk
  -- the new sibling gets its parent pointer
  have hpre : ∀ c1 ∈ [rt], ∃ q,
      Rep (h1.set id ({ node_rec d p ⟨id, ks, A ++ c :: B⟩ with
          keys := insertAt ks (lower_bound ks pk) pk,
          children := insertAt ((A ++ c :: B).map (PT.rid d)) (lower_bound ks pk + 1)
            (PT.rid d rt) })) d q c1 := by
    intro c1 hc1
    rw [List.mem_singleton] at hc1
    subst hc1
    refine ⟨none, Rep_frame h1 _ d none c1 hrt ?_⟩
    intro i hi
    have hne : id ≠ i := fun e => hid_rt (e ▸ hi)
    rw [List.getElem?_set_ne hne]
  have hndrt : (([rt].map (PT.ids d)).flatten).Nodup := by simpa using hnrt
  obtain ⟨h2, s1, s2, s3, s4⟩ := set_parents_spec id d [rt] _ hpre hndrt
  have hframe : ∀ i, i ≠ id → i ≠ PT.rid d rt → h2[i]? = h1[i]? := by
    intro i hi1 hi2
    have hnm : i ∉ [rt].map (PT.rid d) := by simpa using hi2
    rw [s4 i hnm, List.getElem?_set_ne (Ne.symm hi1)]
  refine ⟨h2, ?_, ?_, ?_, hframe⟩
  · rw [insert_in_parent_log]
    have hne : ¬ (some r = some (PT.rid d l)) := by
      intro e
      exact hroot (Option.some.inj e)
    have hg : ¬ ((A ++ c :: B).map (PT.rid d)).length < lower_bound ks pk + 1 := by
      rw [List.length_map, hlen]
      omega
    simp only [hne, if_false, hm, hmp, hrec]
    simp only [node_rec, Bool.false_eq_true, if_false, hg]
    simp only [List.map_cons, List.map_nil, node_rec] at s1
    rw [s1]
    simp only [Node.is_full, node_ins, decide_eq_true_eq]
  · rw [Rep_succ_iff]
    refine ⟨?_, ?_⟩
    · have hnm : id ∉ [rt].map (PT.rid d) := by
        intro hmem
        simp only [List.map_cons, List.map_nil, List.mem_singleton] at hmem
        exact hid_rt (hmem ▸ rid_mem_ids d rt)
      have hid2 : (node_ins d ⟨id, ks, A ++ c :: B⟩ A.length l pk rt).id = id := rfl
      rw [hid2, s4 id hnm, List.getElem?_set_self hlt]
      simp only [node_rec, node_ins, set_at_index, map_insertAt, List.map_append, List.map_cons,
        hrid]
    · intro c1 hc1
      have hid2 : (node_ins d ⟨id, ks, A ++ c :: B⟩ A.length l pk rt).id = id := rfl
      rw [hid2]
      simp only [node_ins, set_at_index] at hc1
      rw [mem_insertAt] at hc1
      rcases hc1 with rfl | hc1
      · exact s3 c1 (List.mem_singleton_self _)
      · have key : Rep h1 d (some id) c1 ∧ id ∉ PT.ids d c1 ∧ PT.rid d rt ∉ PT.ids d c1 := by
          rcases List.mem_append.mp hc1 with hc2 | hc2
          · refine ⟨hA c1 hc2, fun hm => hid_A ((mem_idsL d _ _).mpr ⟨c1, hc2, hm⟩), ?_⟩
            intro hm
            exact hdisA ((mem_idsL d _ _).mpr ⟨c1, hc2, hm⟩)
              (List.mem_append_right _ (rid_mem_ids d rt))
          · rcases List.mem_cons.mp hc2 with rfl | hc3
            · exact ⟨hl, hid_l, fun hm => hdislr hm (rid_mem_ids d rt)⟩
            · refine ⟨hB c1 hc3, fun hm => hid_B ((mem_idsL d _ _).mpr ⟨c1, hc3, hm⟩), ?_⟩
              intro hm
              refine hdisB ?_ ((mem_idsL d _ _).mpr ⟨c1, hc3, hm⟩)
              exact List.mem_append_right _ (List.mem_append_right _ (rid_mem_ids d rt))
        obtain ⟨k1, k2, k3⟩ := key
        refine Rep_frame h1 h2 d _ c1 k1 ?_
        intro i hi
        exact hframe i (fun e => k2 (e ▸ hi)) (fun e => k3 (e ▸ hi))
  · rw [s2, List.length_set]

theorem up_step_leaf_log [LinearOrder K] (ORDER : Nat) (r : Nat) (k : K) (v : V)
    (l : LeafR K V) (h : List (Node K V)) (p : Option Nat) (f : Nat)
    (hr : Rep h 0 p (l : PT K V 0)) (hv : l.values.length = l.keys.length)
    (hsz : l.keys.length < ORDER - 1) (log : List Event) :
    ∃ h1 L, leaf_step_log ORDER f ⟨h, some r⟩ l.id k v log =
        up_call_log ORDER f r h1 l.id 0 (pins ORDER h.length k v 0 (l : PT K V 0)) (log ++ L) ∧
      (∀ e ∈ L, Event.split_ok ORDER e) ∧ (∀ e ∈ L, Event.place_ok e) ∧
      Res.Holds h1 0 p (pins ORDER h.length k v 0 (l : PT K V 0)) ∧
      h1.length + 1 = h.length + (Res.ids 0 (pins ORDER h.length k v 0 (l : PT K V 0))).length ∧
      (∀ i, i < h.length → i ≠ l.id → h1[i]? = h[i]?) := by
  have hrec : h[l.id]? = some (leaf_rec p l) := hr
  have hlt : l.id < h.length := by
    by_contra hcon
    rw [List.getElem?_eq_none (by omega)] at hrec
    cases hrec
  rw [pins_zero]
  by_cases hf : ORDER - 1 ≤ (leaf_ins k v l).keys.length
  · simp only [hf, if_true]
    refine ⟨h.set l.id (leaf_rec p
        (⟨l.id, (leaf_ins k v l).keys.take ((leaf_ins k v l).keys.length / 2),
          (leaf_ins k v l).values.take ((leaf_ins k v l).keys.length / 2), some h.length⟩ :
          LeafR K V)) ++
      [leaf_rec none (⟨h.length, (leaf_ins k v l).keys.drop ((leaf_ins k v l).keys.length / 2),
          (leaf_ins k v l).values.drop ((leaf_ins k v l).keys.length / 2), l.next⟩ :
          LeafR K V)], [Event.leaf_split l.id (leaf_ins k v l).keys.length], ?_, ?_, ?_, ?_, ?_, ?_⟩
    · exact leaf_step_split_log ORDER f r k v h p l hrec hv hf _ _ _ rfl log
    · intro e he
      rw [List.mem_singleton] at he
      subst he
      have := leaf_ins_keys_length k v l
      show (leaf_ins k v l).keys.length = ORDER - 1
      omega
    · intro e he
      rw [List.mem_singleton] at he
      subst he
      exact trivial
    · simp only [leaf_split, Res.Holds]
      refine ⟨?_, ?_⟩
      · rw [Rep_zero_iff]
        rw [List.getElem?_append_left (by rw [List.length_set]; exact hlt)]
        exact List.getElem?_set_self hlt
      · rw [Rep_zero_iff]
        exact getElem?_append_at _ _ _ (List.length_set _ _ _)
    · simp [leaf_split, Res.ids, PT.ids]
    · intro i hi hne
      rw [List.getElem?_append_left (by rw [List.length_set]; exact hi),
        List.getElem?_set_ne (Ne.symm hne)]
  · simp only [hf, if_false]
    refine ⟨h.set l.id (leaf_rec p (leaf_ins k v l)), [], ?_, ?_, ?_, ?_, ?_, ?_⟩
    · rw [List.append_nil]
      exact leaf_step_done_log ORDER f r k v h p l hrec hv hf log
    · intro e he
      cases he
    · intro e he
      cases he
    · show Rep _ 0 p _
      rw [Rep_zero_iff]
      exact List.getElem?_set_self hlt
    · simp [Res.ids, PT.ids]
    · intro i _ hne
      rw [List.getElem?_set_ne (Ne.symm hne)]

/-- A placement at the position of the old node puts the new node right behind it. -/
theorem place_event_ok (A B : List Nat) (x y : Nat) :
    Event.place_ok (Event.place x y A.length (A ++ x :: B)
      (insertAt (A ++ x :: B) (A.length + 1) y)) := by
  refine ⟨?_, rfl, ?_, ?_⟩
  · rw [getElem?_mid]
    simp
  · rw [insertAt_mid, getElem?_mid]
    simp
  · rw [insertAt_mid]
    have h1 : A ++ x :: y :: B = (A ++ [x]) ++ y :: B := by simp
    have h2 : A.length + 1 = (A ++ [x]).length := by simp
    rw [h1, h2, getElem?_mid]
    simp

/-- The logged run of `insert` from the located leaf up to the top of a subtree `t`
does on the store what `pins` does on `t`, and leaves the call to make on the
node above, if any; every split it logs is made on a node with `ORDER - 1`
keys, and for a new key in an ordered tree every placement it logs is made at
the position of the split node. -/
theorem up_step_log [LinearOrder K] (ORDER : Nat) (r : Nat) (k : K) (v : V) :
    ∀ (d : Nat) (t : PT K V d) (h : List (Node K V)) (p : Option Nat) (f : Nat)
      (log : List Event),
      Rep h d p t → (PT.ids d t).Nodup → WF ORDER d t → r ∉ (PT.ids d t).tail →
      ∃ h1 L, leaf_step_log ORDER (f + 2 * d) ⟨h, some r⟩ (pleaf k d t).id k v log =
          up_call_log ORDER f r h1 (PT.rid d t) d (pins ORDER h.length k v d t) (log ++ L) ∧
        Res.Holds h1 d p (pins ORDER h.length k v d t) ∧
        h1.length + (PT.ids d t).length =
          h.length + (Res.ids d (pins ORDER h.length k v d t)).length ∧
        (∀ i, i < h.length → i ∉ PT.ids d t → h1[i]? = h[i]?) ∧
        (∀ e ∈ L, Event.split_ok ORDER e) ∧
        ((PT.pkeys d t).Sorted (· < ·) → SepMin d t → k ∉ PT.pkeys d t →
          ∀ e ∈ L, Event.place_ok e)
  | 0, l, h, p, f, log, hr, _, hwf, _ => by
    obtain ⟨h1, L, e1, g1, g2, e2, e3, e4⟩ :=
      up_step_leaf_log ORDER r k v l h p f hr ((WF_zero_iff ORDER l).mp hwf).1
        ((WF_zero_iff ORDER l).mp hwf).2.2.1 log
    refine ⟨h1, L, e1, e2, e3, ?_, g1, fun _ _ _ => g2⟩
    intro i hi hni
    refine e4 i hi ?_
    intro e
    exact hni (by simp [PT.ids, e])
  | d + 1, n, h, p, f, log, hr, hnd, hwf, hroot => by
    obtain ⟨id, ks, cs⟩ := n
    obtain ⟨hrec, hch⟩ := (Rep_succ_iff h d p _).mp hr
    obtain ⟨hlen, hsz, hsorted, hwfc⟩ := (WF_succ_iff ORDER d _).mp hwf
    simp only at hrec hch hlen hsz hsorted hwfc
    have hlb := lower_bound_le ks k
    have hi : lower_bound ks k < cs.length := by omega
    have hc : cs[lower_bound ks k]? = some cs[lower_bound ks k] := List.getElem?_eq_getElem hi
    generalize cs[lower_bound ks k] = c at hc
    obtain ⟨A, B, hAB, hAlen⟩ := split_at_index _ _ _ hc
    subst hAB
    have hcmem : c ∈ A ++ c :: B := List.mem_append_right _ (List.mem_cons_self _ _)
    obtain ⟨hndc, hidc⟩ := nodup_child d ⟨id, ks, A ++ c :: B⟩ hnd c hcmem
    simp only at hidc
    have hlt_all : ∀ i ∈ PT.ids (d + 1) ((⟨id, ks, A ++ c :: B⟩ : NodeR K (PT K V d)) :
        PT K V (d + 1)), i < h.length := Rep_ids_lt h (d + 1) p _ hr
    have hidlt : id < h.length := hlt_all id (by rw [ids_succ]; exact List.mem_cons_self _ _)
    -- the unfolded node
    have hnd0 := hnd
    rw [ids_succ, List.nodup_cons] at hnd
    obtain ⟨hid, hndL⟩ := hnd
    simp only [idsL_append, idsL_cons] at hid hndL
    have hrootc : r ∉ PT.ids d c := by
      intro hm
      apply hroot
      rw [ids_succ, List.tail_cons]
      exact (mem_idsL d _ _).mpr ⟨c, hcmem, hm⟩
    -- induction hypothesis on the child
    obtain ⟨h1, L1, e1, e2, e3, e4, g1, g2⟩ := up_step_log ORDER r k v d c h (some id) (f + 2) log
      (hch c hcmem) hndc (hwfc c hcmem) (fun hm => hrootc (List.mem_of_mem_tail hm))
    -- the order of the child
    have hord : (PT.pkeys (d + 1)
          ((⟨id, ks, A ++ c :: B⟩ : NodeR K (PT K V d)) : PT K V (d + 1))).Sorted (· < ·) →
        SepMin (d + 1) ((⟨id, ks, A ++ c :: B⟩ : NodeR K (PT K V d)) : PT K V (d + 1)) →
        k ∉ PT.pkeys (d + 1) ((⟨id, ks, A ++ c :: B⟩ : NodeR K (PT K V d)) : PT K V (d + 1)) →
        ∀ e ∈ L1, Event.place_ok e := by
      intro hs hsm hk
      exact g2 (sorted_child d _ hs c hcmem) (((SepMin_succ_iff d _).mp hsm).2 c hcmem)
        (fun hm => hk ((mem_pkeys_succ d _ k).mpr ⟨c, hcmem, hm⟩))
    obtain ⟨p1, ⟨m, hm, p2⟩, p3⟩ := pins_ids ORDER h.length k v d c
    have hfuel : f + 2 * (d + 1) = f + 2 + 2 * d := by omega
    rw [pleaf_succ k d _ c hc, pins_succ ORDER h.length k v d _ c hc, hfuel, e1]
    simp only
    rw [← hAlen]
    -- siblings are untouched by the run below `c`
    have hsibA : ∀ c1 ∈ A, Rep h1 d (some id) c1 := by
      intro c1 hc1
      refine Rep_frame h h1 d _ c1 (hch c1 (List.mem_append_left _ hc1)) ?_
      intro i hi1
      have hiA : i ∈ idsL d A := (mem_idsL d _ _).mpr ⟨c1, hc1, hi1⟩
      refine e4 i (hlt_all i ?_) ?_
      · rw [ids_succ]
        simp only [idsL_append, idsL_cons]
        exact List.mem_cons_of_mem _ (List.mem_append_left _ hiA)
      · intro hic
        rw [List.nodup_append] at hndL
        exact hndL.2.2 hiA (List.mem_append_left _ hic)
    have hsibB : ∀ c1 ∈ B, Rep h1 d (some id) c1 := by
      intro c1 hc1
      refine Rep_frame h h1 d _ c1
        (hch c1 (List.mem_append_right _ (List.mem_cons_of_mem _ hc1))) ?_
      intro i hi1
      have hiB : i ∈ idsL d B := (mem_idsL d _ _).mpr ⟨c1, hc1, hi1⟩
      refine e4 i (hlt_all i ?_) ?_
      · rw [ids_succ]
        simp only [idsL_append, idsL_cons]
        exact List.mem_cons_of_mem _ (List.mem_append_right _ (List.mem_append_right _ hiB))
      · intro hic
        rw [List.nodup_append] at hndL
        have h3 := hndL.2.1
        rw [List.nodup_append] at h3
        exact h3.2.2 hic hiB
    have hrec1 : h1[id]? = some (node_rec d p ⟨id, ks, A ++ c :: B⟩) := by
      rw [e4 id hidlt hidc]
      exact hrec
    cases hp : pins ORDER h.length k v d c with
    | done c1 =>
      rw [hp] at e2 e3 p1 p2
      simp only [Res.Holds, Res.rid, Res.ids] at e2 e3 p1 p2
      simp only [pins_node, set_at_index, up_call_log]
      refine ⟨h1, L1, rfl, ?_, ?_, ?_, g1, hord⟩
      · show Rep h1 (d + 1) p _
        rw [Rep_succ_iff]
        refine ⟨?_, ?_⟩
        · rw [hrec1]
          simp only [node_rec, List.map_append, List.map_cons, p1]
        · intro c2 hc2
          rcases List.mem_append.mp hc2 with hc3 | hc3
          · exact hsibA c2 hc3
          · rcases List.mem_cons.mp hc3 with rfl | hc4
            · exact e2
            · exact hsibB c2 hc4
      · simp only [Res.ids]
        rw [ids_length_succ, ids_length_succ]
        omega
      · intro i hi1 hi2
        refine e4 i hi1 ?_
        intro hic
        apply hi2
        rw [ids_succ]
        exact List.mem_cons_of_mem _ ((mem_idsL d _ _).mpr ⟨c, hcmem, hic⟩)
    | split l pk rt =>
      rw [hp] at e2 e3 p1
      simp only [Res.Holds, Res.rid, Res.ids] at e2 e3 p1
      obtain ⟨hl, hrt⟩ := e2
      obtain ⟨hridrt, hperm⟩ := p3 l pk rt hp
      have hplen := hperm.length_eq
      simp only [List.length_append, List.length_range'] at hplen e3
      have hh1 : h1.length = h.length + d + 1 := by omega
      -- all addresses of the enlarged node
      have hbig : (id :: (idsL d A ++ (PT.ids d l ++ PT.ids d rt) ++ idsL d B)).Perm
          (PT.ids (d + 1) ((⟨id, ks, A ++ c :: B⟩ : NodeR K (PT K V d)) : PT K V (d + 1)) ++
            List.range' h.length (d + 1)) := by
        rw [ids_succ, List.perm_iff_count]
        intro a
        have q1 := hperm.count_eq a
        simp only [idsL_append, idsL_cons, List.count_append, count_cons_add] at q1 ⊢
        omega
      have hbignd : (id :: (idsL d A ++ (PT.ids d l ++ PT.ids d rt) ++ idsL d B)).Nodup :=
        (List.Perm.nodup_iff hbig).mpr (nodup_append_range _ _ _ hnd0 hlt_all)
      have hrootl : r ≠ PT.rid d l := by
        rw [p1]
        intro e
        exact hrootc (e ▸ rid_mem_ids d c)
      obtain ⟨h2, s1, s2, s3, s4⟩ := iip_inner_log ORDER (f + 1) r pk h1 d p id ks A B c l rt
        hrec1 hsibA hsibB hl p1 hrt hbignd hlen hrootl (log ++ L1)
      -- the placement that is logged
      have hgp : (PT.pkeys (d + 1)
            ((⟨id, ks, A ++ c :: B⟩ : NodeR K (PT K V d)) : PT K V (d + 1))).Sorted (· < ·) →
          SepMin (d + 1) ((⟨id, ks, A ++ c :: B⟩ : NodeR K (PT K V d)) : PT K V (d + 1)) →
          k ∉ PT.pkeys (d + 1)
            ((⟨id, ks, A ++ c :: B⟩ : NodeR K (PT K V d)) : PT K V (d + 1)) →
          Event.place_ok (Event.place (PT.rid d l) (PT.rid d rt) (lower_bound ks pk)
            ((A ++ c :: B).map (PT.rid d))
            (insertAt ((A ++ c :: B).map (PT.rid d)) (lower_bound ks pk + 1)
              (PT.rid d rt))) := by
        intro hs hsm hk
        have hj := placement_index ORDER h.length k v d id ks A B c hwf hs hsm hk hAlen
          l pk rt hp
        rw [hj, p1]
        have hmap : (A ++ c :: B).map (PT.rid d) =
            A.map (PT.rid d) ++ PT.rid d c :: B.map (PT.rid d) := by simp
        have hlm : A.length = (A.map (PT.rid d)).length := by simp
        rw [hmap, hlm]
        exact place_event_ok _ _ _ _
      have hframe2 : ∀ i, i < h.length →
          i ∉ PT.ids (d + 1) ((⟨id, ks, A ++ c :: B⟩ : NodeR K (PT K V d)) : PT K V (d + 1)) →
          h2[i]? = h[i]? := by
        intro i hi1 hi2
        have hne1 : i ≠ id := by
          intro e
          apply hi2
          rw [ids_succ, e]
          exact List.mem_cons_self _ _
        have hne2 : i ≠ PT.rid d rt := by
          rw [hridrt]
          omega
        rw [s4 i hne1 hne2]
        refine e4 i hi1 ?_
        intro hic
        apply hi2
        rw [ids_succ]
        exact List.mem_cons_of_mem _ ((mem_idsL d _ _).mpr ⟨c, hcmem, hic⟩)
      have hnilen := (node_ins_ids d A B c l rt id ks pk).length_eq
      simp only [List.length_cons, List.length_append] at hnilen
      simp only [up_call_log]
      rw [← p1, show f + 2 = f + 1 + 1 from rfl, s1]
      simp only [pins_node]
      by_cases hf : ORDER - 1 ≤ (node_ins d ⟨id, ks, A ++ c :: B⟩ A.length l pk rt).keys.length
      · simp only [hf, if_true]
        have hndni : (PT.ids (d + 1) (node_ins d ⟨id, ks, A ++ c :: B⟩ A.length l pk rt :
            PT K V (d + 1))).Nodup :=
          (List.Perm.nodup_iff (node_ins_ids d A B c l rt id ks pk)).mpr hbignd
        have hclen : (node_ins d ⟨id, ks, A ++ c :: B⟩ A.length l pk rt).children.length =
            (node_ins d ⟨id, ks, A ++ c :: B⟩ A.length l pk rt).keys.length + 1 := by
          simp only [node_ins, length_insertAt, List.length_set]
          omega
        have hklen : 1 ≤ (node_ins d ⟨id, ks, A ++ c :: B⟩ A.length l pk rt).keys.length := by
          simp only [node_ins, length_insertAt]
          omega
        have hh2 : h.length + d + 1 = h2.length := by omega
        rw [hh2]
        obtain ⟨h4, u1, u2, u3, u4, u5⟩ := split_internal_spec_log ORDER f (some r) k h2 d p
          (node_ins d ⟨id, ks, A ++ c :: B⟩ A.length l pk rt) s2 hndni hclen hklen _ _ _ rfl
          (log ++ L1 ++ [Event.place (PT.rid d l) (PT.rid d rt) (lower_bound ks pk)
            ((A ++ c :: B).map (PT.rid d))
            (insertAt ((A ++ c :: B).map (PT.rid d)) (lower_bound ks pk + 1) (PT.rid d rt))])
        refine ⟨h4, L1 ++ [Event.place (PT.rid d l) (PT.rid d rt) (lower_bound ks pk)
            ((A ++ c :: B).map (PT.rid d))
            (insertAt ((A ++ c :: B).map (PT.rid d)) (lower_bound ks pk + 1) (PT.rid d rt)),
          Event.internal_split id
            (node_ins d ⟨id, ks, A ++ c :: B⟩ A.length l pk rt).keys.length],
          ?_, ?_, ?_, ?_, ?_, ?_⟩
        · rw [show ∀ (x y : Event), log ++ (L1 ++ [x, y]) = log ++ L1 ++ [x] ++ [y] from
            fun x y => by simp]
          exact u1
        · exact ⟨u2, u3⟩
        · have hsl := (@node_split_ids_perm K V h2.length k d
            (node_ins d ⟨id, ks, A ++ c :: B⟩ A.length l pk rt)).length_eq
          simp only [List.length_append, List.length_singleton] at hsl
          rw [hsl, hnilen, ids_length_succ]
          omega
        · intro i hi1 hi2
          rw [u5 i (by omega) ?_, hframe2 i hi1 hi2]
          intro hmem
          have hmem2 := (node_ins_ids d A B c l rt id ks pk).mem_iff.mp hmem
          have hmem3 := hbig.mem_iff.mp hmem2
          rcases List.mem_append.mp hmem3 with hm1 | hm1
          · exact hi2 hm1
          · rw [List.mem_range'_1] at hm1
            omega
        · intro e he
          simp only [List.mem_append, List.mem_cons, List.mem_singleton, List.not_mem_nil,
            or_false] at he
          rcases he with he | rfl | rfl
          · exact g1 e he
          · exact trivial
          · show (node_ins d ⟨id, ks, A ++ c :: B⟩ A.length l pk rt).keys.length = ORDER - 1
            have hkl : (node_ins d ⟨id, ks, A ++ c :: B⟩ A.length l pk rt).keys.length =
                ks.length + 1 := by
              simp only [node_ins, length_insertAt]
            omega
        · intro hs hsm hk e he
          simp only [List.mem_append, List.mem_cons, List.mem_singleton, List.not_mem_nil,
            or_false] at he
          rcases he with he | rfl | rfl
          · exact hord hs hsm hk e he
          · exact hgp hs hsm hk
          · exact trivial
      · simp only [hf, if_false, up_call_log]
        refine ⟨h2, L1 ++ [Event.place (PT.rid d l) (PT.rid d rt) (lower_bound ks pk)
            ((A ++ c :: B).map (PT.rid d))
            (insertAt ((A ++ c :: B).map (PT.rid d)) (lower_bound ks pk + 1) (PT.rid d rt))],
          by rw [List.append_assoc], s2, ?_, hframe2, ?_, ?_⟩
        · simp only [Res.ids]
          rw [hnilen, ids_length_succ]
          omega
        · intro e he
          simp only [List.mem_append, List.mem_singleton] at he
          rcases he with he | rfl
          · exact g1 e he
          · exact trivial
        · intro hs hsm hk e he
          simp only [List.mem_append, List.mem_singleton] at he
          rcases he with he | rfl
          · exact hord hs hsm hk e he
          · exact hgp hs hsm hk

theorem insert_eq_leaf_step_log [LinearOrder K] (ORDER : Nat) (h : List (Node K V))
    (r leaf : Nat) (k : K) (v : V) (log : List Event)
    (hf : find_leaf_loop h k h.length r = some leaf) :
    insert_log ORDER ⟨h, some r⟩ k v log =
      leaf_step_log ORDER (2 * h.length + 2) ⟨h, some r⟩ leaf k v log := by
  unfold insert_log leaf_step_log
  simp only [find_leaf, hf, Option.map_some']

/-- One logged `insert` on a store that holds a tree returns; every split it
logs is made on a node with `ORDER - 1` keys, and for a new key in an ordered
tree every placement it logs is made at the position of the split node. -/
theorem insert_log_spec [LinearOrder K] (ORDER : Nat) (k : K) (v : V) (T : BPlusTree K V)
    (s : Option (AT K V)) (ha : Abs T s) (hwf : WFs ORDER s) (log : List Event) :
    ∃ T1 L, insert_log ORDER T k v log = some (T1, log ++ L) ∧
      (∀ e ∈ L, Event.split_ok ORDER e) ∧
      (Ordered s → k ∉ ppkeys s → ∀ e ∈ L, Event.place_ok e) := by
  cases s with
  | none =>
    have hT : T = empty := ha
    subst hT
    refine ⟨⟨[{ (new_leaf_node : Node K V) with keys := [k], values := [v] }], some 0⟩, [],
      ?_, ?_, ?_⟩
    · rw [List.append_nil]
      rfl
    · intro e he
      cases he
    · intro _ _ e he
      cases he
  | some s =>
    obtain ⟨d, t⟩ := s
    obtain ⟨hroot, hrep, hperm⟩ := ha
    obtain ⟨h, ro⟩ := T
    simp only at hroot hrep hperm
    subst hroot
    have hwf1 : WF ORDER d t := hwf
    have hnd : (PT.ids d t).Nodup := (List.Perm.nodup_iff hperm).mpr (List.nodup_range _)
    have hlen : (PT.ids d t).length = h.length := by
      rw [hperm.length_eq, List.length_range]
    have hd := height_lt_ids ORDER d t hwf1
    have hfl := find_leaf_loop_spec ORDER k h d t none h.length hrep hwf1 (by omega)
    rw [insert_eq_leaf_step_log ORDER h _ _ k v log hfl]
    have hroot : PT.rid d t ∉ (PT.ids d t).tail := by
      intro hm
      cases d with
      | zero => simp [PT.ids] at hm
      | succ d =>
        obtain ⟨id, ks, cs⟩ := t
        rw [ids_succ, List.nodup_cons] at hnd
        rw [ids_succ, List.tail_cons] at hm
        exact hnd.1 hm
    obtain ⟨f, hf⟩ : ∃ f, 2 * h.length + 2 = f + 1 + 2 * d := ⟨2 * h.length + 1 - 2 * d, by omega⟩
    rw [hf]
    obtain ⟨h1, L, e1, e2, e3, e4, g1, g2⟩ :=
      up_step_log ORDER (PT.rid d t) k v d t h none (f + 1) log hrep hnd hwf1 hroot
    obtain ⟨p1, ⟨m, hm, p2⟩, p3⟩ := pins_ids ORDER h.length k v d t
    have hg2 : Ordered (some ⟨d, t⟩) → k ∉ ppkeys (some ⟨d, t⟩) → ∀ e ∈ L, Event.place_ok e :=
      fun ho hk => g2 ho.1 ho.2.1 hk
    rw [e1]
    cases hp : pins ORDER h.length k v d t with
    | done t1 =>
      exact ⟨⟨h1, some (PT.rid d t)⟩, L, rfl, g1, hg2⟩
    | split l pk rt =>
      rw [hp] at e2 e3 p1
      simp only [Res.Holds, Res.rid, Res.ids] at e2 e3 p1
      obtain ⟨hl, hrt⟩ := e2
      obtain ⟨hridrt, hperm2⟩ := p3 l pk rt hp
      have hnd2 : (PT.ids d l ++ PT.ids d rt).Nodup :=
        (List.Perm.nodup_iff hperm2).mpr
          (nodup_append_range _ _ _ hnd (Rep_ids_lt h d none t hrep))
      obtain ⟨h2, u1, -, -⟩ :=
        iip_root_log ORDER f (PT.rid d t) pk h1 d none l rt hl hrt p1 hnd2 (log ++ L)
      exact ⟨⟨h2, some h1.length⟩, L, u1, g1, hg2⟩

/-- The tree a logged `insert` returns is the tree `insert` returns. -/
theorem insert_log_fst [LinearOrder K] (ORDER : Nat) (k : K) (v : V) (T T1 : BPlusTree K V)
    (log log1 : List Event) (h : insert_log ORDER T k v log = some (T1, log1)) :
    insert ORDER T k v = some T1 := by
  rw [← insert_log_erase ORDER T k v log, h]
  rfl

/-- A logged run of `insert` calls on a store that holds a tree returns, with
the tree of the run itself; every split it logs is made on a node with
`ORDER - 1` keys, and when the keys are new and pairwise distinct and the tree
is ordered, every placement it logs is made at the position of the split node. -/
theorem insert_list_log_spec [LinearOrder K] (ORDER : Nat) (hO : 3 ≤ ORDER) :
    ∀ (xs : List (K × V)) (T : BPlusTree K V) (s : Option (AT K V)) (log : List Event),
      Abs T s → WFs ORDER s →
      ∃ T1 L, insert_list_log ORDER T xs log = some (T1, log ++ L) ∧
        insert_list ORDER T xs = some T1 ∧
        (∀ e ∈ L, Event.split_ok ORDER e) ∧
        (Ordered s → (xs.map Prod.fst).Nodup → (∀ x ∈ xs.map Prod.fst, x ∉ ppkeys s) →
          ∀ e ∈ L, Event.place_ok e)
  | [], T, s, log, _, _ => by
    refine ⟨T, [], ?_, rfl, ?_, ?_⟩
    · rw [List.append_nil]
      rfl
    · intro e he
      cases he
    · intro _ _ _ e he
      cases he
  | (k, v) :: rest, T, s, log, ha, hwf => by
    obtain ⟨T1, L1, e1, g1, g2⟩ := insert_log_spec ORDER k v T s ha hwf log
    have e1p := insert_log_fst ORDER k v T T1 log _ e1
    obtain ⟨T1a, e1a, a1⟩ := insert_refines ORDER k v T s ha hwf
    rw [e1p] at e1a
    cases e1a
    have hwf1 := pinsert_WF ORDER hO k v s hwf
    obtain ⟨T2, L2, e2, e2p, g3, g4⟩ :=
      insert_list_log_spec ORDER hO rest T1 _ (log ++ L1) a1 hwf1
    refine ⟨T2, L1 ++ L2, ?_, ?_, ?_, ?_⟩
    · simp only [insert_list_log, e1]
      rw [e2, List.append_assoc]
    · simp only [insert_list, e1p]
      exact e2p
    · intro e he
      rcases List.mem_append.mp he with he | he
      · exact g1 e he
      · exact g3 e he
    · intro ho hnd hnew e he
      simp only [List.map_cons, List.nodup_cons] at hnd
      have hk : k ∉ ppkeys s := hnew k (by simp)
      rcases List.mem_append.mp he with he | he
      · exact g2 ho hk e he
      · refine g4 (pinsert_Ordered ORDER k v s hwf ho hk) hnd.2 ?_ e he
        intro x hx hmem
        rw [ppkeys_eq_pentries ORDER _ hwf1] at hmem
        have hp := (pinsert_entries ORDER k v s hwf).map Prod.fst
        have hmem2 := hp.mem_iff.mp hmem
        simp only [List.map_cons, List.mem_cons] at hmem2
        rcases hmem2 with e | hmem2
        · exact hnd.1 (e ▸ hx)
        · rw [← ppkeys_eq_pentries ORDER _ hwf] at hmem2
          exact hnew x (by simp [hx]) hmem2

/-- The logged run of the driver `main`: the leaf `[3, 5, 7]` and the leaf
`[5, 7, 9]` are split, and the second new leaf is placed behind the old one,
child 1 of the root. -/
theorem build_log_demo5 :
    build_log 4 [(5, "sapo5"), (3, "perro3"), (7, "pato7"), (1, "gato1"), (9, "conejo9")] =
      some (demo5, [Event.leaf_split 0 3, Event.leaf_split 1 3,
        Event.place 1 3 1 [0, 1] [0, 1, 3]]) := by
  simp [build_log, insert_list_log, insert_log, empty, find_leaf, find_leaf_loop, lower_bound,
    insertAt, Node.is_full, split_leaf_log, insert_in_parent_log, split_internal_log,
    set_parents, new_leaf_node, new_internal_node, demo5, demo_leaf, demo_internal]

/-- C16: for every `ORDER >= 3` and every run of `insert` calls with pairwise
distinct keys on the empty tree: whenever `insert_in_parent` is called during
the run for a node `old_node` that has a parent, the lower-bound position
`index` of the promoted key among the parent's keys is the position of
`old_node` in the parent's `children`, and after the insertion `new_node` is at
position `index + 1`, right behind `old_node`. -/
theorem placement_behind_old_node [LinearOrder K] (ORDER : Nat) (hO : 3 ≤ ORDER)
    (xs : List (K × V)) (hnd : (xs.map Prod.fst).Nodup) :
    ∃ T log, build_log ORDER xs = some (T, log) ∧ build ORDER xs = some T ∧
      ∀ (old_node new_node index : Nat) (before after : List Nat),
        Event.place old_node new_node index before after ∈ log →
          before[index]? = some old_node ∧ after = insertAt before (index + 1) new_node ∧
          after[index]? = some old_node ∧ after[index + 1]? = some new_node := by
  obtain ⟨T, L, e1, e2, -, g⟩ :=
    insert_list_log_spec ORDER hO xs (empty : BPlusTree K V) none [] rfl trivial
  refine ⟨T, L, by simpa using e1, e2, ?_⟩
  intro old_node new_node index before after he
  have h := g trivial hnd (fun _ _ hm => by simp [ppkeys] at hm) _ he
  exact h

theorem placement_behind_old_node_witness :
    (3 ≤ 4 ∧ ([((5 : Nat), "sapo5"), (3, "perro3"), (7, "pato7"), (1, "gato1"),
        (9, "conejo9")].map Prod.fst).Nodup) ∧
    ∃ T log, build_log 4 [((5 : Nat), "sapo5"), (3, "perro3"), (7, "pato7"), (1, "gato1"),
        (9, "conejo9")] = some (T, log) ∧
      build 4 [((5 : Nat), "sapo5"), (3, "perro3"), (7, "pato7"), (1, "gato1"),
        (9, "conejo9")] = some T ∧
      ∀ (old_node new_node index : Nat) (before after : List Nat),
        Event.place old_node new_node index before after ∈ log →
          before[index]? = some old_node ∧ after = insertAt before (index + 1) new_node ∧
          after[index]? = some old_node ∧ after[index + 1]? = some new_node :=
  ⟨⟨by decide, by decide⟩,
    placement_behind_old_node 4 (by decide)
      [((5 : Nat), "sapo5"), (3, "perro3"), (7, "pato7"), (1, "gato1"), (9, "conejo9")]
      (by decide)⟩

/-- C19: for every `ORDER >= 3` and every run of `insert` calls on the empty
tree, with distinct keys or not: when the run has returned, every leaf holds
at least 1 and at most `ORDER - 2` keys and every internal node at most
`ORDER - 2` keys, so that no node holds `ORDER - 1` keys; and every call of
`split_leaf` or `split_internal` made during the run was made on a node that
held exactly `ORDER - 1` keys. -/
theorem occupancy_at_rest [LinearOrder K] (ORDER : Nat) (hO : 3 ≤ ORDER) (xs : List (K × V)) :
    ∃ T log, build_log ORDER xs = some (T, log) ∧ build ORDER xs = some T ∧
      (∀ (a : Nat) (n : Node K V), T.heap[a]? = some n →
        (n.is_leaf = true → 1 ≤ n.keys.length ∧ n.keys.length ≤ ORDER - 2) ∧
        (n.is_leaf = false → n.keys.length ≤ ORDER - 2) ∧
        n.keys.length ≠ ORDER - 1) ∧
      (∀ leaf size, Event.leaf_split leaf size ∈ log → size = ORDER - 1) ∧
      (∀ node size, Event.internal_split node size ∈ log → size = ORDER - 1) := by
  obtain ⟨T, L, e1, e2, g, -⟩ :=
    insert_list_log_spec ORDER hO xs (empty : BPlusTree K V) none [] rfl trivial
  obtain ⟨T0, hb, ha, hwf⟩ := build_refines ORDER hO xs
  have hT : T0 = T := by
    have e3 : build ORDER xs = some T := e2
    rw [hb] at e3
    exact Option.some.inj e3
  subst hT
  refine ⟨T0, L, by simpa using e1, e2, ?_, ?_, ?_⟩
  · intro a n hn
    rcases record_cases ORDER T0 _ ha hwf a n hn with ⟨p, l, rfl, hl⟩ | ⟨d, p, m, rfl, hm⟩
    · obtain ⟨-, h2, h3, -⟩ := (WF_zero_iff ORDER l).mp hl
      simp only [leaf_rec, Bool.true_eq_false, false_implies, true_and, forall_const]
      omega
    · obtain ⟨-, h2, -, -⟩ := (WF_succ_iff ORDER d m).mp hm
      simp only [node_rec, Bool.false_eq_true, false_implies, true_and, forall_const]
      omega
  · intro leaf size he
    exact g _ he
  · intro node size he
    exact g _ he

theorem occupancy_at_rest_witness :
    3 ≤ 4 ∧
    ∃ T log, build_log 4 [((5 : Nat), "sapo5"), (3, "perro3"), (7, "pato7")] = some (T, log) ∧
      build 4 [((5 : Nat), "sapo5"), (3, "perro3"), (7, "pato7")] = some T ∧
      (∀ (a : Nat) (n : Node Nat String), T.heap[a]? = some n →
        (n.is_leaf = true → 1 ≤ n.keys.length ∧ n.keys.length ≤ 4 - 2) ∧
        (n.is_leaf = false → n.keys.length ≤ 4 - 2) ∧
        n.keys.length ≠ 4 - 1) ∧
      (∀ leaf size, Event.leaf_split leaf size ∈ log → size = 4 - 1) ∧
      (∀ node size, Event.internal_split node size ∈ log → size = 4 - 1) :=
  ⟨by decide, occupancy_at_rest 4 (by decide)
    [((5 : Nat), "sapo5"), (3, "perro3"), (7, "pato7")]⟩

/-! ## The leaves of a tree after an insertion, for every key -/

theorem leavesL_insertAt (d : Nat) (cs : List (PT K V d)) (i : Nat) (x : PT K V d) :
    (leavesL d (insertAt cs i x)).Perm (PT.leaves d x ++ leavesL d cs) := by
  unfold insertAt
  rw [leavesL_append, leavesL_cons]
  have h1 : (leavesL d (List.take i cs) ++ (PT.leaves d x ++ leavesL d (List.drop i cs))).Perm
      (PT.leaves d x ++ (leavesL d (List.take i cs) ++ leavesL d (List.drop i cs))) := by
    rw [← List.append_assoc, ← List.append_assoc]
    exact List.Perm.append_right _ List.perm_append_comm
  rw [← leavesL_append, List.take_append_drop] at h1
  exact h1

theorem leaves_ne_nil [LinearOrder K] (ORDER : Nat) (d : Nat) (t : PT K V d)
    (hwf : WF ORDER d t) : PT.leaves d t ≠ [] := by
  intro e
  apply pkeys_ne_nil ORDER d t hwf
  simp only [PT.pkeys, e, keysL_nil]

/-- An insertion changes the leaf it reaches and no other: the leaves
afterwards are the leaves before, with the leaf reached replaced by what the
insertion makes of it, up to their order. -/
theorem pins_leaves_perm [LinearOrder K] (ORDER fresh : Nat) (k : K) (v : V) :
    ∀ (d : Nat) (t : PT K V d), WF ORDER d t →
      ∃ LA LB, PT.leaves d t = LA ++ pleaf k d t :: LB ∧
        (Res.leaves d (pins ORDER fresh k v d t)).Perm
          (LA ++ Res.leaves 0 (pins ORDER fresh k v 0 (pleaf k d t : PT K V 0)) ++ LB)
  | 0, l, _ => by
    refine ⟨[], [], rfl, ?_⟩
    simp only [List.nil_append, List.append_nil]
    exact List.Perm.refl _
  | d + 1, n, hwf => by
    classical
    obtain ⟨id, ks, cs⟩ := n
    obtain ⟨hlen, -, -, hwfc⟩ := (WF_succ_iff ORDER d _).mp hwf
    simp only at hlen hwfc
    have hlb := lower_bound_le ks k
    have hi : lower_bound ks k < cs.length := by omega
    have hc : cs[lower_bound ks k]? = some cs[lower_bound ks k] := List.getElem?_eq_getElem hi
    generalize cs[lower_bound ks k] = c at hc
    obtain ⟨A, B, hAB, hAlen⟩ := split_at_index _ _ _ hc
    subst hAB
    have hcmem : c ∈ A ++ c :: B := List.mem_append_right _ (List.mem_cons_self _ _)
    obtain ⟨LAc, LBc, e1, e2⟩ := pins_leaves_perm ORDER fresh k v d c (hwfc c hcmem)
    have hl0 : pleaf k (d + 1) ((⟨id, ks, A ++ c :: B⟩ : NodeR K (PT K V d)) : PT K V (d + 1)) =
        pleaf k d c := pleaf_succ k d _ c hc
    have hleaves : PT.leaves (d + 1)
        ((⟨id, ks, A ++ c :: B⟩ : NodeR K (PT K V d)) : PT K V (d + 1)) =
        (leavesL d A ++ LAc) ++ pleaf k d c :: (LBc ++ leavesL d B) := by
      rw [leaves_succ']
      simp only [leavesL_append, leavesL_cons, e1, List.append_assoc, List.cons_append]
    rw [hl0, pins_succ ORDER fresh k v d _ c hc]
    simp only
    rw [← hAlen]
    refine ⟨leavesL d A ++ LAc, LBc ++ leavesL d B, hleaves, ?_⟩
    cases hp : pins ORDER fresh k v d c with
    | done c1 =>
      rw [hp] at e2
      have e2a : (PT.leaves d c1).Perm
          (LAc ++ Res.leaves 0 (pins ORDER fresh k v 0 (pleaf k d c : PT K V 0)) ++ LBc) := e2
      simp only [pins_node, set_at_index]
      show (PT.leaves (d + 1) _).Perm _
      rw [leaves_succ', List.perm_iff_count]
      intro a
      have q1 := e2a.count_eq a
      simp only [leavesL_append, leavesL_cons, List.count_append] at q1 ⊢
      omega
    | split l pk r =>
      rw [hp] at e2
      have e2a : (PT.leaves d l ++ PT.leaves d r).Perm
          (LAc ++ Res.leaves 0 (pins ORDER fresh k v 0 (pleaf k d c : PT K V 0)) ++ LBc) := e2
      have hbase : (PT.leaves (d + 1)
          (node_ins d ⟨id, ks, A ++ c :: B⟩ A.length l pk r : PT K V (d + 1))).Perm
          (leavesL d A ++ LAc ++
            Res.leaves 0 (pins ORDER fresh k v 0 (pleaf k d c : PT K V 0)) ++
            (LBc ++ leavesL d B)) := by
        rw [leaves_succ']
        simp only [node_ins, set_at_index]
        rw [List.perm_iff_count]
        intro a
        have q1 := e2a.count_eq a
        have q2 := (leavesL_insertAt d (A ++ l :: B) (lower_bound ks pk + 1) r).count_eq a
        simp only [leavesL_append, leavesL_cons, List.count_append] at q1 q2 ⊢
        omega
      simp only [pins_node]
      by_cases hf : ORDER - 1 ≤ (node_ins d ⟨id, ks, A ++ c :: B⟩ A.length l pk r).keys.length
      · simp only [hf, if_true, node_split, Res.leaves]
        rw [leaves_succ', leaves_succ']
        simp only
        rw [leavesL_take_drop, ← leaves_succ']
        exact hbase
      · simp only [hf, if_false, Res.leaves]
        exact hbase

theorem head_id_append (A B : List (LeafR K V)) (hA : A ≠ []) :
    head_id (A ++ B) = head_id A := by
  unfold head_id
  rw [List.head?_append_of_ne_nil _ hA]

theorem head_id_leavesL_cons (d : Nat) (x : PT K V d) (rest : List (PT K V d))
    (hx : PT.leaves d x ≠ []) : head_id (leavesL d (x :: rest)) = head_id (PT.leaves d x) := by
  rw [leavesL_cons, head_id_append _ _ hx]

/-- Replacing a subtree by one with the same first leaf address keeps the
first leaf address of the row. -/
theorem head_id_replace (d : Nat) (A B : List (PT K V d)) (c y : PT K V d)
    (hy : head_id (PT.leaves d y) = head_id (PT.leaves d c))
    (hyne : PT.leaves d y ≠ []) (hcne : PT.leaves d c ≠ [])
    (hA : ∀ a ∈ A, PT.leaves d a ≠ []) :
    head_id (leavesL d (A ++ y :: B)) = head_id (leavesL d (A ++ c :: B)) := by
  cases A with
  | nil =>
    simp only [List.nil_append]
    rw [head_id_leavesL_cons d y B hyne, head_id_leavesL_cons d c B hcne, hy]
  | cons a A1 =>
    have ha := hA a (List.mem_cons_self _ _)
    simp only [List.cons_append]
    rw [head_id_leavesL_cons d a _ ha, head_id_leavesL_cons d a _ ha]

/-- The first leaf of the outcome at a node whose row of children starts
with `x`. -/
theorem head_id_node_out (ORDER fresh : Nat) (k : K) (d : Nat) (N0 : NodeR K (PT K V d))
    (x : PT K V d) (rest : List (PT K V d)) (hc : N0.children = x :: rest)
    (hx : PT.leaves d x ≠ []) :
    head_id (Res.leaves (d + 1)
      (if ORDER - 1 ≤ N0.keys.length then node_split fresh k d N0
       else (.done (N0 : PT K V (d + 1)) : Res K V (d + 1)))) = head_id (PT.leaves d x) := by
  by_cases hf : ORDER - 1 ≤ N0.keys.length
  · simp only [hf, if_true, node_split, Res.leaves]
    rw [leaves_succ']
    simp only
    rw [hc, List.take_succ_cons]
    have hne : leavesL d (x :: List.take (N0.keys.length / 2) rest) ≠ [] := by
      rw [leavesL_cons]
      intro e
      exact hx (List.append_eq_nil.mp e).1
    rw [head_id_append _ _ hne, head_id_leavesL_cons d x _ hx]
  · simp only [hf, if_false, Res.leaves]
    rw [leaves_succ', hc, head_id_leavesL_cons d x _ hx]

/-- An insertion keeps the address of the leftmost leaf. -/
theorem pins_head_id [LinearOrder K] (ORDER fresh : Nat) (k : K) (v : V) :
    ∀ (d : Nat) (t : PT K V d), WF ORDER d t →
      head_id (Res.leaves d (pins ORDER fresh k v d t)) = head_id (PT.leaves d t)
  | 0, l, _ => by
    rw [pins_zero]
    by_cases hf : ORDER - 1 ≤ (leaf_ins k v l).keys.length
    · simp only [hf, if_true]
      simp only [leaf_split, Res.leaves, PT.leaves, head_id, List.singleton_append,
        List.head?_cons, Option.map_some']
      rfl
    · simp only [hf, if_false]
      simp only [Res.leaves, PT.leaves, head_id, List.head?_cons, Option.map_some']
      rfl
  | d + 1, n, hwf => by
    obtain ⟨id, ks, cs⟩ := n
    obtain ⟨hlen, -, -, hwfc⟩ := (WF_succ_iff ORDER d _).mp hwf
    simp only at hlen hwfc
    have hlb := lower_bound_le ks k
    have hi : lower_bound ks k < cs.length := by omega
    have hc : cs[lower_bound ks k]? = some cs[lower_bound ks k] := List.getElem?_eq_getElem hi
    generalize cs[lower_bound ks k] = c at hc
    obtain ⟨A, B, hAB, hAlen⟩ := split_at_index _ _ _ hc
    subst hAB
    have hcmem : c ∈ A ++ c :: B := List.mem_append_right _ (List.mem_cons_self _ _)
    have ih := pins_head_id ORDER fresh k v d c (hwfc c hcmem)
    have hres := pins_WF ORDER fresh k v d c (hwfc c hcmem)
    have hcne := leaves_ne_nil ORDER d c (hwfc c hcmem)
    have hA : ∀ a ∈ A, PT.leaves d a ≠ [] := fun a ha =>
      leaves_ne_nil ORDER d a (hwfc a (List.mem_append_left _ ha))
    rw [pins_succ ORDER fresh k v d _ c hc]
    simp only
    rw [← hAlen, leaves_succ']
    simp only
    cases hp : pins ORDER fresh k v d c with
    | done c1 =>
      rw [hp] at ih hres
      have ih1 : head_id (PT.leaves d c1) = head_id (PT.leaves d c) := ih
      have hw1 : WF ORDER d c1 := hres
      simp only [pins_node, set_at_index, Res.leaves]
      rw [leaves_succ']
      exact head_id_replace d A B c c1 ih1 (leaves_ne_nil ORDER d c1 hw1) hcne hA
    | split l pk r =>
      rw [hp] at ih hres
      have hw : WF ORDER d l ∧ WF ORDER d r := hres
      have hlne := leaves_ne_nil ORDER d l hw.1
      have ih1 : head_id (PT.leaves d l) = head_id (PT.leaves d c) := by
        have ih0 : head_id (PT.leaves d l ++ PT.leaves d r) = head_id (PT.leaves d c) := ih
        rw [head_id_append _ _ hlne] at ih0
        exact ih0
      have hrep := head_id_replace d A B c l ih1 hlne hcne hA
      obtain ⟨x, tl, hx⟩ : ∃ x tl, A ++ l :: B = x :: tl := by
        cases A with
        | nil => exact ⟨l, B, rfl⟩
        | cons a A1 => exact ⟨a, A1 ++ l :: B, rfl⟩
      have hxne : PT.leaves d x ≠ [] := by
        have hxm : x ∈ A ++ l :: B := by
          rw [hx]
          exact List.mem_cons_self _ _
        rcases List.mem_append.mp hxm with h1 | h1
        · exact hA x h1
        · rcases List.mem_cons.mp h1 with rfl | h2
          · exact hlne
          · exact leaves_ne_nil ORDER d x
              (hwfc x (List.mem_append_right _ (List.mem_cons_of_mem _ h2)))
      have hch : (node_ins d ⟨id, ks, A ++ c :: B⟩ A.length l pk r).children =
          x :: insertAt tl (lower_bound ks pk) r := by
        simp only [node_ins, set_at_index]
        rw [hx]
        rfl
      simp only [pins_node]
      rw [head_id_node_out ORDER _ k d _ x _ hch hxne, ← hrep, hx,
        head_id_leavesL_cons d x tl hxne]

/-! ## The sibling chain over a run of insertions, for every key -/

theorem head_id_middle (A B : List (LeafR K V)) (l0 o : LeafR K V) (os : List (LeafR K V))
    (hid : o.id = l0.id) : head_id (A ++ (o :: os) ++ B) = head_id (A ++ l0 :: B) := by
  cases A with
  | nil => simp [head_id, hid]
  | cons a A1 => simp [head_id]

/-- One insertion replaces, in the sibling chain, the leaf it reaches by what
it makes of that leaf, and keeps the rest of the chain. -/
theorem pinsert_Chained [LinearOrder K] (ORDER : Nat) (k : K) (v : V) (d : Nat) (t : PT K V d)
    (cl : List (LeafR K V)) (hwf : WF ORDER d t) (hc : Chained (some ⟨d, t⟩) cl) :
    ∃ A B, cl = A ++ pleaf k d t :: B ∧
      Chained (some (pinsert ORDER k v (some ⟨d, t⟩)))
        (A ++ Res.leaves 0 (pins ORDER (PT.ids d t).length k v 0 (pleaf k d t : PT K V 0)) ++ B) := by
  classical
  obtain ⟨hperm, hlink, hhead⟩ := hc
  have hmem : pleaf k d t ∈ cl := hperm.mem_iff.mpr (pleaf_mem ORDER k d t hwf)
  obtain ⟨A, B, hAB⟩ := List.append_of_mem hmem
  subst hAB
  refine ⟨A, B, rfl, ?_⟩
  obtain ⟨LA, LB, e1, e2⟩ := pins_leaves_perm ORDER (PT.ids d t).length k v d t hwf
  obtain ⟨o, os, f1, f2, f3⟩ :=
    leaf_out_linked ORDER (PT.ids d t).length k v (pleaf k d t) none
  have hh := pins_head_id ORDER (PT.ids d t).length k v d t hwf
  have hlink1 := LinkedTo_replace none (pleaf k d t) o os f2 f3 A B hlink
  have hp1 : (A ++ (o :: os) ++ B).Perm (Res.leaves d (pins ORDER (PT.ids d t).length k v d t)) := by
    refine List.Perm.trans ?_ e2.symm
    rw [f1, List.perm_iff_count]
    intro a
    have q1 := hperm.count_eq a
    rw [e1] at q1
    simp only [List.count_append, count_cons_add] at q1 ⊢
    omega
  have hh1 : head_id (A ++ (o :: os) ++ B) =
      head_id (Res.leaves d (pins ORDER (PT.ids d t).length k v d t)) := by
    rw [hh, ← hhead]
    exact head_id_middle A B _ o os f2
  rw [f1]
  simp only [pinsert]
  cases hp : pins ORDER (PT.ids d t).length k v d t with
  | done t1 =>
    rw [hp] at hp1 hh1
    exact ⟨hp1, hlink1, hh1⟩
  | split l pk r =>
    rw [hp] at hp1 hh1
    have hl : PT.leaves (d + 1)
        ((⟨(PT.ids d t).length + d + 1, [pk], [l, r]⟩ : NodeR K (PT K V d)) : PT K V (d + 1)) =
        PT.leaves d l ++ PT.leaves d r := by
      rw [leaves_succ']
      simp only [leavesL_cons, leavesL_nil, List.append_nil]
    refine ⟨?_, hlink1, ?_⟩
    · rw [hl]
      exact hp1
    · rw [hl]
      exact hh1

/-- The sibling chain after one insertion into a possibly empty tree. -/
theorem pinsert_Chained_ex [LinearOrder K] (ORDER : Nat) (k : K) (v : V) (s : Option (AT K V))
    (cl : List (LeafR K V)) (hwf : WFs ORDER s) (hc : Chained s cl) :
    ∃ cl1, Chained (some (pinsert ORDER k v s)) cl1 := by
  cases s with
  | none =>
    refine ⟨[(⟨0, [k], [v], none⟩ : LeafR K V)], ?_, ?_, ?_⟩
    · exact List.Perm.refl _
    · rfl
    · rfl
  | some s =>
    obtain ⟨d, t⟩ := s
    obtain ⟨A, B, -, h⟩ := pinsert_Chained ORDER k v d t cl hwf hc
    exact ⟨_, h⟩

theorem pinsert_list_Chained [LinearOrder K] (ORDER : Nat) (hO : 3 ≤ ORDER) :
    ∀ (xs : List (K × V)) (s : Option (AT K V)) (cl : List (LeafR K V)),
      WFs ORDER s → Chained s cl → ∃ cl1, Chained (pinsert_list ORDER s xs) cl1
  | [], _, cl, _, hc => ⟨cl, hc⟩
  | (k, v) :: rest, s, cl, hwf, hc => by
    obtain ⟨cl1, h1⟩ := pinsert_Chained_ex ORDER k v s cl hwf hc
    exact pinsert_list_Chained ORDER hO rest _ cl1 (pinsert_WF ORDER hO k v s hwf) h1

theorem pbuild_Chained [LinearOrder K] (ORDER : Nat) (hO : 3 ≤ ORDER) (xs : List (K × V)) :
    ∃ cl, Chained (pbuild ORDER xs) cl :=
  pinsert_list_Chained ORDER hO xs none [] trivial rfl

/-! ## The entries along the sibling chain -/

theorem entriesOf_append (A B : List (LeafR K V)) :
    entriesOf (A ++ B) = entriesOf A ++ entriesOf B := by
  simp [entriesOf]

theorem entriesOf_nil : entriesOf ([] : List (LeafR K V)) = [] := rfl

theorem entriesOf_cons (l : LeafR K V) (B : List (LeafR K V)) :
    entriesOf (l :: B) = l.keys.zip l.values ++ entriesOf B := by
  simp [entriesOf, LeafR.entries]

/-- The entries of what an insertion makes of a leaf: the entries of the leaf
with the new pair at the lower-bound position of its key. -/
theorem leaf_out_entries [LinearOrder K] (ORDER fresh : Nat) (k : K) (v : V) (l : LeafR K V)
    (hv : l.values.length = l.keys.length) :
    entriesOf (Res.leaves 0 (pins ORDER fresh k v 0 (l : PT K V 0))) =
      insertAt (l.keys.zip l.values) (lower_bound l.keys k) (k, v) := by
  have hins : (leaf_ins k v l).keys.zip (leaf_ins k v l).values =
      insertAt (l.keys.zip l.values) (lower_bound l.keys k) (k, v) :=
    zip_insertAt l.keys l.values _ k v hv
  rw [pins_zero]
  by_cases hf : ORDER - 1 ≤ (leaf_ins k v l).keys.length
  · simp only [hf, if_true]
    simp only [leaf_split, Res.leaves, PT.leaves, List.singleton_append, entriesOf_cons,
      entriesOf_nil, List.append_nil]
    rw [zip_take_drop, hins]
  · simp only [hf, if_false]
    simp only [Res.leaves, PT.leaves, entriesOf_cons, entriesOf_nil, List.append_nil]
    exact hins

/-- On a store that holds a tree, the walk along the `next` links from the
leftmost leaf visits the sibling chain of the tree, and the entries of any
leaves of the chain are those of their records. -/
theorem chain_general [LinearOrder K] (ORDER : Nat) (T : BPlusTree K V) (d : Nat)
    (t : PT K V d) (cl : List (LeafR K V)) (ha : Abs T (some ⟨d, t⟩)) (hwf : WF ORDER d t)
    (hc : Chained (some ⟨d, t⟩) cl) :
    chain T = some (cl.map (fun l => l.id)) ∧
    ∀ (sub : List (LeafR K V)), (∀ l ∈ sub, l ∈ cl) →
      entries_of T.heap (sub.map (fun l => l.id)) = some (entriesOf sub) := by
  obtain ⟨hroot, hrep, hperm⟩ := ha
  obtain ⟨hp, hlink, hhead⟩ := hc
  have hlen : (PT.ids d t).length = T.heap.length := by
    rw [hperm.length_eq, List.length_range]
  have hd := height_lt_ids ORDER d t hwf
  obtain ⟨l, rest, e1, e2⟩ :=
    leftmost_below_spec ORDER T.heap d t none T.heap.length hrep hwf (by omega)
  have hrec : ∀ l1 ∈ cl, ∃ q, T.heap[l1.id]? = some (leaf_rec q l1) := fun l1 h1 =>
    Rep_leaves T.heap d t none hrep l1 (hp.mem_iff.mp h1)
  refine ⟨?_, ?_⟩
  · have hcf := chain_from_spec T.heap cl T.heap.length hlink hrec (by
      have := leaves_length_le d t
      have := hp.length_eq
      omega)
    simp only [chain, hroot, e2]
    rw [← hcf]
    cases cl with
    | nil =>
      have := hp.length_eq
      rw [e1] at this
      simp at this
    | cons c0 r0 =>
      rw [e1] at hhead
      simp only [head_id, List.head?_cons, Option.map_some', Option.some.injEq] at hhead
      simp only [next_of, hhead]
  · intro sub hsub
    exact entries_of_spec T.heap sub (fun l1 h1 =>
      ⟨hrec l1 (hsub l1 h1),
        ((WF_zero_iff ORDER l1).mp (WF_leaves ORDER d t hwf l1 (hp.mem_iff.mp (hsub l1 h1)))).1⟩)

/-- C17 (amended): for every `ORDER >= 3`, every non-empty run of `insert`
calls on the empty tree (with repeated keys or not) and every further
`insert(k, v)`: let `a` be the leaf `find_leaf(k)` reaches and `l` its record.
The entries read along the sibling chain afterwards are the entries read along
it before, in unchanged order, with `(k, v)` put into the entries of `l` at the
lower-bound position of `k`: behind the entries of `l` with a smaller key and
in front of all its entries with a key `>= k`, so in front of every entry of
that leaf with the same key. -/
theorem insert_before_equal_keys [LinearOrder K] (ORDER : Nat) (hO : 3 ≤ ORDER)
    (xs : List (K × V)) (hne : xs ≠ []) (k : K) (v : V) :
    ∃ (T T1 : BPlusTree K V) (a : Nat) (l : Node K V) (ca cb : List Nat) (A B : List (K × V)),
      build ORDER xs = some T ∧ insert ORDER T k v = some T1 ∧
      find_leaf T k = some (some a) ∧ T.heap[a]? = some l ∧
      chain T = some (ca ++ a :: cb) ∧
      entries_of T.heap ca = some A ∧ entries_of T.heap cb = some B ∧
      chain_entries T = some (A ++ l.keys.zip l.values ++ B) ∧
      chain_entries T1 =
        some (A ++ insertAt (l.keys.zip l.values) (lower_bound l.keys k) (k, v) ++ B) ∧
      (∀ e ∈ (l.keys.zip l.values).take (lower_bound l.keys k), e.1 < k) ∧
      (∀ e ∈ (l.keys.zip l.values).drop (lower_bound l.keys k), k ≤ e.1) := by
  obtain ⟨T, hb, ha, hwf⟩ := build_refines ORDER hO xs
  obtain ⟨T1, hi, ha1⟩ := insert_refines ORDER k v T _ ha hwf
  have hwf1 := pinsert_WF ORDER hO k v _ hwf
  obtain ⟨cl, hcl⟩ := pbuild_Chained ORDER hO xs
  have hperm := pbuild_entries ORDER hO xs
  cases hs : pbuild ORDER xs with
  | none =>
    rw [hs] at hperm
    have hnil : xs = [] := by
      have := hperm.length_eq
      simp only [pentries, List.length_nil] at this
      exact List.length_eq_zero.mp this.symm
    exact absurd hnil hne
  | some st =>
    obtain ⟨d, t⟩ := st
    rw [hs] at ha hwf ha1 hwf1 hcl
    have hwft : WF ORDER d t := hwf
    obtain ⟨Acl, Bcl, hAB, hcl1⟩ := pinsert_Chained ORDER k v d t cl hwft hcl
    subst hAB
    obtain ⟨g1, g2⟩ := chain_general ORDER T d t _ ha hwft hcl
    have hl0mem := pleaf_mem ORDER k d t hwft
    obtain ⟨hv, -, -, hsorted⟩ := (WF_zero_iff ORDER _).mp (WF_leaves ORDER d t hwft _ hl0mem)
    obtain ⟨q, hq⟩ := Rep_leaves T.heap d t none ha.2.1 _ hl0mem
    have hfind := (find_spec ORDER k T d t ha hwft).1
    -- the chain after the insertion
    have hchain1 : chain_entries T1 = some (entriesOf (Acl ++
        Res.leaves 0 (pins ORDER (PT.ids d t).length k v 0 (pleaf k d t : PT K V 0)) ++ Bcl)) := by
      cases hps : pinsert ORDER k v (some ⟨d, t⟩) with
      | mk d1 t1 =>
        rw [hps] at ha1 hwf1 hcl1
        have hw1 : WF ORDER d1 t1 := hwf1
        obtain ⟨u1, u2⟩ := chain_general ORDER T1 d1 t1 _ ha1 hw1 hcl1
        simp only [chain_entries, u1]
        exact u2 _ (fun _ h => h)
    have hchain0 : chain_entries T = some (entriesOf (Acl ++ pleaf k d t :: Bcl)) := by
      simp only [chain_entries, g1]
      exact g2 _ (fun _ h => h)
    have hlen : (pleaf k d t).values.length = (pleaf k d t).keys.length := hv
    have hzt : ∀ (m : Nat), ∀ e ∈ ((pleaf k d t).keys.zip (pleaf k d t).values).take m,
        e.1 ∈ (pleaf k d t).keys.take m := by
      intro m e he
      have h1 : ((pleaf k d t).keys.zip (pleaf k d t).values).take m =
          ((pleaf k d t).keys.take m).zip ((pleaf k d t).values.take m) := List.take_zipWith
      rw [h1] at he
      exact (List.of_mem_zip he).1
    have hzd : ∀ (m : Nat), ∀ e ∈ ((pleaf k d t).keys.zip (pleaf k d t).values).drop m,
        e.1 ∈ (pleaf k d t).keys.drop m := by
      intro m e he
      have h1 : ((pleaf k d t).keys.zip (pleaf k d t).values).drop m =
          ((pleaf k d t).keys.drop m).zip ((pleaf k d t).values.drop m) := List.drop_zipWith
      rw [h1] at he
      exact (List.of_mem_zip he).1
    refine ⟨T, T1, (pleaf k d t).id, leaf_rec q (pleaf k d t),
      Acl.map (fun l => l.id), Bcl.map (fun l => l.id), entriesOf Acl, entriesOf Bcl,
      hb, hi, hfind, hq, ?_, ?_, ?_, ?_, ?_, ?_, ?_⟩
    · rw [g1]
      simp only [List.map_append, List.map_cons]
    · exact g2 Acl (fun l1 h1 => List.mem_append_left _ h1)
    · exact g2 Bcl (fun l1 h1 => List.mem_append_right _ (List.mem_cons_of_mem _ h1))
    · rw [hchain0, entriesOf_append, entriesOf_cons, List.append_assoc]
      rfl
    · rw [hchain1, entriesOf_append, entriesOf_append,
        leaf_out_entries ORDER _ k v _ hlen]
      rfl
    · intro e he
      exact lt_of_mem_take_lower_bound k _ _ (hzt _ e he)
    · intro e he
      exact le_of_mem_drop_lower_bound k _ hsorted _ (hzd _ e he)

theorem insert_before_equal_keys_witness :
    (3 ≤ 4 ∧ [((5 : Nat), "a")] ≠ []) ∧
    ∃ (T T1 : BPlusTree Nat String) (a : Nat) (l : Node Nat String) (ca cb : List Nat)
      (A B : List (Nat × String)),
      build 4 [((5 : Nat), "a")] = some T ∧ insert 4 T 5 "b" = some T1 ∧
      find_leaf T 5 = some (some a) ∧ T.heap[a]? = some l ∧
      chain T = some (ca ++ a :: cb) ∧
      entries_of T.heap ca = some A ∧ entries_of T.heap cb = some B ∧
      chain_entries T = some (A ++ l.keys.zip l.values ++ B) ∧
      chain_entries T1 =
        some (A ++ insertAt (l.keys.zip l.values) (lower_bound l.keys 5) (5, "b") ++ B) ∧
      (∀ e ∈ (l.keys.zip l.values).take (lower_bound l.keys 5), e.1 < 5) ∧
      (∀ e ∈ (l.keys.zip l.values).drop (lower_bound l.keys 5), 5 ≤ e.1) :=
  ⟨⟨by decide, by decide⟩,
    insert_before_equal_keys 4 (by decide) [((5 : Nat), "a")] (by decide) 5 "b"⟩

end BTree
